import Mathlib

/-!
# File publisher stream: recording session, path macros, directory provisioning

Shallow embedding of `src/projects/publishers/file/file_stream.cpp`.

* `ov::String` and `std::string` values are lists of characters (`Str`).
* The member `_writer` is an `Option`: `none` is `nullptr`.
* Everything outside the translation unit (the file writer, the filesystem,
  `ov::PathManager::ExtractPath`) is a parameter collected in `Env`; every
  call that leaves the translation unit is appended to the log of the `World`.
-/

namespace FilePublisher

/-- Character strings (`ov::String`, `std::string`, `const char *`). -/
abbrev Str := List Char

/-! ## `ov::String` helpers used by `ConvertMacro` -/

/-- Modelled from the spec: `ov::String::IndexOf` is declared outside the given source.
It returns the index of the first occurrence of `sub` in the string counted from
`i`, and `-1` when there is none. -/
def indexOfFrom (sub : Str) : Str → Nat → Int
  | [], i => if sub.isEmpty then (i : Int) else -1
  | c :: t, i => if sub.isPrefixOf (c :: t) then (i : Int) else indexOfFrom sub t (i + 1)

/-- Modelled from the spec: `ov::String::IndexOf(sub)`, the first occurrence of `sub` or `-1`. -/
def IndexOf (s sub : Str) : Int := indexOfFrom sub s 0

/-- Left-to-right scan of `ov::String::Replace`: the counter is the number of
characters of an occurrence of `old` that are still to be skipped. -/
def replaceFrom (old new : Str) : Nat → Str → Str
  | _, [] => []
  | k + 1, _ :: t => replaceFrom old new k t
  | 0, c :: t =>
    if old.isPrefixOf (c :: t) then new ++ replaceFrom old new (old.length - 1) t
    else c :: replaceFrom old new 0 t

/-- Modelled from the spec: `ov::String::Replace(old, new)` is declared outside the given
source. Substitution is textual: every occurrence of `old`, found from left to
right without overlap, is replaced by `new`; an empty `old` changes nothing. -/
def Replace (s old new : Str) : Str :=
  if old.isEmpty then s else replaceFrom old new 0 s

/-! ## The regular expression `\$\{([a-zA-Z0-9:]+)\}` -/

/-- The character class `[a-zA-Z0-9:]`. -/
def isGroupChar (c : Char) : Bool := c.isAlphanum || c == ':'

/-- One match of the regular expression: `full` is `matches[0]`, `group` is `matches[1]`. -/
structure Match where
  full : Str
  group : Str
deriving DecidableEq, Repr

/-- The text `${group}`. -/
def tokenText (g : Str) : Str := '$' :: '{' :: (g ++ ['}'])

/-- Does `\$\{([a-zA-Z0-9:]+)\}` match at the very start of the string? The
character class is greedy and excludes the closing brace, so the capture group is the
longest run of class characters and must be followed by the brace. -/
def matchHere : Str → Option Match
  | '$' :: '{' :: t =>
    let g := t.takeWhile isGroupChar
    if g.isEmpty then none
    else
      match t.dropWhile isGroupChar with
      | '}' :: _ => some ⟨tokenText g, g⟩
      | _ => none
  | _ => none

/-- The matches produced by `std::sregex_iterator`: repeated leftmost search, each
search starting where the previous match ended. The counter is the number of
characters of the current match still to be passed. -/
def regexFrom : Nat → Str → List Match
  | _, [] => []
  | k + 1, _ :: t => regexFrom k t
  | 0, c :: t =>
    match matchHere (c :: t) with
    | some m => m :: regexFrom (m.group.length + 2) t
    | none => regexFrom 0 t

/-- All matches of the macro regular expression in `raw_string`, in order. -/
def regexMatches (raw_string : Str) : List Match := regexFrom 0 raw_string

/-! ## Local time and `strftime` -/

/-- The broken-down local time `localtime(&now)`; `year` is the calendar year
(`tm_year + 1900`) and `month` is `tm_mon + 1`. -/
structure LocalTime where
  year : Nat
  month : Nat
  day : Nat
  hour : Nat
  minute : Nat
  second : Nat
deriving DecidableEq, Repr

/-- A number in decimal. -/
def decimal (n : Nat) : Str := Nat.toDigits 10 n

/-- Two-digit, zero-padded decimal (`%m`, `%d`, `%H`, `%M`, `%S`). -/
def pad2 (n : Nat) : Str := if n < 10 then '0' :: decimal n else decimal n

/-- The call `strftime(buff, sizeof(buff), "%Y", localtime(&now))`: the year as a decimal number. -/
def strftime_Y (t : LocalTime) : Str := decimal t.year
/-- The call `strftime` with `"%m"`. -/
def strftime_m (t : LocalTime) : Str := pad2 t.month
/-- The call `strftime` with `"%d"`. -/
def strftime_d (t : LocalTime) : Str := pad2 t.day
/-- The call `strftime` with `"%H"`. -/
def strftime_H (t : LocalTime) : Str := pad2 t.hour
/-- The call `strftime` with `"%M"`. -/
def strftime_M (t : LocalTime) : Str := pad2 t.minute
/-- The call `strftime` with `"%S"`. -/
def strftime_S (t : LocalTime) : Str := pad2 t.second

/-! ## `FileStream::ConvertMacro` -/

/-- What `ConvertMacro` reads from the surrounding objects: `host_info.GetName()`,
`GetApplicationInfo().GetName()`, the stream's `GetName()`, and the local time
obtained from `time(NULL)`. -/
structure Context where
  host_name : Str
  app_name : Str
  stream_name : Str
  now : LocalTime
deriving DecidableEq, Repr

/-- The body shared by the `StartTime` and `EndTime` branches: `name` is
`"StartTime"` or `"EndTime"`. -/
def timeString (name : Str) (group : Str) (t : LocalTime) : Str :=
  let str_time := group
  let str_time := Replace str_time (name ++ [':']) []
  let str_time := Replace str_time "YYYY".toList (strftime_Y t)
  let str_time := Replace str_time "MM".toList (strftime_m t)
  let str_time := Replace str_time "DD".toList (strftime_d t)
  let str_time := Replace str_time "hh".toList (strftime_H t)
  let str_time := Replace str_time "mm".toList (strftime_M t)
  let str_time := Replace str_time "ss".toList (strftime_S t)
  str_time

/-- The application name with every `#<host>#` replaced by the empty string
(lines 320 to 322). -/
def applicationName (ctx : Context) : Str :=
  let pfx := '#' :: (ctx.host_name ++ ['#'])
  Replace ctx.app_name pfx []

/-- The body of the loop over the regular-expression matches (lines 302 to 381):
six independent `if`s, each rewriting `replaced_string`. -/
def macroStep (ctx : Context) (replaced_string : Str) (m : Match) : Str :=
  let r := replaced_string
  let r := if IndexOf m.group "VirtualHost".toList ≠ -1 then Replace r m.full ctx.host_name else r
  let r := if IndexOf m.group "Application".toList ≠ -1 then Replace r m.full (applicationName ctx) else r
  let r := if IndexOf m.group "Stream".toList ≠ -1 then Replace r m.full ctx.stream_name else r
  let r := if IndexOf m.group "Sequence".toList ≠ -1 then Replace r m.full ['0'] else r
  let r := if IndexOf m.group "StartTime".toList ≠ -1 then
      Replace r m.full (timeString "StartTime".toList m.group ctx.now) else r
  let r := if IndexOf m.group "EndTime".toList ≠ -1 then
      Replace r m.full (timeString "EndTime".toList m.group ctx.now) else r
  r

/-- The method `FileStream::ConvertMacro`: the matches are taken from `raw_string` (the
template as given), the replacements are made on `replaced_string`. -/
def ConvertMacro (ctx : Context) (src : Str) : Str :=
  (regexMatches src).foldl (macroStep ctx) src

/-! ## Tracks, the file writer and the filesystem -/

/-- The part of `MediaTrack` that `RecordStart` reads. -/
structure MediaTrack where
  id : Int
  mediaType : Nat
  codecId : Nat
  bitrate : Int
  timeBase : Int × Int
  width : Int
  height : Int
  sample : Nat
  channel : Nat
deriving DecidableEq, Repr

/-- `FileTrackQuality`, as filled in by the setters of lines 99 to 105. -/
structure FileTrackQuality where
  codecId : Nat
  bitrate : Int
  timeBase : Int × Int
  width : Int
  height : Int
  sample : Nat
  channel : Nat
deriving DecidableEq, Repr

/-- The part of `MediaPacket` that the frame senders read. -/
structure MediaPacket where
  trackId : Int
  pts : Int
  dts : Int
  flag : Nat
  data : List Nat
deriving DecidableEq, Repr

/-- Outcome of `::mkdir`: `0`, `-1` with `errno == EEXIST`, `-1` with another `errno`. -/
inductive MkdirResult where
  | ok
  | eexist
  | failed
deriving DecidableEq, Repr

/-- A call that leaves the translation unit, with its arguments and its result.
Writers are named by the handle that `FileWriter::Create` returned. -/
inductive Event where
  | create (wr : Nat)
  | setPath (wr : Nat) (path format : Str) (ret : Bool)
  | addTrack (wr : Nat) (mediaType : Nat) (id : Int) (quality : FileTrackQuality) (ret : Bool)
  | start (wr : Nat) (ret : Bool)
  | stop (wr : Nat)
  | putData (wr : Nat) (trackId pts dts : Int) (flag : Nat) (data : List Nat) (ret : Bool)
  | access (path : Str) (ret : Bool)
  | mkdir (path : Str) (ret : MkdirResult)
  | rename (src dst : Str) (ret : Bool)
deriving DecidableEq, Repr

/-- The collaborators of `FileStream`, as functions on a state `ε` that stands for
everything outside the session (the filesystem and the writer objects). -/
structure Env (ε : Type) where
  /-- The test `access(path, R_OK | W_OK) == 0`. -/
  access : ε → Str → Bool
  /-- The call `::mkdir(path, mode)`. -/
  mkdir : ε → Str → MkdirResult × ε
  /-- The test `rename(src, dst) == 0`. -/
  rename : ε → Str → Str → Bool × ε
  /-- The call `FileWriter::Create()`. -/
  create : ε → Nat × ε
  /-- The call `FileWriter::SetPath(path, format)`. -/
  setPath : ε → Nat → Str → Str → Bool × ε
  /-- The call `FileWriter::AddTrack(media_type, track_id, quality)`. -/
  addTrack : ε → Nat → Nat → Int → FileTrackQuality → Bool × ε
  /-- The call `FileWriter::Start()`. -/
  start : ε → Nat → Bool × ε
  /-- The call `FileWriter::Stop()`; the result is not read. -/
  stop : ε → Nat → ε
  /-- The call `FileWriter::GetPath()`. -/
  getPath : ε → Nat → Str
  /-- The call `FileWriter::PutData(track_id, pts, dts, flag, data)`. -/
  putData : ε → Nat → MediaPacket → Bool × ε
  /-- The call `ov::PathManager::ExtractPath(path)`. -/
  extractPath : Str → Str

/-- The state outside the session together with the log of the calls made so far
(oldest first). -/
structure World (ε : Type) where
  ext : ε
  log : List Event
deriving DecidableEq

namespace World

variable {ε : Type}

/-- Append an event to the log. -/
def emit (w : World ε) (ext : ε) (e : Event) : World ε := ⟨ext, w.log ++ [e]⟩

def doAccess (E : Env ε) (w : World ε) (path : Str) : Bool × World ε :=
  let r := E.access w.ext path
  (r, w.emit w.ext (.access path r))

def doMkdir (E : Env ε) (w : World ε) (path : Str) : MkdirResult × World ε :=
  let r := E.mkdir w.ext path
  (r.1, w.emit r.2 (.mkdir path r.1))

def doRename (E : Env ε) (w : World ε) (src dst : Str) : Bool × World ε :=
  let r := E.rename w.ext src dst
  (r.1, w.emit r.2 (.rename src dst r.1))

def doCreate (E : Env ε) (w : World ε) : Nat × World ε :=
  let r := E.create w.ext
  (r.1, w.emit r.2 (.create r.1))

def doSetPath (E : Env ε) (w : World ε) (wr : Nat) (path format : Str) : Bool × World ε :=
  let r := E.setPath w.ext wr path format
  (r.1, w.emit r.2 (.setPath wr path format r.1))

def doAddTrack (E : Env ε) (w : World ε) (wr : Nat) (mediaType : Nat) (id : Int)
    (quality : FileTrackQuality) : Bool × World ε :=
  let r := E.addTrack w.ext wr mediaType id quality
  (r.1, w.emit r.2 (.addTrack wr mediaType id quality r.1))

def doStart (E : Env ε) (w : World ε) (wr : Nat) : Bool × World ε :=
  let r := E.start w.ext wr
  (r.1, w.emit r.2 (.start wr r.1))

def doStop (E : Env ε) (w : World ε) (wr : Nat) : World ε :=
  w.emit (E.stop w.ext wr) (.stop wr)

def doPutData (E : Env ε) (w : World ε) (wr : Nat) (p : MediaPacket) : Bool × World ε :=
  let r := E.putData w.ext wr p
  (r.1, w.emit r.2 (.putData wr p.trackId p.pts p.dts p.flag p.data r.1))

end World

/-! ## `FileStream::MakeDirectoryRecursive` -/

/-- The call `std::string::find_first_of(c, pos)`; `none` is `npos`. -/
def find_first_of (s : Str) (c : Char) (pos : Nat) : Option Nat :=
  let i := pos + (s.drop pos).findIdx (· == c)
  if i < s.length then some i else none

/-- The `while` loop of lines 247 to 261, one iteration per unit of fuel. The result
is `some false` for the `return false` inside the loop, `some true` when the loop
condition fails, and `none` when the fuel runs out. -/
def mkdirLoop {ε : Type} (E : Env ε) (s : Str) : Nat → Nat → World ε → Option (Bool × World ε)
  | 0, _, _ => none
  | fuel + 1, pos, w =>
    match find_first_of s '/' pos with
    | none => some (true, w)
    | some p =>
      let dir := s.take p
      let pos := p + 1
      if dir.length = 0 then mkdirLoop E s fuel pos w
      else
        let r := w.doMkdir E dir
        if r.1 = MkdirResult.failed then some (false, r.2)
        else mkdirLoop E s fuel pos r.2

/-- The method `FileStream::MakeDirectoryRecursive`. `none` stands for an execution without a
defined result: the read `s[s.size() - 1]` of an empty string, whose index
`size_t(0) - 1` lies outside the string. -/
def MakeDirectoryRecursive {ε : Type} (E : Env ε) (s : Str) (w : World ε) :
    Option (Bool × World ε) :=
  let a := w.doAccess E s
  if a.1 then some (true, a.2)
  else
    match s.getLast? with
    | none => none
    | some last =>
      let s := if last ≠ '/' then s ++ ['/'] else s
      match mkdirLoop E s (s.length + 1) 0 a.2 with
      | none => none
      | some (false, w) => some (false, w)
      | some (true, w) =>
        let b := w.doAccess E s
        if b.1 then some (true, b.2) else some (false, b.2)

/-! ## The recording session -/

/-- The session: the member `_writer`, the track map `_tracks` in iteration order,
and what the accessors of the stream, the application and the configuration return. -/
structure FileStream where
  writer : Option Nat
  tracks : List (Int × MediaTrack)
  host_name : Str
  app_name : Str
  stream_name : Str
  file_path : Str
  file_info_path : Str
deriving DecidableEq, Repr

/-- The macro context of a session at local time `now`. -/
def FileStream.context (self : FileStream) (now : LocalTime) : Context :=
  ⟨self.host_name, self.app_name, self.stream_name, now⟩

/-- The method `FileStream::GetOutputTempFilePath`. -/
def GetOutputTempFilePath (self : FileStream) (now : LocalTime) : Str :=
  ConvertMacro (self.context now) self.file_path ++ ".tmp".toList

/-- The method `FileStream::GetOutputFilePath`. -/
def GetOutputFilePath (self : FileStream) (now : LocalTime) : Str :=
  ConvertMacro (self.context now) self.file_path

/-- The method `FileStream::GetOutputFileInfoPath`. -/
def GetOutputFileInfoPath (self : FileStream) (now : LocalTime) : Str :=
  ConvertMacro (self.context now) self.file_info_path

/-- The quality object built in lines 97 to 105. -/
def qualityOf (track : MediaTrack) : FileTrackQuality where
  codecId := track.codecId
  bitrate := track.bitrate
  timeBase := track.timeBase
  width := track.width
  height := track.height
  sample := track.sample
  channel := track.channel

/-- The loop over `_tracks` of lines 85 to 112. A failed `AddTrack` is only logged. -/
def addTracks {ε : Type} (E : Env ε) (wr : Nat) (selected_tracks : List Int) :
    List (Int × MediaTrack) → World ε → World ε
  | [], w => w
  | track_item :: rest, w =>
    let track := track_item.2
    if (selected_tracks.isEmpty != true) && !(selected_tracks.elem track.id) then
      addTracks E wr selected_tracks rest w
    else
      let quality := qualityOf track
      let r := w.doAddTrack E wr track.mediaType track.id quality
      addTracks E wr selected_tracks rest r.2

/-- The method `FileStream::RecordStart`, run at local time `now`. -/
def RecordStart {ε : Type} (E : Env ε) (now : LocalTime) (selected_tracks : List Int)
    (self : FileStream) (w : World ε) : Option (FileStream × World ε) :=
  let c := w.doCreate E
  let self := { self with writer := some c.1 }
  let w := c.2
  let tmp_output_fullpath := GetOutputTempFilePath self now
  let tmp_output_directory := E.extractPath tmp_output_fullpath
  match MakeDirectoryRecursive E tmp_output_directory w with
  | none => none
  | some (false, w) => some (self, w)
  | some (true, w) =>
    let p := w.doSetPath E c.1 tmp_output_fullpath "mpegts".toList
    if p.1 = false then some ({ self with writer := none }, p.2)
    else
      let w := addTracks E c.1 selected_tracks self.tracks p.2
      let s := w.doStart E c.1
      if s.1 = false then some ({ self with writer := none }, s.2)
      else some (self, s.2)

/-- The method `FileStream::RecordStop`, run at local time `now`. -/
def RecordStop {ε : Type} (E : Env ε) (now : LocalTime) (self : FileStream) (w : World ε) :
    Option (FileStream × World ε) :=
  match self.writer with
  | none => some (self, w)
  | some wr =>
    let w := w.doStop E wr
    let tmp_output_path := E.getPath w.ext wr
    let output_path := GetOutputFilePath self now
    let output_direcotry := E.extractPath output_path
    match MakeDirectoryRecursive E output_direcotry w with
    | none => none
    | some (false, w) => some (self, w)
    | some (true, w) =>
      let info_path := GetOutputFileInfoPath self now
      let info_directory := E.extractPath info_path
      match MakeDirectoryRecursive E info_directory w with
      | none => none
      | some (false, w) => some (self, w)
      | some (true, w) =>
        let r := w.doRename E tmp_output_path output_path
        some (self, r.2)

/-- The method `FileStream::SendVideoFrame`. -/
def SendVideoFrame {ε : Type} (E : Env ε) (media_packet : MediaPacket) (self : FileStream)
    (w : World ε) : FileStream × World ε :=
  match self.writer with
  | none => (self, w)
  | some wr => (self, (w.doPutData E wr media_packet).2)

/-- The method `FileStream::SendAudioFrame`. -/
def SendAudioFrame {ε : Type} (E : Env ε) (media_packet : MediaPacket) (self : FileStream)
    (w : World ε) : FileStream × World ε :=
  match self.writer with
  | none => (self, w)
  | some wr => (self, (w.doPutData E wr media_packet).2)

/-- The session as the constructor leaves it: `_writer(nullptr)`. -/
def FileStream.initial (tracks : List (Int × MediaTrack)) (host_name app_name stream_name
    file_path file_info_path : Str) : FileStream :=
  ⟨none, tracks, host_name, app_name, stream_name, file_path, file_info_path⟩

/-! ## A small concrete environment -/

/-- The directory part of a path: everything up to and including the last `/`
(the whole path when there is none). -/
def dirPart (path : Str) : Str :=
  if path.elem '/' then (path.reverse.dropWhile (· != '/')).reverse else path

/-- A concrete environment. The state lists the path of every writer created so far
(the handle is the position). Every filesystem call answers `fsOk` and every writer
call answers `true`. -/
def simpleEnv (fsOk : Bool) : Env (List Str) where
  access := fun _ _ => fsOk
  mkdir := fun e _ => (if fsOk then MkdirResult.ok else MkdirResult.failed, e)
  rename := fun e _ _ => (fsOk, e)
  create := fun e => (e.length, e ++ [[]])
  setPath := fun e wr path _ => (true, e.set wr path)
  addTrack := fun e _ _ _ _ => (true, e)
  start := fun e _ => (true, e)
  stop := fun e _ => e
  getPath := fun e wr => e.getD wr []
  putData := fun e _ _ => (true, e)
  extractPath := dirPart

/-- The world before any call. -/
def World.empty : World (List Str) := ⟨[], []⟩

/-! ## Reading the log -/

/-- Filesystem calls made by directory provisioning. -/
def Event.isFs : Event → Bool
  | .access _ _ => true
  | .mkdir _ _ => true
  | _ => false

/-- The arguments of an `AddTrack` call. -/
def Event.addTrackArgs : Event → Option (Nat × Int × FileTrackQuality)
  | .addTrack _ mediaType id quality _ => some (mediaType, id, quality)
  | _ => none

/-- The arguments and the result of a `rename` call. -/
def Event.renameArgs : Event → Option (Str × Str × Bool)
  | .rename src dst ret => some (src, dst, ret)
  | _ => none

/-- The `AddTrack` calls of a log, in order. -/
def addTrackCalls (log : List Event) : List (Nat × Int × FileTrackQuality) :=
  log.filterMap Event.addTrackArgs

/-- The `rename` calls of a log, in order. -/
def renameCalls (log : List Event) : List (Str × Str × Bool) :=
  log.filterMap Event.renameArgs

/-- The tracks the specification asks `RecordStart` to register: all of them when the
selection is empty, otherwise those whose id occurs in the selection. -/
def tracksToRegister (selected_tracks : List Int) (tracks : List (Int × MediaTrack)) :
    List MediaTrack :=
  (tracks.map Prod.snd).filter (fun t => selected_tracks.isEmpty || selected_tracks.elem t.id)

/-- What one registration hands to the writer. -/
def registration (t : MediaTrack) : Nat × Int × FileTrackQuality :=
  (t.mediaType, t.id, ⟨t.codecId, t.bitrate, t.timeBase, t.width, t.height, t.sample, t.channel⟩)

/-! ## Examples used by the witnesses -/

/-- A video track with the given id. -/
def sampleTrack (i : Int) : Int × MediaTrack := (i, ⟨i, 0, 1, 1000, (1, 90000), 640, 480, 0, 0⟩)

/-- A fresh session with tracks 1, 2 and 3. -/
def sampleStream : FileStream :=
  FileStream.initial [sampleTrack 1, sampleTrack 2, sampleTrack 3] "vhost".toList
    "#vhost#live".toList "abc".toList "/rec/${Application}/${Stream}.ts".toList
    "/rec/info/${Stream}.xml".toList

/-- The local time 2024-05-01 13:07:09. -/
def sampleTime : LocalTime := ⟨2024, 5, 1, 13, 7, 9⟩

/-! ## Specification-side definitions for the path macros -/

/-- One decimal digit of `n`: the digit of weight one. -/
def digit (n : Nat) : Char := Nat.digitChar (n % 10)

/-- The year as four zero-padded digits. -/
def zeroPadded4 (n : Nat) : Str := [digit (n / 1000), digit (n / 100), digit (n / 10), digit n]

/-- A calendar field as two zero-padded digits. -/
def zeroPadded2 (n : Nat) : Str := [digit (n / 10), digit n]

/-- A local time as `localtime` returns it for a four-digit year. -/
def LocalTime.valid (t : LocalTime) : Prop :=
  1000 ≤ t.year ∧ t.year ≤ 9999 ∧ 1 ≤ t.month ∧ t.month ≤ 12 ∧ 1 ≤ t.day ∧ t.day ≤ 31 ∧
    t.hour ≤ 23 ∧ t.minute ≤ 59 ∧ t.second ≤ 60

instance (t : LocalTime) : Decidable t.valid := by
  unfold LocalTime.valid; infer_instance

/-- The format of the specification: one pass over the format string in which each
occurrence of `YYYY`, `MM`, `DD`, `hh`, `mm`, `ss` is replaced by the given value and
every other character is kept. The counter is the number of characters of the current
occurrence still to be passed. -/
def formatWith (vY vM vD vh vm vs : Str) : Nat → Str → Str
  | _, [] => []
  | k + 1, _ :: r => formatWith vY vM vD vh vm vs k r
  | 0, c :: r =>
    if ['Y', 'Y', 'Y', 'Y'].isPrefixOf (c :: r) then vY ++ formatWith vY vM vD vh vm vs 3 r
    else if ['M', 'M'].isPrefixOf (c :: r) then vM ++ formatWith vY vM vD vh vm vs 1 r
    else if ['D', 'D'].isPrefixOf (c :: r) then vD ++ formatWith vY vM vD vh vm vs 1 r
    else if ['h', 'h'].isPrefixOf (c :: r) then vh ++ formatWith vY vM vD vh vm vs 1 r
    else if ['m', 'm'].isPrefixOf (c :: r) then vm ++ formatWith vY vM vD vh vm vs 1 r
    else if ['s', 's'].isPrefixOf (c :: r) then vs ++ formatWith vY vM vD vh vm vs 1 r
    else c :: formatWith vY vM vD vh vm vs 0 r

/-- The format string with the zero-padded fields of the local time `t`. -/
def formatTime (t : LocalTime) (fmt : Str) : Str :=
  formatWith (zeroPadded4 t.year) (zeroPadded2 t.month) (zeroPadded2 t.day)
    (zeroPadded2 t.hour) (zeroPadded2 t.minute) (zeroPadded2 t.second) 0 fmt

/-- A piece of a template: text outside the tokens, or a token `${group}`. -/
inductive Piece where
  | plain (w : Str)
  | token (g : Str)
deriving DecidableEq, Repr

/-- The template cut into pieces by the same scan as `regexFrom`: every character
outside a match is a plain piece of its own. -/
def piecesFrom : Nat → Str → List Piece
  | _, [] => []
  | k + 1, _ :: t => piecesFrom k t
  | 0, c :: t =>
    match matchHere (c :: t) with
    | some m => Piece.token m.group :: piecesFrom (m.group.length + 2) t
    | none => Piece.plain [c] :: piecesFrom 0 t

/-- The pieces of a template. -/
def pieces (src : Str) : List Piece := piecesFrom 0 src

/-- The text of a piece. -/
def Piece.text : Piece → Str
  | .plain w => w
  | .token g => tokenText g

/-- The text of a list of pieces. -/
def render : List Piece → Str
  | [] => []
  | p :: ps => p.text ++ render ps

/-- The text of a template that lies outside its tokens. -/
def outsideTokens (src : Str) : Str :=
  render ((pieces src).filter (fun p => match p with | .plain _ => true | .token _ => false))

/-- The value of the macro with capture group `group`: the replacement made by the
first of the six branches of `macroStep` whose name occurs in the group, `none` when
no name occurs. -/
def macroValue (ctx : Context) (group : Str) : Option Str :=
  if IndexOf group "VirtualHost".toList ≠ -1 then some ctx.host_name
  else if IndexOf group "Application".toList ≠ -1 then some (applicationName ctx)
  else if IndexOf group "Stream".toList ≠ -1 then some ctx.stream_name
  else if IndexOf group "Sequence".toList ≠ -1 then some ['0']
  else if IndexOf group "StartTime".toList ≠ -1 then
    some (timeString "StartTime".toList group ctx.now)
  else if IndexOf group "EndTime".toList ≠ -1 then
    some (timeString "EndTime".toList group ctx.now)
  else none

/-- A token replaced by its value; a token without value and plain text are kept. -/
def expandPiece (ctx : Context) : Piece → Piece
  | .plain w => .plain w
  | .token g =>
    match macroValue ctx g with
    | some v => .plain v
    | none => .token g

/-- The template with each scanned token replaced by its value, in one pass. -/
def expandOnce (ctx : Context) (src : Str) : Str :=
  render ((pieces src).map (expandPiece ctx))

/-- The six macro names. -/
def macroNames : List Str :=
  ["VirtualHost".toList, "Application".toList, "Stream".toList, "Sequence".toList,
    "StartTime".toList, "EndTime".toList]

/-- The tokens named in the specification's property on recognised macros. -/
def recognizedTokens : List Str :=
  ["${VirtualHost}".toList, "${Application}".toList, "${Stream}".toList,
    "${Sequence}".toList, "${StartTime:YYYYMMDD}".toList]

/-- A non-empty string of decimal digits. -/
def digitsOnly (v : Str) : Prop := v ≠ [] ∧ ∀ c ∈ v, c.isDigit = true

/-- The six replacements of `timeString` after the macro name has been removed. -/
def sixReplaces (vY vM vD vh vm vs : Str) (fmt : Str) : Str :=
  replaceFrom ['s', 's'] vs 0 (replaceFrom ['m', 'm'] vm 0 (replaceFrom ['h', 'h'] vh 0
    (replaceFrom ['D', 'D'] vD 0 (replaceFrom ['M', 'M'] vM 0
      (replaceFrom ['Y', 'Y', 'Y', 'Y'] vY 0 fmt)))))

/-- A capture group of the regular expression: non-empty, over `[a-zA-Z0-9:]`. -/
def groupOK (g : Str) : Prop := g ≠ [] ∧ ∀ c ∈ g, isGroupChar c = true

/-- A piece whose text cannot be confused with part of a token: plain text without
`$`, or a token with a well-formed group. -/
def Piece.wf : Piece → Prop
  | .plain w => '$' ∉ w
  | .token g => groupOK g

/-- Replace the token with group `g` by the plain text `v`. -/
def substPiece (g v : Str) (p : Piece) : Piece :=
  if p = Piece.token g then Piece.plain v else p

/-- Expand the tokens whose group is listed in `gs`. -/
def expandIn (ctx : Context) (gs : List Str) : Piece → Piece
  | .plain w => .plain w
  | .token g => if g ∈ gs then expandPiece ctx (.token g) else .token g

/-- The match that the scan reports for a token piece. -/
def Piece.toMatch : Piece → Option Match
  | .plain _ => none
  | .token g => some ⟨tokenText g, g⟩

/-- The six branches of `macroStep` as (name, replacement) pairs, in source order. -/
def branches (ctx : Context) (group : Str) : List (Str × Str) :=
  [("VirtualHost".toList, ctx.host_name),
   ("Application".toList, applicationName ctx),
   ("Stream".toList, ctx.stream_name),
   ("Sequence".toList, ['0']),
   ("StartTime".toList, timeString "StartTime".toList group ctx.now),
   ("EndTime".toList, timeString "EndTime".toList group ctx.now)]

/-- One branch of `macroStep`. -/
def branchStep (m : Match) (r : Str) (b : Str × Str) : Str :=
  if IndexOf m.group b.1 ≠ -1 then Replace r m.full b.2 else r

/-- The replacement of the first branch whose name occurs in the group. -/
def firstValue (group : Str) : List (Str × Str) → Option Str
  | [] => none
  | b :: bs => if IndexOf group b.1 ≠ -1 then some b.2 else firstValue group bs

/-- Apply an optional replacement to the token with group `g`. -/
def applyValue (g : Str) (ov : Option Str) (p : Piece) : Piece :=
  match ov with
  | some v => substPiece g v p
  | none => p

/-- The capture group of a token piece. -/
def Piece.group? : Piece → Option Str
  | .plain _ => none
  | .token g => some g

/-- The capture groups of the tokens of a list of pieces, in order. -/
def groupsOf (ps : List Piece) : List Str := ps.filterMap Piece.group?

/-- The match reported for a capture group. -/
def matchOf (g : Str) : Match := ⟨tokenText g, g⟩

instance (g : Str) : Decidable (groupOK g) := by
  unfold groupOK; infer_instance

/-- The macro context of the sample session at the sample time: virtual host `vhost`,
application `#vhost#live`, stream `abc`. -/
def sampleContext : Context := sampleStream.context sampleTime

/-! ## A second concrete environment and more readings of the log -/

/-- A concrete environment whose answers are fixed by flags: every filesystem call
answers `fsOk`, `SetPath` answers `setPathOk`, every `AddTrack` answers `addTrackOk`,
`Start` answers `startOk`. The state lists the path of every writer created so far. -/
def flagEnv (fsOk setPathOk addTrackOk startOk : Bool) : Env (List Str) where
  access := fun _ _ => fsOk
  mkdir := fun e _ => (if fsOk then MkdirResult.ok else MkdirResult.failed, e)
  rename := fun e _ _ => (fsOk, e)
  create := fun e => (e.length, e ++ [[]])
  setPath := fun e wr path _ => (setPathOk, e.set wr path)
  addTrack := fun e _ _ _ _ => (addTrackOk, e)
  start := fun e _ => (startOk, e)
  stop := fun e _ => e
  getPath := fun e wr => e.getD wr []
  putData := fun e _ _ => (true, e)
  extractPath := dirPart

/-- The event is an `AddTrack` call. -/
def Event.isAddTrack : Event → Bool
  | .addTrack _ _ _ _ _ => true
  | _ => false

/-- The event is a `Start` call. -/
def Event.isStart : Event → Bool
  | .start _ _ => true
  | _ => false

/-- The event is a `SetPath` call. -/
def Event.isSetPath : Event → Bool
  | .setPath _ _ _ _ => true
  | _ => false

/-- The event is a `rename` call. -/
def Event.isRename : Event → Bool
  | .rename _ _ _ => true
  | _ => false

/-- The event is a `mkdir` call. -/
def Event.isMkdir : Event → Bool
  | .mkdir _ _ => true
  | _ => false

/-! ## Specification-side definitions for directory provisioning -/

/-- The non-empty prefixes of `s` that end just before a `/`, shortest first. -/
def slashPrefixes (s : Str) : List Str :=
  ((List.range s.length).filter (fun i => decide (0 < i) && (s[i]? == some '/'))).map
    (fun i => s.take i)

/-- The prefixes of `s` that end just before a `/` of `rest`, where `rest` is the part of
`s` from position `pos` on. -/
def slashPrefixesFrom (s : Str) : Str → Nat → List Str
  | [], _ => []
  | c :: rest, pos =>
    if decide (0 < pos) && (c == '/') then s.take pos :: slashPrefixesFrom s rest (pos + 1)
    else slashPrefixesFrom s rest (pos + 1)

/-- The walk of the specification: `mkdir` on each directory in turn; a result other
than success or "already exists" stops the walk with `false`. -/
def mkdirAll {ε : Type} (E : Env ε) : List Str → World ε → Bool × World ε
  | [], w => (true, w)
  | d :: ds, w =>
    let r := w.doMkdir E d
    if r.1 = MkdirResult.failed then (false, r.2) else mkdirAll E ds r.2

/-- The path with a trailing `/` forced (lines 241 to 245). -/
def forceSlash (s : Str) : Str := if s.getLast? = some '/' then s else s ++ ['/']

/-- The `mkdir` event of an attempt. -/
def attemptEvent (a : Str × MkdirResult) : Event := Event.mkdir a.1 a.2

/-! ## A filesystem model -/

/-- An entry of the filesystem model: the components of its path, whether it is a
directory, and whether the process may read and write it. -/
structure Entry where
  path : List Str
  isDir : Bool
  rw : Bool
deriving DecidableEq, Repr

/-- The state of the filesystem model: the entries that exist, and the path of every
writer created so far (the handle is the position). -/
structure FsState where
  entries : List Entry
  writers : List Str
deriving DecidableEq, Repr

/-- The components of a path, cut at `/`; empty components (a leading, doubled or
trailing `/`) are dropped. `cur` is the component being read. -/
def componentsFrom : Str → Str → List Str
  | [], cur => if cur.isEmpty then [] else [cur]
  | c :: r, cur =>
    if c = '/' then (if cur.isEmpty then componentsFrom r [] else cur :: componentsFrom r [])
    else componentsFrom r (cur ++ [c])

/-- The components of a path. -/
def components (p : Str) : List Str := componentsFrom p []

/-- The entry with the given components, if it exists. -/
def FsState.find (e : FsState) (cs : List Str) : Option Entry :=
  e.entries.find? (fun x => x.path == cs)

/-- The path names something that exists. -/
def FsState.pathExists (e : FsState) (p : Str) : Bool := (e.find (components p)).isSome

/-- The model of `access(path, R_OK | W_OK) == 0`: the entry exists and is readable and
writable, and is a directory when the path ends in `/`; the empty path names nothing. -/
def FsState.canAccess (e : FsState) (p : Str) : Bool :=
  !p.isEmpty &&
    match e.find (components p) with
    | some ent => ent.rw && (p.getLast? != some '/' || ent.isDir)
    | none => false

/-- May a new entry with components `cs` be created: its parent is a writable
directory. -/
def FsState.canCreate (e : FsState) (cs : List Str) : Bool :=
  !cs.isEmpty &&
    match e.find cs.dropLast with
    | some par => par.isDir && par.rw
    | none => false

/-- The model of `::mkdir`: "already exists" when the path names an entry, failure when
the parent is missing, is no directory or is not writable, otherwise a new writable
directory. -/
def FsState.makeDir (e : FsState) (p : Str) : MkdirResult × FsState :=
  if (e.find (components p)).isSome then (MkdirResult.eexist, e)
  else if e.canCreate (components p) then
    (MkdirResult.ok, { e with entries := e.entries ++ [⟨components p, true, true⟩] })
  else (MkdirResult.failed, e)

/-- The entries without those named `a` or `b`. -/
def FsState.without (e : FsState) (a b : List Str) : List Entry :=
  e.entries.filter (fun x => x.path != a && x.path != b)

/-- The model of `rename` for a file: it fails when the source is missing or is a
directory, when the destination is a directory or cannot be created; otherwise the
source entry is removed and the destination entry is the moved file. -/
def FsState.moveFile (e : FsState) (src dst : Str) : Bool × FsState :=
  match e.find (components src) with
  | none => (false, e)
  | some ent =>
    if !ent.isDir && e.canCreate (components dst)
        && !((e.find (components dst)).any (fun x => x.isDir)) then
      (true, { e with entries := e.without (components src) (components dst)
                        ++ [⟨components dst, false, ent.rw⟩] })
    else (false, e)

/-- The model of the writer's `Start`: it creates the writer's file at its path, and
fails when that is a directory or cannot be created. -/
def FsState.startWriter (e : FsState) (wr : Nat) : Bool × FsState :=
  let cs := components (e.writers.getD wr [])
  if e.canCreate cs && !((e.find cs).any (fun x => x.isDir)) then
    (true, { e with entries := e.without cs cs ++ [⟨cs, false, true⟩] })
  else (false, e)

/-- Modelled from the spec: `FileWriter` and `ov::PathManager` are declared outside the given
source. The filesystem calls act on the filesystem model. The writer is "configured
with the resolved temp path" by `SetPath`, `GetPath` returns that path, `Start` creates
the writer's file there, and the other writer calls do not touch the filesystem.
`ExtractPath` gives the directory part of a path. -/
def modelEnv : Env FsState where
  access := fun e p => e.canAccess p
  mkdir := fun e p => e.makeDir p
  rename := fun e src dst => e.moveFile src dst
  create := fun e => (e.writers.length, { e with writers := e.writers ++ [[]] })
  setPath := fun e wr path _ => (decide (wr < e.writers.length),
    { e with writers := e.writers.set wr path })
  addTrack := fun e _ _ _ _ => (true, e)
  start := fun e wr => e.startWriter wr
  stop := fun e _ => e
  getPath := fun e wr => e.writers.getD wr []
  putData := fun e _ _ => (true, e)
  extractPath := dirPart

/-- A filesystem with a writable root directory and a read-only directory `/ro`. -/
def sampleFs : FsState := ⟨[⟨[], true, true⟩, ⟨["ro".toList], true, false⟩], []⟩

/-- A run of packet forwards: `true` marks a video packet, `false` an audio packet. -/
def sendAll {ε : Type} (E : Env ε) :
    List (Bool × MediaPacket) → FileStream × World ε → FileStream × World ε
  | [], st => st
  | (true, p) :: ps, st => sendAll E ps (SendVideoFrame E p st.1 st.2)
  | (false, p) :: ps, st => sendAll E ps (SendAudioFrame E p st.1 st.2)

/-- The run `RecordStart`, packet forwards, `RecordStop`; the clock reads `now1` at the
start and `now2` at the stop. -/
def recordingRun {ε : Type} (E : Env ε) (now1 now2 : LocalTime) (selected_tracks : List Int)
    (packets : List (Bool × MediaPacket)) (self : FileStream) (w : World ε) :
    Option (FileStream × World ε) :=
  match RecordStart E now1 selected_tracks self w with
  | none => none
  | some st => RecordStop E now2 (sendAll E packets st).1 (sendAll E packets st).2

/-! ## Sequences of calls on the session -/

/-- A call on the session, with the local time the clock reads during it. -/
inductive Op where
  | recordStart (now : LocalTime) (selected_tracks : List Int)
  | recordStop (now : LocalTime)
  | sendVideoFrame (media_packet : MediaPacket)
  | sendAudioFrame (media_packet : MediaPacket)

/-- One call on the session. -/
def applyOp {ε : Type} (E : Env ε) : Op → FileStream × World ε → Option (FileStream × World ε)
  | .recordStart now selected_tracks, st => RecordStart E now selected_tracks st.1 st.2
  | .recordStop now, st => RecordStop E now st.1 st.2
  | .sendVideoFrame p, st => some (SendVideoFrame E p st.1 st.2)
  | .sendAudioFrame p, st => some (SendAudioFrame E p st.1 st.2)

/-- A sequence of calls on the session, first call first. -/
def runOps {ε : Type} (E : Env ε) :
    List Op → FileStream × World ε → Option (FileStream × World ε)
  | [], st => some st
  | op :: ops, st =>
    match applyOp E op st with
    | none => none
    | some st1 => runOps E ops st1

/-- Has the session no writer due after one more logged call: the `Create` of a
`RecordStart` opens a new attempt, a failed `SetPath` or a failed `Start` discards its
writer, no other call changes the answer. -/
def discardedStep (d : Bool) : Event → Bool
  | .create _ => false
  | .setPath _ _ _ false => true
  | .start _ false => true
  | _ => d

/-- According to the log of its calls, no `RecordStart` has been made yet, or the most
recent `RecordStart` failed at `SetPath` or at `Start`. -/
def discardedAfter (log : List Event) : Bool := log.foldl discardedStep true

/-- Is the session Recording after one more logged call: a `Start` that returned true
begins the state; the `Create` of the next `RecordStart`, a failed `Start` and the `Stop`
of a `RecordStop` end it. -/
def recordingStep (r : Bool) : Event → Bool
  | .create _ => false
  | .start _ ret => ret
  | .stop _ => false
  | _ => r

/-- Is the session Recording according to the log of its calls: the most recent
`RecordStart` completed successfully and no `RecordStop` has stopped the writer since. -/
def recordingAfter (log : List Event) : Bool := log.foldl recordingStep false

/-! # Theorems -/

/-! ## Lemmas on the log -/

section LogLemmas

variable {ε : Type}

theorem mkdirLoop_log (E : Env ε) (s : Str) :
    ∀ (fuel pos : Nat) (w : World ε) (b : Bool) (w' : World ε),
      mkdirLoop E s fuel pos w = some (b, w') →
      ∃ evs, w'.log = w.log ++ evs ∧ ∀ e ∈ evs, e.isFs = true := by
  intro fuel
  induction fuel with
  | zero => intro pos w b w' h; simp [mkdirLoop] at h
  | succ n ih =>
    intro pos w b w' h
    unfold mkdirLoop at h
    split at h
    · simp only [Option.some.injEq, Prod.mk.injEq] at h
      exact ⟨[], by simp [← h.2], by simp⟩
    · rename_i p _
      simp only at h
      split at h
      · exact ih _ _ _ _ h
      · split at h
        · simp only [Option.some.injEq, Prod.mk.injEq] at h
          refine ⟨[Event.mkdir (s.take p) (E.mkdir w.ext (s.take p)).1], ?_, ?_⟩
          · rw [← h.2]; rfl
          · simp [Event.isFs]
        · obtain ⟨evs, h1, h2⟩ := ih _ _ _ _ h
          refine ⟨Event.mkdir (s.take p) (E.mkdir w.ext (s.take p)).1 :: evs, ?_, ?_⟩
          · rw [h1]; simp [World.doMkdir, World.emit]
          · intro e he
            rcases List.mem_cons.1 he with rfl | he
            · rfl
            · exact h2 e he

theorem MakeDirectoryRecursive_log (E : Env ε) (s : Str) (w : World ε) (b : Bool) (w' : World ε)
    (h : MakeDirectoryRecursive E s w = some (b, w')) :
    ∃ evs, w'.log = w.log ++ evs ∧ ∀ e ∈ evs, e.isFs = true := by
  unfold MakeDirectoryRecursive at h
  simp only at h
  split at h
  · simp only [Option.some.injEq, Prod.mk.injEq] at h
    refine ⟨[Event.access s (E.access w.ext s)], ?_, ?_⟩
    · rw [← h.2]; rfl
    · simp [Event.isFs]
  · split at h
    · exact absurd h (by simp)
    · rename_i last _
      generalize (if last ≠ '/' then s ++ ['/'] else s) = s2 at h
      split at h
      · exact absurd h (by simp)
      · rename_i w1 hl
        simp only [Option.some.injEq, Prod.mk.injEq] at h
        obtain ⟨evs, h1, h2⟩ := mkdirLoop_log E _ _ _ _ _ _ hl
        refine ⟨Event.access s (E.access w.ext s) :: evs, ?_, ?_⟩
        · rw [← h.2, h1]; simp [World.doAccess, World.emit]
        · intro e he
          rcases List.mem_cons.1 he with rfl | he
          · rfl
          · exact h2 e he
      · rename_i w1 hl
        obtain ⟨evs, h1, h2⟩ := mkdirLoop_log E _ _ _ _ _ _ hl
        have hw : w'.log = w1.log ++ [Event.access s2 (E.access w1.ext s2)] := by
          split at h <;>
            (simp only [Option.some.injEq, Prod.mk.injEq] at h; rw [← h.2]; rfl)
        refine ⟨Event.access s (E.access w.ext s) :: (evs ++
          [Event.access s2 (E.access w1.ext s2)]), ?_, ?_⟩
        · rw [hw, h1]; simp [World.doAccess, World.emit]
        · intro e he
          rcases List.mem_cons.1 he with rfl | he
          · rfl
          · rcases List.mem_append.1 he with he | he
            · exact h2 e he
            · rw [List.mem_singleton.1 he]; rfl

theorem addTrackCalls_fs (evs : List Event) (h : ∀ e ∈ evs, e.isFs = true) :
    addTrackCalls evs = [] := by
  induction evs with
  | nil => rfl
  | cons e t ih =>
    have he := h e (List.mem_cons_self _ _)
    have ht := ih (fun x hx => h x (List.mem_cons_of_mem _ hx))
    cases e <;> simp_all [addTrackCalls, Event.isFs, Event.addTrackArgs]

theorem renameCalls_fs (evs : List Event) (h : ∀ e ∈ evs, e.isFs = true) :
    renameCalls evs = [] := by
  induction evs with
  | nil => rfl
  | cons e t ih =>
    have he := h e (List.mem_cons_self _ _)
    have ht := ih (fun x hx => h x (List.mem_cons_of_mem _ hx))
    cases e <;> simp_all [renameCalls, Event.isFs, Event.renameArgs]

theorem addTracks_log (E : Env ε) (wr : Nat) (selected_tracks : List Int) :
    ∀ (tracks : List (Int × MediaTrack)) (w : World ε),
      ∃ evs, (addTracks E wr selected_tracks tracks w).log = w.log ++ evs ∧
        addTrackCalls evs = (tracksToRegister selected_tracks tracks).map registration := by
  intro tracks
  induction tracks with
  | nil => intro w; exact ⟨[], by simp [addTracks], rfl⟩
  | cons item rest ih =>
    intro w
    unfold addTracks
    by_cases hsel : ((selected_tracks.isEmpty != true) && !(selected_tracks.elem item.2.id)) = true
    · simp only [hsel, if_true]
      obtain ⟨evs, h1, h2⟩ := ih w
      refine ⟨evs, h1, ?_⟩
      rw [h2]
      have : ¬ (selected_tracks = [] ∨ item.2.id ∈ selected_tracks) := by
        simpa [not_or] using hsel
      simp [tracksToRegister, List.filter_cons, this]
    · simp only [hsel]
      obtain ⟨evs, h1, h2⟩ := ih (w.doAddTrack E wr item.2.mediaType item.2.id (qualityOf item.2)).2
      refine ⟨Event.addTrack wr item.2.mediaType item.2.id (qualityOf item.2)
        (E.addTrack w.ext wr item.2.mediaType item.2.id (qualityOf item.2)).1 :: evs, ?_, ?_⟩
      · simp only [Bool.false_eq_true, if_false]
        rw [h1]; simp [World.doAddTrack, World.emit]
      · have : selected_tracks = [] ∨ item.2.id ∈ selected_tracks := by
          by_contra hc
          exact hsel (by simpa [not_or] using hc)
        have h3 : addTrackCalls (Event.addTrack wr item.2.mediaType item.2.id (qualityOf item.2)
            (E.addTrack w.ext wr item.2.mediaType item.2.id (qualityOf item.2)).1 :: evs)
            = (item.2.mediaType, item.2.id, qualityOf item.2) :: addTrackCalls evs := by
          simp [addTrackCalls, Event.addTrackArgs]
        rw [h3, h2]
        simp [tracksToRegister, List.filter_cons, this, registration, qualityOf]

end LogLemmas

/-! ## The recording session: claims -/

section SessionClaims

variable {ε : Type}

theorem GetOutputTempFilePath_writer (self : FileStream) (x : Option Nat) (now : LocalTime) :
    GetOutputTempFilePath { self with writer := x } now = GetOutputTempFilePath self now := rfl

/-- C1, evaluated on the code: in a world where no directory is accessible or can be
created, provisioning of the temp directory returns false, `RecordStart` makes no
`SetPath`, `AddTrack` or `Start` call, and yet the session returned by `RecordStart`
still holds the writer created in its first line (handle 0) instead of no writer. -/
theorem C1_RecordStart_failed_provisioning_keeps_writer :
    ∃ w1, MakeDirectoryRecursive (simpleEnv false)
        ((simpleEnv false).extractPath (GetOutputTempFilePath sampleStream sampleTime))
        (World.empty.doCreate (simpleEnv false)).2 = some (false, w1) ∧
      RecordStart (simpleEnv false) sampleTime [] sampleStream World.empty
        = some ({ sampleStream with writer := some 0 }, w1) ∧
      w1.log = [Event.create 0, Event.access "/rec/live/".toList false,
        Event.mkdir "/rec".toList MkdirResult.failed] :=
  ⟨_, rfl, rfl, rfl⟩

/-- C2: when provisioning of the temp directory and `SetPath` succeed, the `AddTrack`
calls that `RecordStart` adds to the log are, in map order, the registrations of every
track when the selection is empty and otherwise of exactly the tracks whose id occurs in
the selection, each with the media type, the id and the quality fields of its track. -/
theorem C2_RecordStart_registers_selected_tracks (E : Env ε) (now : LocalTime)
    (selected_tracks : List Int) (self : FileStream) (w w1 : World ε)
    (hdir : MakeDirectoryRecursive E (E.extractPath (GetOutputTempFilePath self now))
      (w.doCreate E).2 = some (true, w1))
    (hset : (w1.doSetPath E (w.doCreate E).1 (GetOutputTempFilePath self now)
      "mpegts".toList).1 = true) :
    ∃ self' w' evs, RecordStart E now selected_tracks self w = some (self', w') ∧
      w'.log = w.log ++ evs ∧
      addTrackCalls evs = (tracksToRegister selected_tracks self.tracks).map registration := by
  obtain ⟨fsEvs, hfs1, hfs2⟩ := MakeDirectoryRecursive_log E _ _ _ _ hdir
  obtain ⟨trEvs, htr1, htr2⟩ := addTracks_log E (w.doCreate E).1 selected_tracks self.tracks
    (w1.doSetPath E (w.doCreate E).1 (GetOutputTempFilePath self now) "mpegts".toList).2
  have hlog : ∀ r : Bool, addTrackCalls (Event.create (E.create w.ext).1 :: (fsEvs ++
      Event.setPath (w.doCreate E).1 (GetOutputTempFilePath self now) "mpegts".toList true ::
        (trEvs ++ [Event.start (w.doCreate E).1 r]))) =
      (tracksToRegister selected_tracks self.tracks).map registration := by
    intro r
    have h0 := addTrackCalls_fs fsEvs hfs2
    simp only [addTrackCalls] at h0 htr2 ⊢
    simp [List.filterMap_cons, List.filterMap_append, Event.addTrackArgs, h0, htr2]
  have hw1 : w1.log = w.log ++ Event.create (E.create w.ext).1 :: fsEvs := by
    rw [hfs1]; simp [World.doCreate, World.emit]
  have hsp : (w1.doSetPath E (w.doCreate E).1 (GetOutputTempFilePath self now)
      "mpegts".toList).2.log = w1.log ++ [Event.setPath (w.doCreate E).1
        (GetOutputTempFilePath self now) "mpegts".toList true] := by
    have := hset
    simp only [World.doSetPath, World.emit] at this ⊢
    rw [this]
  unfold RecordStart
  simp only [GetOutputTempFilePath_writer, hdir, hset, Bool.true_eq_false, if_false]
  split
  · refine ⟨_, _, _, rfl, ?_, hlog (E.start (addTracks E (w.doCreate E).1 selected_tracks
      self.tracks (w1.doSetPath E (w.doCreate E).1 (GetOutputTempFilePath self now)
        "mpegts".toList).2).ext (w.doCreate E).1).1⟩
    simp only [World.doStart, World.emit]
    rw [htr1, hsp, hw1]
    simp [World.doCreate]
  · refine ⟨_, _, _, rfl, ?_, hlog (E.start (addTracks E (w.doCreate E).1 selected_tracks
      self.tracks (w1.doSetPath E (w.doCreate E).1 (GetOutputTempFilePath self now)
        "mpegts".toList).2).ext (w.doCreate E).1).1⟩
    simp only [World.doStart, World.emit]
    rw [htr1, hsp, hw1]
    simp [World.doCreate]

/-- Witness for C2: tracks 1, 2, 3 with the selection 2 register only track 2, and
with the empty selection register tracks 1, 2 and 3. -/
theorem C2_RecordStart_registers_selected_tracks_witness :
    (∃ self' w' evs, RecordStart (simpleEnv true) sampleTime [2] sampleStream World.empty
        = some (self', w') ∧ w'.log = World.empty.log ++ evs ∧
      addTrackCalls evs = [registration (sampleTrack 2).2]) ∧
    (∃ self' w' evs, RecordStart (simpleEnv true) sampleTime [] sampleStream World.empty
        = some (self', w') ∧ w'.log = World.empty.log ++ evs ∧
      addTrackCalls evs = [registration (sampleTrack 1).2, registration (sampleTrack 2).2,
        registration (sampleTrack 3).2]) :=
  ⟨C2_RecordStart_registers_selected_tracks (simpleEnv true) sampleTime [2] sampleStream
    World.empty _ rfl rfl,
   C2_RecordStart_registers_selected_tracks (simpleEnv true) sampleTime [] sampleStream
    World.empty _ rfl rfl⟩

/-- C9, evaluated on the code: from a fresh session, a `RecordStart` that fails in
directory provisioning leaves the writer handle set, so the following `RecordStop` is
not a no-op: it calls `Stop` on the writer and attempts directory creation again. -/
theorem C9_RecordStop_after_failed_RecordStart_is_not_noop :
    ∃ s1 w1 w2, RecordStart (simpleEnv false) sampleTime [] sampleStream World.empty
        = some (s1, w1) ∧
      s1.writer = some 0 ∧
      RecordStop (simpleEnv false) sampleTime s1 w1 = some (s1, w2) ∧
      w2.log = w1.log ++ [Event.stop 0, Event.access "/rec/live/".toList false,
        Event.mkdir "/rec".toList MkdirResult.failed] :=
  ⟨_, _, _, rfl, rfl, rfl, rfl⟩

/-- C10: a `RecordStop` made with a writer present and returning logs `Stop`, then
only `access` and `mkdir` calls of directory provisioning, then at most one `rename`;
that `rename` is present if and only if provisioning of the final path's directory and
of the info path's directory both returned true, its source is the writer's path and
its destination the resolved final path, and nothing follows it whatever it returns. -/
theorem C10_RecordStop_rename_after_both_provisionings (E : Env ε) (now : LocalTime)
    (self self' : FileStream) (w w' : World ε) (wr : Nat)
    (hwr : self.writer = some wr)
    (h : RecordStop E now self w = some (self', w')) :
    ∃ fsEvs renames, w'.log = w.log ++ Event.stop wr :: (fsEvs ++ renames) ∧
      (∀ e ∈ fsEvs, e.isFs = true) ∧
      (renames = [] ∨ ∃ ret, renames = [Event.rename (E.getPath (w.doStop E wr).ext wr)
        (GetOutputFilePath self now) ret]) ∧
      (renames ≠ [] ↔ ∃ w2 w3,
        MakeDirectoryRecursive E (E.extractPath (GetOutputFilePath self now))
          (w.doStop E wr) = some (true, w2) ∧
        MakeDirectoryRecursive E (E.extractPath (GetOutputFileInfoPath self now))
          w2 = some (true, w3)) := by
  unfold RecordStop at h
  simp only [hwr] at h
  split at h
  · exact absurd h (by simp)
  · rename_i w2 h1
    simp only [Option.some.injEq, Prod.mk.injEq] at h
    obtain ⟨evs, e1, e2⟩ := MakeDirectoryRecursive_log E _ _ _ _ h1
    refine ⟨evs, [], ?_, e2, Or.inl rfl, ?_⟩
    · rw [← h.2, e1]; simp [World.doStop, World.emit]
    · simp only [ne_eq, not_true_eq_false, false_iff, not_exists, not_and]
      intro a b hab
      rw [h1] at hab
      simp at hab
  · rename_i w2 h1
    obtain ⟨evs, e1, e2⟩ := MakeDirectoryRecursive_log E _ _ _ _ h1
    split at h
    · exact absurd h (by simp)
    · rename_i w3 h2
      simp only [Option.some.injEq, Prod.mk.injEq] at h
      obtain ⟨evs2, f1, f2⟩ := MakeDirectoryRecursive_log E _ _ _ _ h2
      refine ⟨evs ++ evs2, [], ?_, ?_, Or.inl rfl, ?_⟩
      · rw [← h.2, f1, e1]; simp [World.doStop, World.emit]
      · intro e he
        rcases List.mem_append.1 he with he | he
        · exact e2 e he
        · exact f2 e he
      · simp only [ne_eq, not_true_eq_false, false_iff, not_exists, not_and]
        intro a b ha hb
        rw [h1] at ha
        simp only [Option.some.injEq, Prod.mk.injEq, true_and] at ha
        rw [← ha, h2] at hb
        simp at hb
    · rename_i w3 h2
      simp only [Option.some.injEq, Prod.mk.injEq] at h
      obtain ⟨evs2, f1, f2⟩ := MakeDirectoryRecursive_log E _ _ _ _ h2
      refine ⟨evs ++ evs2, [Event.rename (E.getPath (w.doStop E wr).ext wr)
        (GetOutputFilePath self now) (E.rename w3.ext (E.getPath (w.doStop E wr).ext wr)
          (GetOutputFilePath self now)).1], ?_, ?_, Or.inr ⟨_, rfl⟩, ?_⟩
      · rw [← h.2]
        simp only [World.doRename, World.emit]
        rw [f1, e1]; simp [World.doStop, World.emit]
      · intro e he
        rcases List.mem_append.1 he with he | he
        · exact e2 e he
        · exact f2 e he
      · simp only [ne_eq, List.cons_ne_self, not_false_eq_true, true_iff]
        exact ⟨w2, w3, h1, h2⟩

/-- Witness for C10: a session whose writer 0 records to `/rec/live/abc.ts.tmp` is
stopped in a world where every filesystem call succeeds; the single rename moves the
temp file to `/rec/live/abc.ts`. -/
theorem C10_RecordStop_rename_after_both_provisionings_witness :
    ∃ fsEvs renames,
      (⟨["/rec/live/abc.ts.tmp".toList], [Event.create 0, Event.stop 0,
        Event.access "/rec/live/".toList true, Event.access "/rec/info/".toList true,
        Event.rename "/rec/live/abc.ts.tmp".toList "/rec/live/abc.ts".toList true]⟩ :
          World (List Str)).log
        = [Event.create 0] ++ Event.stop 0 :: (fsEvs ++ renames) ∧
      (∀ e ∈ fsEvs, e.isFs = true) ∧
      (renames = [] ∨ ∃ ret, renames = [Event.rename
        ((simpleEnv true).getPath ((⟨["/rec/live/abc.ts.tmp".toList], [Event.create 0]⟩ :
          World (List Str)).doStop (simpleEnv true) 0).ext 0)
        (GetOutputFilePath { sampleStream with writer := some 0 } sampleTime) ret]) ∧
      (renames ≠ [] ↔ ∃ w2 w3,
        MakeDirectoryRecursive (simpleEnv true) ((simpleEnv true).extractPath
          (GetOutputFilePath { sampleStream with writer := some 0 } sampleTime))
          ((⟨["/rec/live/abc.ts.tmp".toList], [Event.create 0]⟩ :
            World (List Str)).doStop (simpleEnv true) 0) = some (true, w2) ∧
        MakeDirectoryRecursive (simpleEnv true) ((simpleEnv true).extractPath
          (GetOutputFileInfoPath { sampleStream with writer := some 0 } sampleTime))
          w2 = some (true, w3)) :=
  C10_RecordStop_rename_after_both_provisionings (simpleEnv true) sampleTime
    { sampleStream with writer := some 0 } { sampleStream with writer := some 0 }
    ⟨["/rec/live/abc.ts.tmp".toList], [Event.create 0]⟩ _ 0 rfl rfl

end SessionClaims

/-! ## Lemmas on `Replace` -/

section ReplaceLemmas

theorem replaceFrom_nil (old new : Str) (k : Nat) : replaceFrom old new k [] = [] := by
  cases k <;> rfl

theorem replaceFrom_skip (old new : Str) :
    ∀ (xs t : Str), replaceFrom old new xs.length (xs ++ t) = replaceFrom old new 0 t
  | [], _ => rfl
  | _ :: xs, t => by
    simp only [List.length_cons, List.cons_append, replaceFrom]
    exact replaceFrom_skip old new xs t

theorem replaceFrom_hit (old new t : Str) (h : old ≠ []) :
    replaceFrom old new 0 (old ++ t) = new ++ replaceFrom old new 0 t := by
  cases old with
  | nil => exact absurd rfl h
  | cons c o =>
    have hp : (c :: o).isPrefixOf (c :: (o ++ t)) = true := by
      simp [List.isPrefixOf_iff_prefix]
    have hs := replaceFrom_skip (c :: o) new o t
    rw [show replaceFrom (c :: o) new 0 (c :: o ++ t) = (if (c :: o).isPrefixOf (c :: (o ++ t))
      then new ++ replaceFrom (c :: o) new ((c :: o).length - 1) (o ++ t)
      else c :: replaceFrom (c :: o) new 0 (o ++ t)) from rfl, if_pos hp]
    simpa using hs

theorem replaceFrom_miss (old new : Str) (c : Char) (t : Str) (h : ¬ old <+: c :: t) :
    replaceFrom old new 0 (c :: t) = c :: replaceFrom old new 0 t := by
  have hp : old.isPrefixOf (c :: t) = false :=
    Bool.eq_false_iff.2 (by simpa [List.isPrefixOf_iff_prefix] using h)
  simp only [replaceFrom, hp, Bool.false_eq_true, if_false]

theorem replaceFrom_cons_ne (a : Char) (o new : Str) (c : Char) (t : Str) (h : c ≠ a) :
    replaceFrom (a :: o) new 0 (c :: t) = c :: replaceFrom (a :: o) new 0 t :=
  replaceFrom_miss _ _ _ _ (fun hp => h (List.cons_prefix_cons.1 hp).1.symm)

theorem replaceFrom_free (a : Char) (o new : Str) :
    ∀ (w x : Str), (∀ c ∈ w, c ≠ a) →
      replaceFrom (a :: o) new 0 (w ++ x) = w ++ replaceFrom (a :: o) new 0 x
  | [], _, _ => rfl
  | c :: w, x, h => by
    rw [List.cons_append, replaceFrom_cons_ne a o new c _ (h c (List.mem_cons_self _ _)),
      replaceFrom_free a o new w x (fun d hd => h d (List.mem_cons_of_mem _ hd))]
    rfl

theorem Replace_eq (s old new : Str) (h : old ≠ []) :
    Replace s old new = replaceFrom old new 0 s := by
  cases old with
  | nil => exact absurd rfl h
  | cons c o => rfl

theorem replaceFrom_head_ne (old new : Str) (l : Char) (hn : new ≠ [])
    (hh : new.head? ≠ some l) :
    ∀ s : Str, s.head? ≠ some l → (replaceFrom old new 0 s).head? ≠ some l := by
  intro s hs
  cases s with
  | nil => simp [replaceFrom]
  | cons c t =>
    by_cases hp : old <+: c :: t
    · have hp' : old.isPrefixOf (c :: t) = true := by
        simpa [List.isPrefixOf_iff_prefix] using hp
      simp only [replaceFrom, hp', if_true]
      cases new with
      | nil => exact absurd rfl hn
      | cons d n => simpa using hh
    · rw [replaceFrom_miss _ _ _ _ hp]
      simpa using hs

theorem pair_prefix_iff (l c : Char) (x : Str) :
    [l, l] <+: c :: x ↔ c = l ∧ x.head? = some l := by
  cases x with
  | nil => simp [List.cons_prefix_cons]
  | cons d x =>
    simp only [List.cons_prefix_cons, List.nil_prefix, and_true, List.head?_cons,
      Option.some.injEq]
    constructor
    · rintro ⟨h1, h2⟩; exact ⟨h1.symm, h2.symm⟩
    · rintro ⟨h1, h2⟩; exact ⟨h1.symm, h2.symm⟩

theorem pair_miss_transfer (old new : Str) (l c : Char) (x : Str) (hn : new ≠ [])
    (hh : new.head? ≠ some l) (h : ¬ [l, l] <+: c :: x) :
    ¬ [l, l] <+: c :: replaceFrom old new 0 x := by
  rw [pair_prefix_iff] at h ⊢
  intro hc
  exact replaceFrom_head_ne old new l hn hh x (fun hx => h ⟨hc.1, hx⟩) hc.2

end ReplaceLemmas

/-! ## Digits and the time format -/

section TimeLemmas

theorem digitChar_isDigit : ∀ k, k < 10 → (Nat.digitChar k).isDigit = true := by decide

theorem digit_isDigit (n : Nat) : (digit n).isDigit = true :=
  digitChar_isDigit _ (Nat.mod_lt _ (by decide))

theorem toDigitsCore_isDigit : ∀ (fuel n : Nat) (ds : List Char),
    (∀ c ∈ ds, c.isDigit = true) → ∀ c ∈ Nat.toDigitsCore 10 fuel n ds, c.isDigit = true := by
  intro fuel
  induction fuel with
  | zero => intro n ds h c hc; exact h c (by simpa [Nat.toDigitsCore] using hc)
  | succ f ih =>
    intro n ds h c hc
    have hcons : ∀ d ∈ Nat.digitChar (n % 10) :: ds, d.isDigit = true := by
      intro d hd
      rcases List.mem_cons.1 hd with rfl | hd
      · exact digitChar_isDigit _ (Nat.mod_lt _ (by decide))
      · exact h d hd
    simp only [Nat.toDigitsCore] at hc
    split at hc
    · exact hcons c hc
    · exact ih _ _ hcons c hc

theorem toDigitsCore_ne_nil : ∀ (fuel n : Nat) (ds : List Char),
    (0 < fuel ∨ ds ≠ []) → Nat.toDigitsCore 10 fuel n ds ≠ [] := by
  intro fuel
  induction fuel with
  | zero => intro n ds h; rcases h with h | h; exact absurd h (by decide); simpa [Nat.toDigitsCore] using h
  | succ f ih =>
    intro n ds _
    simp only [Nat.toDigitsCore]
    split
    · simp
    · exact ih _ _ (Or.inr (by simp))

theorem decimal_digitsOnly (n : Nat) : digitsOnly (decimal n) :=
  ⟨toDigitsCore_ne_nil _ _ _ (Or.inl (Nat.succ_pos _)),
   toDigitsCore_isDigit _ _ _ (by simp)⟩

theorem pad2_digitsOnly (n : Nat) : digitsOnly (pad2 n) := by
  unfold pad2
  split
  · refine ⟨by simp, ?_⟩
    intro c hc
    rcases List.mem_cons.1 hc with rfl | hc
    · rfl
    · exact (decimal_digitsOnly n).2 c hc
  · exact decimal_digitsOnly n

theorem digitsOnly.ne_of_not_digit {v : Str} (h : digitsOnly v) {l : Char}
    (hl : l.isDigit = false) : ∀ c ∈ v, c ≠ l := by
  intro c hc he
  have := h.2 c hc
  rw [he, hl] at this
  exact absurd this (by decide)

theorem digitsOnly.head_ne {v : Str} (h : digitsOnly v) {l : Char}
    (hl : l.isDigit = false) : v.head? ≠ some l := by
  cases v with
  | nil => simp
  | cons c v =>
    simp only [List.head?_cons, ne_eq, Option.some.injEq]
    exact h.ne_of_not_digit hl c (List.mem_cons_self _ _)

theorem formatWith_miss (vY vM vD vh vm vs : Str) (c : Char) (r : Str)
    (hY : ¬ ['Y', 'Y', 'Y', 'Y'] <+: c :: r) (hM : ¬ ['M', 'M'] <+: c :: r)
    (hD : ¬ ['D', 'D'] <+: c :: r) (hh : ¬ ['h', 'h'] <+: c :: r)
    (hm : ¬ ['m', 'm'] <+: c :: r) (hs : ¬ ['s', 's'] <+: c :: r) :
    formatWith vY vM vD vh vm vs 0 (c :: r) = c :: formatWith vY vM vD vh vm vs 0 r := by
  have e1 := Bool.eq_false_iff.2 (mt List.isPrefixOf_iff_prefix.1 hY)
  have e2 := Bool.eq_false_iff.2 (mt List.isPrefixOf_iff_prefix.1 hM)
  have e3 := Bool.eq_false_iff.2 (mt List.isPrefixOf_iff_prefix.1 hD)
  have e4 := Bool.eq_false_iff.2 (mt List.isPrefixOf_iff_prefix.1 hh)
  have e5 := Bool.eq_false_iff.2 (mt List.isPrefixOf_iff_prefix.1 hm)
  have e6 := Bool.eq_false_iff.2 (mt List.isPrefixOf_iff_prefix.1 hs)
  simp only [formatWith, e1, e2, e3, e4, e5, e6, Bool.false_eq_true, if_false]

theorem replaceFrom_hit2 (a : Char) (new x : Str) :
    replaceFrom [a, a] new 0 (a :: a :: x) = new ++ replaceFrom [a, a] new 0 x :=
  replaceFrom_hit [a, a] new x (by simp)

theorem replaceFrom_hit4 (a : Char) (new x : Str) :
    replaceFrom [a, a, a, a] new 0 (a :: a :: a :: a :: x)
      = new ++ replaceFrom [a, a, a, a] new 0 x :=
  replaceFrom_hit [a, a, a, a] new x (by simp)

theorem formatWith_hitY (vY vM vD vh vm vs r : Str) :
    formatWith vY vM vD vh vm vs 0 ('Y' :: 'Y' :: 'Y' :: 'Y' :: r)
      = vY ++ formatWith vY vM vD vh vm vs 0 r := by
  simp [formatWith]

theorem formatWith_hitM (vY vM vD vh vm vs r : Str) :
    formatWith vY vM vD vh vm vs 0 ('M' :: 'M' :: r)
      = vM ++ formatWith vY vM vD vh vm vs 0 r := by
  simp [formatWith]

theorem formatWith_hitD (vY vM vD vh vm vs r : Str) :
    formatWith vY vM vD vh vm vs 0 ('D' :: 'D' :: r)
      = vD ++ formatWith vY vM vD vh vm vs 0 r := by
  simp [formatWith]

theorem formatWith_hith (vY vM vD vh vm vs r : Str) :
    formatWith vY vM vD vh vm vs 0 ('h' :: 'h' :: r)
      = vh ++ formatWith vY vM vD vh vm vs 0 r := by
  simp [formatWith]

theorem formatWith_hitm (vY vM vD vh vm vs r : Str) :
    formatWith vY vM vD vh vm vs 0 ('m' :: 'm' :: r)
      = vm ++ formatWith vY vM vD vh vm vs 0 r := by
  simp [formatWith]

theorem formatWith_hits (vY vM vD vh vm vs r : Str) :
    formatWith vY vM vD vh vm vs 0 ('s' :: 's' :: r)
      = vs ++ formatWith vY vM vD vh vm vs 0 r := by
  simp [formatWith]

theorem sixReplaces_eq_formatWith (vY vM vD vh vm vs : Str)
    (dvY : digitsOnly vY) (dvM : digitsOnly vM) (dvD : digitsOnly vD)
    (dvh : digitsOnly vh) (dvm : digitsOnly vm) :
    ∀ (n : Nat) (fmt : Str), fmt.length ≤ n →
      sixReplaces vY vM vD vh vm vs fmt = formatWith vY vM vD vh vm vs 0 fmt := by
  intro n
  induction n with
  | zero =>
    intro fmt h
    have : fmt = [] := List.length_eq_zero.1 (Nat.le_zero.1 h)
    subst this; rfl
  | succ n ih =>
    intro fmt hlen
    cases fmt with
    | nil => rfl
    | cons c r =>
      have hr : r.length ≤ n := by simpa using hlen
      by_cases hY : ['Y', 'Y', 'Y', 'Y'] <+: c :: r
      · obtain ⟨r', hr'⟩ := hY
        simp only [List.cons_append, List.nil_append, List.cons.injEq] at hr'
        obtain ⟨rfl, rfl⟩ := hr'
        have hl : r'.length ≤ n := by simp at hr; omega
        rw [formatWith_hitY, ← ih r' hl]
        unfold sixReplaces
        rw [replaceFrom_hit4 'Y',
          replaceFrom_free 'M' _ _ vY _ (dvY.ne_of_not_digit rfl),
          replaceFrom_free 'D' _ _ vY _ (dvY.ne_of_not_digit rfl),
          replaceFrom_free 'h' _ _ vY _ (dvY.ne_of_not_digit rfl),
          replaceFrom_free 'm' _ _ vY _ (dvY.ne_of_not_digit rfl),
          replaceFrom_free 's' _ _ vY _ (dvY.ne_of_not_digit rfl)]
      by_cases hM : ['M', 'M'] <+: c :: r
      · obtain ⟨r', hr'⟩ := hM
        simp only [List.cons_append, List.nil_append, List.cons.injEq] at hr'
        obtain ⟨rfl, rfl⟩ := hr'
        have hl : r'.length ≤ n := by simp at hr; omega
        rw [formatWith_hitM, ← ih r' hl]
        unfold sixReplaces
        rw [replaceFrom_cons_ne 'Y' _ _ 'M' _ (by decide),
          replaceFrom_cons_ne 'Y' _ _ 'M' _ (by decide),
          replaceFrom_hit2 'M',
          replaceFrom_free 'D' _ _ vM _ (dvM.ne_of_not_digit rfl),
          replaceFrom_free 'h' _ _ vM _ (dvM.ne_of_not_digit rfl),
          replaceFrom_free 'm' _ _ vM _ (dvM.ne_of_not_digit rfl),
          replaceFrom_free 's' _ _ vM _ (dvM.ne_of_not_digit rfl)]
      by_cases hD : ['D', 'D'] <+: c :: r
      · obtain ⟨r', hr'⟩ := hD
        simp only [List.cons_append, List.nil_append, List.cons.injEq] at hr'
        obtain ⟨rfl, rfl⟩ := hr'
        have hl : r'.length ≤ n := by simp at hr; omega
        rw [formatWith_hitD, ← ih r' hl]
        unfold sixReplaces
        rw [replaceFrom_cons_ne 'Y' _ _ 'D' _ (by decide),
          replaceFrom_cons_ne 'Y' _ _ 'D' _ (by decide),
          replaceFrom_cons_ne 'M' _ _ 'D' _ (by decide),
          replaceFrom_cons_ne 'M' _ _ 'D' _ (by decide),
          replaceFrom_hit2 'D',
          replaceFrom_free 'h' _ _ vD _ (dvD.ne_of_not_digit rfl),
          replaceFrom_free 'm' _ _ vD _ (dvD.ne_of_not_digit rfl),
          replaceFrom_free 's' _ _ vD _ (dvD.ne_of_not_digit rfl)]
      by_cases hh : ['h', 'h'] <+: c :: r
      · obtain ⟨r', hr'⟩ := hh
        simp only [List.cons_append, List.nil_append, List.cons.injEq] at hr'
        obtain ⟨rfl, rfl⟩ := hr'
        have hl : r'.length ≤ n := by simp at hr; omega
        rw [formatWith_hith, ← ih r' hl]
        unfold sixReplaces
        rw [replaceFrom_cons_ne 'Y' _ _ 'h' _ (by decide),
          replaceFrom_cons_ne 'Y' _ _ 'h' _ (by decide),
          replaceFrom_cons_ne 'M' _ _ 'h' _ (by decide),
          replaceFrom_cons_ne 'M' _ _ 'h' _ (by decide),
          replaceFrom_cons_ne 'D' _ _ 'h' _ (by decide),
          replaceFrom_cons_ne 'D' _ _ 'h' _ (by decide),
          replaceFrom_hit2 'h',
          replaceFrom_free 'm' _ _ vh _ (dvh.ne_of_not_digit rfl),
          replaceFrom_free 's' _ _ vh _ (dvh.ne_of_not_digit rfl)]
      by_cases hm : ['m', 'm'] <+: c :: r
      · obtain ⟨r', hr'⟩ := hm
        simp only [List.cons_append, List.nil_append, List.cons.injEq] at hr'
        obtain ⟨rfl, rfl⟩ := hr'
        have hl : r'.length ≤ n := by simp at hr; omega
        rw [formatWith_hitm, ← ih r' hl]
        unfold sixReplaces
        rw [replaceFrom_cons_ne 'Y' _ _ 'm' _ (by decide),
          replaceFrom_cons_ne 'Y' _ _ 'm' _ (by decide),
          replaceFrom_cons_ne 'M' _ _ 'm' _ (by decide),
          replaceFrom_cons_ne 'M' _ _ 'm' _ (by decide),
          replaceFrom_cons_ne 'D' _ _ 'm' _ (by decide),
          replaceFrom_cons_ne 'D' _ _ 'm' _ (by decide),
          replaceFrom_cons_ne 'h' _ _ 'm' _ (by decide),
          replaceFrom_cons_ne 'h' _ _ 'm' _ (by decide),
          replaceFrom_hit2 'm',
          replaceFrom_free 's' _ _ vm _ (dvm.ne_of_not_digit rfl)]
      by_cases hs : ['s', 's'] <+: c :: r
      · obtain ⟨r', hr'⟩ := hs
        simp only [List.cons_append, List.nil_append, List.cons.injEq] at hr'
        obtain ⟨rfl, rfl⟩ := hr'
        have hl : r'.length ≤ n := by simp at hr; omega
        rw [formatWith_hits, ← ih r' hl]
        unfold sixReplaces
        rw [replaceFrom_cons_ne 'Y' _ _ 's' _ (by decide),
          replaceFrom_cons_ne 'Y' _ _ 's' _ (by decide),
          replaceFrom_cons_ne 'M' _ _ 's' _ (by decide),
          replaceFrom_cons_ne 'M' _ _ 's' _ (by decide),
          replaceFrom_cons_ne 'D' _ _ 's' _ (by decide),
          replaceFrom_cons_ne 'D' _ _ 's' _ (by decide),
          replaceFrom_cons_ne 'h' _ _ 's' _ (by decide),
          replaceFrom_cons_ne 'h' _ _ 's' _ (by decide),
          replaceFrom_cons_ne 'm' _ _ 's' _ (by decide),
          replaceFrom_cons_ne 'm' _ _ 's' _ (by decide),
          replaceFrom_hit2 's']
      rw [formatWith_miss _ _ _ _ _ _ c r hY hM hD hh hm hs, ← ih r hr]
      have tY := fun l (hl : l.isDigit = false) x (h : ¬ [l, l] <+: c :: x) =>
        pair_miss_transfer ['Y', 'Y', 'Y', 'Y'] vY l c x dvY.1 (dvY.head_ne hl) h
      have tM := fun l (hl : l.isDigit = false) x (h : ¬ [l, l] <+: c :: x) =>
        pair_miss_transfer ['M', 'M'] vM l c x dvM.1 (dvM.head_ne hl) h
      have tD := fun l (hl : l.isDigit = false) x (h : ¬ [l, l] <+: c :: x) =>
        pair_miss_transfer ['D', 'D'] vD l c x dvD.1 (dvD.head_ne hl) h
      have th := fun l (hl : l.isDigit = false) x (h : ¬ [l, l] <+: c :: x) =>
        pair_miss_transfer ['h', 'h'] vh l c x dvh.1 (dvh.head_ne hl) h
      have tm := fun l (hl : l.isDigit = false) x (h : ¬ [l, l] <+: c :: x) =>
        pair_miss_transfer ['m', 'm'] vm l c x dvm.1 (dvm.head_ne hl) h
      unfold sixReplaces
      rw [replaceFrom_miss _ _ _ _ hY,
        replaceFrom_miss _ _ _ _ (tY 'M' rfl _ hM),
        replaceFrom_miss _ _ _ _ (tM 'D' rfl _ (tY 'D' rfl _ hD)),
        replaceFrom_miss _ _ _ _ (tD 'h' rfl _ (tM 'h' rfl _ (tY 'h' rfl _ hh))),
        replaceFrom_miss _ _ _ _ (th 'm' rfl _ (tD 'm' rfl _ (tM 'm' rfl _ (tY 'm' rfl _ hm)))),
        replaceFrom_miss _ _ _ _
          (tm 's' rfl _ (th 's' rfl _ (tD 's' rfl _ (tM 's' rfl _ (tY 's' rfl _ hs)))))]

end TimeLemmas

/-! ## Tokens and pieces -/

section PieceLemmas

theorem groupOK.no_brace {g : Str} (h : groupOK g) : '}' ∉ g := by
  intro hm
  exact absurd (h.2 _ hm) (by decide)

theorem groupOK.no_dollar {g : Str} (h : groupOK g) : '$' ∉ g := by
  intro hm
  exact absurd (h.2 _ hm) (by decide)

theorem tokenText_ne_nil (g : Str) : tokenText g ≠ [] := by simp [tokenText]

theorem closing_prefix_inj (a : Char) : ∀ (g g' X : Str), a ∉ g → a ∉ g' →
    g ++ [a] <+: g' ++ a :: X → g = g'
  | [], [], _, _, _, _ => rfl
  | [], c :: g', X, _, h', h => by
    simp only [List.nil_append, List.cons_append, List.cons_prefix_cons] at h
    exact absurd (h.1 ▸ List.mem_cons_self _ _) h'
  | c :: g, [], X, h1, _, h => by
    simp only [List.nil_append, List.cons_append, List.cons_prefix_cons] at h
    exact absurd (h.1 ▸ List.mem_cons_self _ _) h1
  | c :: g, c' :: g', X, h1, h', h => by
    simp only [List.cons_append, List.cons_prefix_cons] at h
    rw [h.1, closing_prefix_inj a g g' X (fun hm => h1 (List.mem_cons_of_mem _ hm))
      (fun hm => h' (List.mem_cons_of_mem _ hm)) h.2]

theorem tokenText_prefix_inj (g g' X : Str) (hg : '}' ∉ g) (hg' : '}' ∉ g')
    (h : tokenText g <+: tokenText g' ++ X) : g = g' := by
  simp only [tokenText, List.cons_append, List.cons_prefix_cons, true_and,
    List.append_assoc, List.singleton_append] at h
  exact closing_prefix_inj '}' g g' X hg hg' h

theorem replaceFrom_token_same (g v X : Str) :
    replaceFrom (tokenText g) v 0 (tokenText g ++ X) = v ++ replaceFrom (tokenText g) v 0 X :=
  replaceFrom_hit _ _ _ (tokenText_ne_nil g)

theorem replaceFrom_token_other (g g' v X : Str) (hg : groupOK g) (hg' : groupOK g')
    (hne : g' ≠ g) :
    replaceFrom (tokenText g) v 0 (tokenText g' ++ X)
      = tokenText g' ++ replaceFrom (tokenText g) v 0 X := by
  have hmiss : ¬ tokenText g <+: '$' :: ('{' :: (g' ++ ['}']) ++ X) := by
    intro h
    exact hne (tokenText_prefix_inj g g' X hg.no_brace hg'.no_brace h).symm
  have hfree : ∀ c ∈ '{' :: (g' ++ ['}']), c ≠ '$' := by
    intro c hc he
    subst he
    rcases List.mem_cons.1 hc with h | h
    · exact absurd h (by decide)
    · rcases List.mem_append.1 h with h | h
      · exact hg'.no_dollar h
      · exact absurd (List.mem_singleton.1 h) (by decide)
  show replaceFrom (tokenText g) v 0 ('$' :: ('{' :: (g' ++ ['}']) ++ X)) = _
  rw [replaceFrom_miss _ _ _ _ hmiss]
  show '$' :: replaceFrom ('$' :: '{' :: (g ++ ['}'])) v 0 ('{' :: (g' ++ ['}']) ++ X) = _
  rw [replaceFrom_free '$' _ _ _ _ hfree]
  rfl

theorem replaceFrom_render (g v : Str) (hg : groupOK g) :
    ∀ ps : List Piece, (∀ p ∈ ps, p.wf) →
      replaceFrom (tokenText g) v 0 (render ps) = render (ps.map (substPiece g v))
  | [], _ => rfl
  | p :: ps, h => by
    have ih := replaceFrom_render g v hg ps (fun q hq => h q (List.mem_cons_of_mem _ hq))
    have hp := h p (List.mem_cons_self _ _)
    cases p with
    | plain w =>
      have hfree : ∀ c ∈ w, c ≠ '$' := fun c hc he => hp (he ▸ hc)
      show replaceFrom ('$' :: '{' :: (g ++ ['}'])) v 0 (w ++ render ps) = _
      rw [replaceFrom_free '$' _ _ w _ hfree]
      show w ++ replaceFrom (tokenText g) v 0 (render ps) = _
      rw [ih]
      simp [substPiece, render, Piece.text]
    | token g' =>
      by_cases hgg : g' = g
      · subst hgg
        show replaceFrom (tokenText g') v 0 (tokenText g' ++ render ps) = _
        rw [replaceFrom_token_same, ih]
        simp [substPiece, render, Piece.text]
      · show replaceFrom (tokenText g) v 0 (tokenText g' ++ render ps) = _
        rw [replaceFrom_token_other g g' v _ hg hp hgg, ih]
        simp [substPiece, render, Piece.text, hgg]

theorem substPiece_wf (g v : Str) (hv : '$' ∉ v) (ps : List Piece) (h : ∀ p ∈ ps, p.wf) :
    ∀ p ∈ ps.map (substPiece g v), p.wf := by
  intro p hp
  obtain ⟨q, hq, rfl⟩ := List.mem_map.1 hp
  unfold substPiece
  split
  · exact hv
  · exact h q hq

theorem substPiece_absent (g v : Str) (ps : List Piece) :
    Piece.token g ∉ ps.map (substPiece g v) := by
  intro hp
  obtain ⟨q, _, hq⟩ := List.mem_map.1 hp
  unfold substPiece at hq
  split at hq
  · exact absurd hq (by simp)
  · rename_i hne; exact hne hq

theorem substPiece_id (g v : Str) (ps : List Piece) (h : Piece.token g ∉ ps) :
    ps.map (substPiece g v) = ps := by
  rw [List.map_congr_left (g := id)]
  · simp
  · intro p hp
    unfold substPiece
    split
    · rename_i he; exact absurd (he ▸ hp) h
    · rfl

end PieceLemmas

/-! ## `ConvertMacro` as a single pass -/

section MacroLemmas

theorem macroStep_eq_foldl (ctx : Context) (r : Str) (m : Match) :
    macroStep ctx r m = (branches ctx m.group).foldl (branchStep m) r := rfl

theorem macroValue_eq_firstValue (ctx : Context) (g : Str) :
    macroValue ctx g = firstValue g (branches ctx g) := rfl

theorem branchStep_noop (g : Str) (hg : groupOK g) (ps : List Piece) (hps : ∀ p ∈ ps, p.wf)
    (habs : Piece.token g ∉ ps) (b : Str × Str) :
    branchStep (matchOf g) (render ps) b = render ps := by
  unfold branchStep
  split
  · show Replace (render ps) (tokenText g) b.2 = _
    rw [Replace_eq _ _ _ (tokenText_ne_nil g), replaceFrom_render g b.2 hg ps hps,
      substPiece_id g b.2 ps habs]
  · rfl

theorem foldl_branchStep_noop (g : Str) (hg : groupOK g) (ps : List Piece)
    (hps : ∀ p ∈ ps, p.wf) (habs : Piece.token g ∉ ps) :
    ∀ bs : List (Str × Str), bs.foldl (branchStep (matchOf g)) (render ps) = render ps
  | [] => rfl
  | b :: bs => by
    rw [List.foldl_cons, branchStep_noop g hg ps hps habs b,
      foldl_branchStep_noop g hg ps hps habs bs]

theorem foldl_branchStep (g : Str) (hg : groupOK g) (ps : List Piece)
    (hps : ∀ p ∈ ps, p.wf) :
    ∀ bs : List (Str × Str), (∀ v, firstValue g bs = some v → '$' ∉ v) →
      bs.foldl (branchStep (matchOf g)) (render ps)
        = render (ps.map (applyValue g (firstValue g bs)))
  | [], _ => by
    have : ps.map (applyValue g none) = ps := by
      rw [List.map_congr_left (g := id)]
      · simp
      · intro p _; rfl
    simp only [firstValue, List.foldl_nil, this]
  | b :: bs, hv => by
    by_cases hb : IndexOf g b.1 ≠ -1
    · have hfv : firstValue g (b :: bs) = some b.2 := by simp [firstValue, hb]
      have hstep : branchStep (matchOf g) (render ps) b
          = render (ps.map (substPiece g b.2)) := by
        unfold branchStep
        rw [if_pos (show IndexOf (matchOf g).group b.1 ≠ -1 from hb)]
        show Replace (render ps) (tokenText g) b.2 = _
        rw [Replace_eq _ _ _ (tokenText_ne_nil g), replaceFrom_render g b.2 hg ps hps]
      rw [List.foldl_cons, hstep, hfv,
        foldl_branchStep_noop g hg _ (substPiece_wf g b.2 (hv _ hfv) ps hps)
          (substPiece_absent g b.2 ps) bs]
      rfl
    · have hfv : firstValue g (b :: bs) = firstValue g bs := by simp [firstValue, hb]
      have hstep : branchStep (matchOf g) (render ps) b = render ps := by
        unfold branchStep
        rw [if_neg (show ¬ IndexOf (matchOf g).group b.1 ≠ -1 from hb)]
      rw [List.foldl_cons, hstep, hfv]
      exact foldl_branchStep g hg ps hps bs (fun v h => hv v (hfv ▸ h))

theorem macroStep_render (ctx : Context) (g : Str) (hg : groupOK g) (ps : List Piece)
    (hps : ∀ p ∈ ps, p.wf) (hv : ∀ v, macroValue ctx g = some v → '$' ∉ v) :
    macroStep ctx (render ps) (matchOf g)
      = render (ps.map (applyValue g (macroValue ctx g))) := by
  rw [macroStep_eq_foldl, macroValue_eq_firstValue]
  exact foldl_branchStep g hg ps hps _ (fun v h => hv v (by rw [macroValue_eq_firstValue]; exact h))

theorem applyValue_wf (g : Str) (ov : Option Str) (hv : ∀ v, ov = some v → '$' ∉ v)
    (ps : List Piece) (hps : ∀ p ∈ ps, p.wf) : ∀ p ∈ ps.map (applyValue g ov), p.wf := by
  cases ov with
  | none =>
    intro p hp
    obtain ⟨q, hq, rfl⟩ := List.mem_map.1 hp
    exact hps q hq
  | some v => exact substPiece_wf g v (hv v rfl) ps hps

theorem expandIn_applyValue (ctx : Context) (g : Str) (gs : List Str) (p : Piece) :
    expandIn ctx gs (applyValue g (macroValue ctx g) p) = expandIn ctx (g :: gs) p := by
  cases p with
  | plain w =>
    cases h : macroValue ctx g <;> simp [applyValue, substPiece, expandIn]
  | token g' =>
    by_cases hgg : g' = g
    · subst hgg
      cases h : macroValue ctx g' with
      | none => simp [applyValue, expandIn, expandPiece, h]
      | some v => simp [applyValue, substPiece, expandIn, expandPiece, h]
    · cases h : macroValue ctx g with
      | none => simp [applyValue, expandIn, hgg]
      | some v => simp [applyValue, substPiece, expandIn, hgg]

theorem foldl_macroStep_render (ctx : Context) :
    ∀ (gs : List Str) (ps : List Piece), (∀ p ∈ ps, p.wf) →
      (∀ g ∈ gs, groupOK g ∧ ∀ v, macroValue ctx g = some v → '$' ∉ v) →
      (gs.map matchOf).foldl (macroStep ctx) (render ps) = render (ps.map (expandIn ctx gs))
  | [], ps, _, _ => by
    have : ps.map (expandIn ctx []) = ps := by
      rw [List.map_congr_left (g := id)]
      · simp
      · intro p _
        cases p <;> simp [expandIn]
    rw [this]; rfl
  | g :: gs, ps, hps, hgs => by
    have hg := hgs g (List.mem_cons_self _ _)
    rw [List.map_cons, List.foldl_cons, macroStep_render ctx g hg.1 ps hps hg.2,
      foldl_macroStep_render ctx gs _ (applyValue_wf g _ hg.2 ps hps)
        (fun x hx => hgs x (List.mem_cons_of_mem _ hx)), List.map_map]
    congr 1
    apply List.map_congr_left
    intro p _
    exact expandIn_applyValue ctx g gs p

theorem matchHere_some {s : Str} {m : Match} (h : matchHere s = some m) :
    m = matchOf m.group ∧ groupOK m.group ∧ ∃ rest, s = tokenText m.group ++ rest := by
  unfold matchHere at h
  split at h
  · rename_i t
    simp only at h
    split at h
    · exact absurd h (by simp)
    · rename_i hne
      split at h
      · rename_i rest hd
        simp only [Option.some.injEq] at h
        subst h
        refine ⟨rfl, ⟨?_, ?_⟩, rest, ?_⟩
        · intro he
          apply hne
          show (List.takeWhile isGroupChar t).isEmpty = true
          rw [show List.takeWhile isGroupChar t = [] from he]
          rfl
        · intro c hc
          exact (List.mem_takeWhile_imp hc)
        · have := List.takeWhile_append_dropWhile isGroupChar t
          rw [hd] at this
          simp only [tokenText, List.cons_append, List.append_assoc, List.singleton_append,
            List.nil_append]
          rw [this]
      · exact absurd h (by simp)
  · exact absurd h (by simp)

theorem regexFrom_eq : ∀ (s : Str) (k : Nat),
    regexFrom k s = (groupsOf (piecesFrom k s)).map matchOf
  | [], k => by cases k <;> rfl
  | c :: t, k + 1 => by
    simp only [regexFrom, piecesFrom]
    exact regexFrom_eq t k
  | c :: t, 0 => by
    simp only [regexFrom, piecesFrom]
    cases h : matchHere (c :: t) with
    | none =>
      simp only [groupsOf, List.filterMap_cons, Piece.group?]
      exact regexFrom_eq t 0
    | some m =>
      simp only [groupsOf, List.filterMap_cons, Piece.group?, List.map_cons]
      rw [← (matchHere_some h).1]
      congr 1
      exact regexFrom_eq t _

theorem render_piecesFrom : ∀ (s : Str) (k : Nat), render (piecesFrom k s) = s.drop k
  | [], k => by cases k <;> rfl
  | c :: t, k + 1 => by
    simp only [piecesFrom, List.drop_succ_cons]
    exact render_piecesFrom t k
  | c :: t, 0 => by
    simp only [piecesFrom, List.drop_zero]
    cases h : matchHere (c :: t) with
    | none =>
      simp only [render, Piece.text, List.singleton_append]
      rw [render_piecesFrom t 0]; rfl
    | some m =>
      obtain ⟨_, _, rest, hrest⟩ := matchHere_some h
      simp only [render, Piece.text]
      rw [render_piecesFrom t _]
      have ht : t = '{' :: (m.group ++ ['}']) ++ rest := by
        simp only [tokenText, List.cons_append, List.cons.injEq] at hrest
        rw [hrest.2]; simp
      rw [hrest]
      conv_lhs => rw [ht]
      have : ('{' :: (m.group ++ ['}']) ++ rest).drop (m.group.length + 2) = rest := by
        have hl : ('{' :: (m.group ++ ['}'])).length = m.group.length + 2 := by simp
        rw [← hl, List.drop_left]
      rw [this]

theorem render_pieces (s : Str) : render (pieces s) = s := by
  simpa using render_piecesFrom s 0

theorem piecesFrom_shape : ∀ (s : Str) (k : Nat), ∀ p ∈ piecesFrom k s,
    (∃ c, p = Piece.plain [c]) ∨ (∃ g, p = Piece.token g ∧ groupOK g)
  | [], k => by cases k <;> simp [piecesFrom]
  | c :: t, k + 1 => by
    simp only [piecesFrom]
    exact piecesFrom_shape t k
  | c :: t, 0 => by
    simp only [piecesFrom]
    cases h : matchHere (c :: t) with
    | none =>
      intro p hp
      rcases List.mem_cons.1 hp with rfl | hp
      · exact Or.inl ⟨c, rfl⟩
      · exact piecesFrom_shape t 0 p hp
    | some m =>
      intro p hp
      rcases List.mem_cons.1 hp with rfl | hp
      · exact Or.inr ⟨m.group, rfl, (matchHere_some h).2.1⟩
      · exact piecesFrom_shape t _ p hp

theorem mem_render_of_mem {ps : List Piece} {p : Piece} (hp : p ∈ ps) {c : Char}
    (hc : c ∈ p.text) : c ∈ render ps := by
  induction ps with
  | nil => exact absurd hp (by simp)
  | cons q qs ih =>
    simp only [render, List.mem_append]
    rcases List.mem_cons.1 hp with rfl | hq
    · exact Or.inl hc
    · exact Or.inr (ih hq)

theorem pieces_wf (s : Str) (h : '$' ∉ outsideTokens s) : ∀ p ∈ pieces s, p.wf := by
  intro p hp
  rcases piecesFrom_shape s 0 p hp with ⟨c, rfl⟩ | ⟨g, rfl, hg⟩
  · show '$' ∉ [c]
    intro hc
    apply h
    unfold outsideTokens
    exact mem_render_of_mem (List.mem_filter.2 ⟨hp, rfl⟩) hc
  · exact hg

theorem mem_groupsOf {ps : List Piece} {g : Str} :
    g ∈ groupsOf ps ↔ Piece.token g ∈ ps := by
  unfold groupsOf
  rw [List.mem_filterMap]
  constructor
  · rintro ⟨p, hp, hg⟩
    cases p with
    | plain w => simp [Piece.group?] at hg
    | token g' =>
      simp only [Piece.group?, Option.some.injEq] at hg
      exact hg ▸ hp
  · intro h
    exact ⟨_, h, rfl⟩

theorem regexMatches_eq (s : Str) : regexMatches s = (groupsOf (pieces s)).map matchOf :=
  regexFrom_eq s 0

theorem groupsOf_pieces_ok (s : Str) : ∀ g ∈ groupsOf (pieces s), groupOK g := by
  intro g hg
  rcases piecesFrom_shape s 0 _ (mem_groupsOf.1 hg) with ⟨c, hc⟩ | ⟨g', hg', hok⟩
  · exact absurd hc (by simp)
  · simp only [Piece.token.injEq] at hg'
    exact hg' ▸ hok

/-- The running replacement of `ConvertMacro` equals the single pass `expandOnce`
whenever `$` occurs neither outside the tokens of the template nor in a value that is
substituted for one of its tokens. -/
theorem ConvertMacro_eq_expandOnce_of_dollar_free (ctx : Context) (s : Str)
    (h1 : '$' ∉ outsideTokens s)
    (h2 : ∀ g ∈ groupsOf (pieces s), ∀ v, macroValue ctx g = some v → '$' ∉ v) :
    ConvertMacro ctx s = expandOnce ctx s := by
  unfold ConvertMacro expandOnce
  rw [regexMatches_eq]
  conv_lhs => arg 2; rw [← render_pieces s]
  rw [foldl_macroStep_render ctx _ _ (pieces_wf s h1)
    (fun g hg => ⟨groupsOf_pieces_ok s g hg, h2 g hg⟩)]
  congr 1
  apply List.map_congr_left
  intro p hp
  cases p with
  | plain w => rfl
  | token g => simp [expandIn, mem_groupsOf.2 hp]

end MacroLemmas

/-! ## Occurrences -/

section OccurrenceLemmas

theorem indexOfFrom_eq_neg_one (sub : Str) :
    ∀ (s : Str) (i : Nat), indexOfFrom sub s i = -1 ↔ ¬ sub <:+: s
  | [], i => by
    cases sub with
    | nil =>
      simp only [indexOfFrom, List.isEmpty_nil, if_true]
      constructor
      · intro h; omega
      · intro h; exact absurd (List.infix_refl _) h
    | cons c t => simp [indexOfFrom]
  | c :: t, i => by
    by_cases hp : sub <+: c :: t
    · have hp' : sub.isPrefixOf (c :: t) = true := List.isPrefixOf_iff_prefix.2 hp
      simp only [indexOfFrom, hp', if_true]
      constructor
      · intro h; omega
      · intro h; exact absurd hp.isInfix h
    · have hp' : sub.isPrefixOf (c :: t) = false :=
        Bool.eq_false_iff.2 (mt List.isPrefixOf_iff_prefix.1 hp)
      simp only [indexOfFrom, hp', Bool.false_eq_true, if_false]
      rw [indexOfFrom_eq_neg_one sub t (i + 1), List.infix_cons_iff]
      simp [hp]

theorem IndexOf_eq_neg_one_iff (s sub : Str) : IndexOf s sub = -1 ↔ ¬ sub <:+: s :=
  indexOfFrom_eq_neg_one sub s 0

theorem IndexOf_ne_neg_one_iff (s sub : Str) : IndexOf s sub ≠ -1 ↔ sub <:+: s := by
  rw [ne_eq, IndexOf_eq_neg_one_iff, not_not]

theorem prefix_of_sep (a : Char) : ∀ (T A Y : Str), a ∉ T → T <+: A ++ a :: Y → T <+: A
  | [], _, _, _, _ => List.nil_prefix
  | d :: T, [], Y, ha, h => by
    simp only [List.nil_append, List.cons_prefix_cons] at h
    exact absurd (h.1 ▸ List.mem_cons_self _ _) ha
  | d :: T, e :: A, Y, ha, h => by
    simp only [List.cons_append, List.cons_prefix_cons] at h ⊢
    exact ⟨h.1, prefix_of_sep a T A Y (fun hm => ha (List.mem_cons_of_mem _ hm)) h.2⟩

theorem infix_split_sep (a : Char) (n : Str) (ha : a ∉ n) :
    ∀ (w x : Str), n <:+: w ++ a :: x → n <:+: w ∨ n <:+: x
  | [], x, h => by
    rw [List.nil_append, List.infix_cons_iff] at h
    rcases h with h | h
    · have := prefix_of_sep a n [] x ha (by simpa using h)
      exact Or.inl this.isInfix
    · exact Or.inr h
  | c :: w, x, h => by
    rw [List.cons_append, List.infix_cons_iff] at h
    rcases h with h | h
    · exact Or.inl (prefix_of_sep a n (c :: w) x ha h).isInfix
    · rcases infix_split_sep a n ha w x h with h | h
      · exact Or.inl (List.infix_cons h)
      · exact Or.inr h

theorem replaceFrom_absent (old new : Str) :
    ∀ s : Str, ¬ old <:+: s → replaceFrom old new 0 s = s
  | [], _ => rfl
  | c :: t, h => by
    rw [replaceFrom_miss _ _ _ _ (fun hp => h hp.isInfix),
      replaceFrom_absent old new t (fun hi => h (List.infix_cons hi))]

theorem infix_free (a : Char) (T : Str) :
    ∀ (w X : Str), (∀ c ∈ w, c ≠ a) → a :: T <:+: w ++ X → a :: T <:+: X
  | [], _, _, h => h
  | c :: w, X, hw, h => by
    rw [List.cons_append, List.infix_cons_iff] at h
    rcases h with h | h
    · exact absurd (List.cons_prefix_cons.1 h).1.symm (hw c (List.mem_cons_self _ _))
    · exact infix_free a T w X (fun d hd => hw d (List.mem_cons_of_mem _ hd)) h

theorem tokenBody_free (g : Str) (hg : groupOK g) : ∀ c ∈ '{' :: (g ++ ['}']), c ≠ '$' := by
  intro c hc he
  subst he
  rcases List.mem_cons.1 hc with h | h
  · exact absurd h (by decide)
  · rcases List.mem_append.1 h with h | h
    · exact hg.no_dollar h
    · exact absurd (List.mem_singleton.1 h) (by decide)

theorem token_infix_render (g : Str) (hg : groupOK g) :
    ∀ ps : List Piece, (∀ p ∈ ps, p.wf) → tokenText g <:+: render ps → Piece.token g ∈ ps
  | [], _, h => by
    have := List.eq_nil_of_infix_nil h
    exact absurd this (tokenText_ne_nil g)
  | p :: ps, hps, h => by
    have ih := token_infix_render g hg ps (fun q hq => hps q (List.mem_cons_of_mem _ hq))
    have hp := hps p (List.mem_cons_self _ _)
    cases p with
    | plain w =>
      have hfree : ∀ c ∈ w, c ≠ '$' := fun c hc he => hp (he ▸ hc)
      exact List.mem_cons_of_mem _ (ih (infix_free '$' _ w _ hfree h))
    | token g' =>
      have h' : tokenText g <:+: '$' :: ('{' :: (g' ++ ['}']) ++ render ps) := h
      rw [List.infix_cons_iff] at h'
      rcases h' with h' | h'
      · have : g = g' := tokenText_prefix_inj g g' (render ps) hg.no_brace hp.no_brace h'
        rw [this]; exact List.mem_cons_self _ _
      · exact List.mem_cons_of_mem _ (ih (infix_free '$' _ _ _ (tokenBody_free g' hp) h'))

theorem replaceFrom_around_token (g g' v : Str) (hg : groupOK g) (hg' : groupOK g')
    (hne : g ≠ g') :
    ∀ (n : Nat) (A B : Str), A.length ≤ n →
      replaceFrom (tokenText g') v 0 (A ++ (tokenText g ++ B))
        = replaceFrom (tokenText g') v 0 A
          ++ (tokenText g ++ replaceFrom (tokenText g') v 0 B) := by
  intro n
  induction n with
  | zero =>
    intro A B hA
    have : A = [] := List.length_eq_zero.1 (Nat.le_zero.1 hA)
    subst this
    simp only [List.nil_append, replaceFrom_nil]
    exact replaceFrom_token_other g' g v B hg' hg hne
  | succ n ih =>
    intro A B hA
    cases A with
    | nil =>
      simp only [List.nil_append, replaceFrom_nil]
      exact replaceFrom_token_other g' g v B hg' hg hne
    | cons c A' =>
      by_cases hp : tokenText g' <+: c :: A' ++ (tokenText g ++ B)
      · have hp' : '$' :: ('{' :: (g' ++ ['}'])) <+: c :: (A' ++ '$' :: ('{' :: (g ++ ['}']) ++ B)) := hp
        rw [List.cons_prefix_cons] at hp'
        have hin : '{' :: (g' ++ ['}']) <+: A' :=
          prefix_of_sep '$' _ A' _ (fun hm => tokenBody_free g' hg' _ hm rfl) hp'.2
        obtain ⟨A'', hA''⟩ := hin
        have hAeq : c :: A' = tokenText g' ++ A'' := by
          rw [← hA'', ← hp'.1]; rfl
        have hlen : A''.length ≤ n := by
          have := congrArg List.length hA''
          simp at this hA
          omega
        rw [hAeq, List.append_assoc, replaceFrom_token_same, replaceFrom_token_same,
          ih A'' B hlen, List.append_assoc]
      · have hq : ¬ tokenText g' <+: c :: A' := fun h =>
          hp (h.trans (List.prefix_append _ _))
        have hlen : A'.length ≤ n := by simpa using hA
        have hp2 : ¬ tokenText g' <+: c :: (A' ++ (tokenText g ++ B)) := hp
        rw [List.cons_append, replaceFrom_miss _ _ _ _ hp2, replaceFrom_miss _ _ _ _ hq,
          ih A' B hlen]
        rfl

end OccurrenceLemmas

/-! ## Tokens that are left alone -/

section UnchangedLemmas

theorem foldl_branchStep_id (m : Match) (r : Str) :
    ∀ bs : List (Str × Str), (∀ b ∈ bs, ¬ b.1 <:+: m.group) →
      bs.foldl (branchStep m) r = r
  | [], _ => rfl
  | b :: bs, h => by
    have hb : ¬ IndexOf m.group b.1 ≠ -1 := by
      rw [IndexOf_ne_neg_one_iff]; exact h b (List.mem_cons_self _ _)
    rw [List.foldl_cons, show branchStep m r b = r from if_neg hb]
    exact foldl_branchStep_id m r bs (fun x hx => h x (List.mem_cons_of_mem _ hx))

theorem branches_names (ctx : Context) (g : Str) : ∀ b ∈ branches ctx g, b.1 ∈ macroNames := by
  intro b hb
  simp only [branches, List.mem_cons, List.mem_singleton, List.not_mem_nil, or_false] at hb
  rcases hb with rfl | rfl | rfl | rfl | rfl | rfl <;> simp [macroNames]

theorem macroStep_id (ctx : Context) (r : Str) (m : Match)
    (hn : ∀ n ∈ macroNames, ¬ n <:+: m.group) : macroStep ctx r m = r := by
  rw [macroStep_eq_foldl]
  exact foldl_branchStep_id m r _ (fun b hb => hn _ (branches_names ctx _ b hb))

theorem branchStep_around_token (g g' : Str) (hg : groupOK g) (hg' : groupOK g')
    (hne : g ≠ g') (A B : Str) (b : Str × Str) :
    branchStep (matchOf g') (A ++ (tokenText g ++ B)) b
      = branchStep (matchOf g') A b ++ (tokenText g ++ branchStep (matchOf g') B b) := by
  unfold branchStep
  split
  · show Replace _ (tokenText g') b.2 = Replace _ (tokenText g') b.2
      ++ (tokenText g ++ Replace _ (tokenText g') b.2)
    rw [Replace_eq _ _ _ (tokenText_ne_nil g'), Replace_eq _ _ _ (tokenText_ne_nil g'),
      Replace_eq _ _ _ (tokenText_ne_nil g')]
    exact replaceFrom_around_token g g' b.2 hg hg' hne _ A B (Nat.le_refl _)
  · rfl

theorem foldl_branchStep_around_token (g g' : Str) (hg : groupOK g) (hg' : groupOK g')
    (hne : g ≠ g') :
    ∀ (bs : List (Str × Str)) (A B : Str),
      bs.foldl (branchStep (matchOf g')) (A ++ (tokenText g ++ B))
        = bs.foldl (branchStep (matchOf g')) A
          ++ (tokenText g ++ bs.foldl (branchStep (matchOf g')) B)
  | [], _, _ => rfl
  | b :: bs, A, B => by
    rw [List.foldl_cons, List.foldl_cons, List.foldl_cons,
      branchStep_around_token g g' hg hg' hne A B b]
    exact foldl_branchStep_around_token g g' hg hg' hne bs _ _

theorem macroStep_around_token (ctx : Context) (g g' : Str) (hg : groupOK g)
    (hg' : groupOK g') (hn : ∀ n ∈ macroNames, ¬ n <:+: g) (A B : Str) :
    macroStep ctx (A ++ (tokenText g ++ B)) (matchOf g')
      = macroStep ctx A (matchOf g') ++ (tokenText g ++ macroStep ctx B (matchOf g')) := by
  by_cases hne : g = g'
  · subst hne
    rw [macroStep_id ctx _ (matchOf g) hn, macroStep_id ctx _ (matchOf g) hn,
      macroStep_id ctx _ (matchOf g) hn]
  · simp only [macroStep_eq_foldl]
    exact foldl_branchStep_around_token g g' hg hg' hne _ A B

theorem foldl_macroStep_around_token (ctx : Context) (g : Str) (hg : groupOK g)
    (hn : ∀ n ∈ macroNames, ¬ n <:+: g) :
    ∀ (gs : List Str), (∀ x ∈ gs, groupOK x) → ∀ (A B : Str),
      (gs.map matchOf).foldl (macroStep ctx) (A ++ (tokenText g ++ B))
        = (gs.map matchOf).foldl (macroStep ctx) A
          ++ (tokenText g ++ (gs.map matchOf).foldl (macroStep ctx) B)
  | [], _, _, _ => rfl
  | x :: gs, h, A, B => by
    simp only [List.map_cons, List.foldl_cons]
    rw [macroStep_around_token ctx g x hg (h x (List.mem_cons_self _ _)) hn A B]
    exact foldl_macroStep_around_token ctx g hg hn gs
      (fun y hy => h y (List.mem_cons_of_mem _ hy)) _ _

theorem expanded_wf (ctx : Context) (s : Str) (h1 : '$' ∉ outsideTokens s)
    (h2 : ∀ g ∈ groupsOf (pieces s), ∀ v, macroValue ctx g = some v → '$' ∉ v) :
    ∀ p ∈ (pieces s).map (expandPiece ctx), p.wf := by
  intro p hp
  obtain ⟨q, hq, rfl⟩ := List.mem_map.1 hp
  have hqwf := pieces_wf s h1 q hq
  cases q with
  | plain w => exact hqwf
  | token g =>
    cases hv : macroValue ctx g with
    | none => simp only [expandPiece, hv]; exact hqwf
    | some v => simp only [expandPiece, hv]; exact h2 g (mem_groupsOf.2 hq) v hv

theorem expanded_tokens (ctx : Context) (s g : Str)
    (h : Piece.token g ∈ (pieces s).map (expandPiece ctx)) : macroValue ctx g = none := by
  obtain ⟨q, _, hq⟩ := List.mem_map.1 h
  cases q with
  | plain w => simp [expandPiece] at hq
  | token g' =>
    cases hv : macroValue ctx g' with
    | none =>
      simp only [expandPiece, hv, Piece.token.injEq] at hq
      rw [← hq]; exact hv
    | some v => simp [expandPiece, hv] at hq

theorem recognizedTokens_cases : ∀ T ∈ recognizedTokens,
    ∃ g, T = tokenText g ∧ groupOK g ∧ ∀ ctx : Context, (macroValue ctx g).isSome = true := by
  intro T hT
  simp only [recognizedTokens, List.mem_cons, List.mem_singleton, List.not_mem_nil,
    or_false] at hT
  rcases hT with rfl | rfl | rfl | rfl | rfl
  · exact ⟨"VirtualHost".toList, rfl, by decide, fun _ => rfl⟩
  · exact ⟨"Application".toList, rfl, by decide, fun _ => rfl⟩
  · exact ⟨"Stream".toList, rfl, by decide, fun _ => rfl⟩
  · exact ⟨"Sequence".toList, rfl, by decide, fun _ => rfl⟩
  · exact ⟨"StartTime:YYYYMMDD".toList, rfl, by decide, fun _ => rfl⟩

end UnchangedLemmas

/-! ## Time tokens -/

section TimeTokenLemmas

theorem takeWhile_group (X : Str) : ∀ g : Str, (∀ c ∈ g, isGroupChar c = true) →
    (g ++ '}' :: X).takeWhile isGroupChar = g ∧ (g ++ '}' :: X).dropWhile isGroupChar = '}' :: X
  | [], _ => by
    constructor
    · rw [List.nil_append, List.takeWhile_cons_of_neg (by decide)]
    · rw [List.nil_append, List.dropWhile_cons_of_neg (by decide)]
  | c :: g, h => by
    have hc := h c (List.mem_cons_self _ _)
    have ih := takeWhile_group X g (fun d hd => h d (List.mem_cons_of_mem _ hd))
    constructor
    · rw [List.cons_append, List.takeWhile_cons_of_pos hc, ih.1]
    · rw [List.cons_append, List.dropWhile_cons_of_pos hc, ih.2]

theorem matchHere_token (g X : Str) (hg : groupOK g) :
    matchHere (tokenText g ++ X) = some (matchOf g) := by
  have h := takeWhile_group X g hg.2
  show matchHere ('$' :: '{' :: ((g ++ ['}']) ++ X)) = _
  have e : (g ++ ['}']) ++ X = g ++ '}' :: X := by simp
  rw [e]
  unfold matchHere
  simp only [h.1, h.2]
  cases g with
  | nil => exact absurd rfl hg.1
  | cons c g => rfl

theorem regexFrom_skip : ∀ (xs t : Str), regexFrom xs.length (xs ++ t) = regexFrom 0 t
  | [], _ => rfl
  | _ :: xs, t => by
    simp only [List.length_cons, List.cons_append, regexFrom]
    exact regexFrom_skip xs t

theorem regexMatches_token (g : Str) (hg : groupOK g) :
    regexMatches (tokenText g) = [matchOf g] := by
  have hm := matchHere_token g [] hg
  rw [List.append_nil] at hm
  have hs := regexFrom_skip ('{' :: (g ++ ['}'])) []
  rw [List.append_nil] at hs
  have hl : ('{' :: (g ++ ['}'])).length = g.length + 2 := by simp
  rw [hl] at hs
  show regexFrom 0 ('$' :: ('{' :: (g ++ ['}']))) = _
  have hm' : matchHere ('$' :: ('{' :: (g ++ ['}']))) = some (matchOf g) := hm
  simp only [regexFrom, hm']
  show matchOf g :: regexFrom (g.length + 2) ('{' :: (g ++ ['}'])) = _
  rw [hs]; rfl

theorem branchStep_skip (m : Match) (r : Str) (b : Str × Str) (h : ¬ b.1 <:+: m.group) :
    branchStep m r b = r :=
  if_neg (by rw [IndexOf_ne_neg_one_iff]; exact h)

theorem branchStep_hit_token (g : Str) (b : Str × Str) (h : b.1 <:+: g) :
    branchStep (matchOf g) (tokenText g) b = b.2 := by
  unfold branchStep
  rw [if_pos (show IndexOf (matchOf g).group b.1 ≠ -1 from (IndexOf_ne_neg_one_iff _ _).2 h)]
  show Replace (tokenText g) (tokenText g) b.2 = b.2
  rw [Replace_eq _ _ _ (tokenText_ne_nil g)]
  have := replaceFrom_hit (tokenText g) b.2 [] (tokenText_ne_nil g)
  rw [List.append_nil] at this
  rw [this, replaceFrom_nil, List.append_nil]

theorem not_infix_timeGroup (n name fmt : Str) (hc : ':' ∉ n) (h1 : ¬ n <:+: name)
    (h2 : ¬ n <:+: fmt) : ¬ n <:+: name ++ ':' :: fmt :=
  fun h => (infix_split_sep ':' n hc name fmt h).elim h1 h2

theorem Replace_strip_name (name fmt : Str) (h : ¬ name <:+: fmt) :
    Replace (name ++ ':' :: fmt) (name ++ [':']) [] = fmt := by
  have hne : name ++ [':'] ≠ [] := by simp
  have habs : ¬ name ++ [':'] <:+: fmt := fun hi =>
    h ((List.prefix_append name [':']).isInfix.trans hi)
  rw [Replace_eq _ _ _ hne]
  have e : name ++ ':' :: fmt = (name ++ [':']) ++ fmt := by simp
  rw [e, replaceFrom_hit _ _ _ hne, replaceFrom_absent _ _ _ habs]
  rfl

theorem timeString_eq_sixReplaces (name g : Str) (t : LocalTime) :
    timeString name g t = sixReplaces (strftime_Y t) (strftime_m t) (strftime_d t)
      (strftime_H t) (strftime_M t) (strftime_S t) (Replace g (name ++ [':']) []) := rfl

theorem decimal_eq_zeroPadded4 (n : Nat) (h1 : 1000 ≤ n) (h2 : n ≤ 9999) :
    decimal n = zeroPadded4 n := by
  obtain ⟨m, hm⟩ : ∃ m, n + 1 = m + 4 := ⟨n - 3, by omega⟩
  unfold decimal Nat.toDigits
  rw [hm]
  have e1 : ¬ n / 10 = 0 := by omega
  have e2 : ¬ n / 10 / 10 = 0 := by omega
  have e3 : ¬ n / 10 / 10 / 10 = 0 := by omega
  have e4 : n / 10 / 10 / 10 / 10 = 0 := by omega
  simp only [Nat.toDigitsCore, e1, e2, e3, e4, if_false, if_true]
  have f1 : n / 10 / 10 / 10 = n / 1000 := by omega
  have f2 : n / 10 / 10 = n / 100 := by omega
  rw [f1, f2]
  rfl

theorem pad2_eq_zeroPadded2 : ∀ n, n < 100 → pad2 n = zeroPadded2 n := by decide

theorem strftime_valid (t : LocalTime) (h : t.valid) :
    strftime_Y t = zeroPadded4 t.year ∧ strftime_m t = zeroPadded2 t.month ∧
    strftime_d t = zeroPadded2 t.day ∧ strftime_H t = zeroPadded2 t.hour ∧
    strftime_M t = zeroPadded2 t.minute ∧ strftime_S t = zeroPadded2 t.second := by
  obtain ⟨h1, h2, _, h4, _, h6, h7, h8, h9⟩ := h
  exact ⟨decimal_eq_zeroPadded4 _ h1 h2, pad2_eq_zeroPadded2 _ (by omega),
    pad2_eq_zeroPadded2 _ (by omega), pad2_eq_zeroPadded2 _ (by omega),
    pad2_eq_zeroPadded2 _ (by omega), pad2_eq_zeroPadded2 _ (by omega)⟩

theorem timeString_eq_formatTime (name fmt : Str) (t : LocalTime) (ht : t.valid)
    (h : ¬ name <:+: fmt) :
    timeString name (name ++ ':' :: fmt) t = formatTime t fmt := by
  rw [timeString_eq_sixReplaces, Replace_strip_name name fmt h,
    sixReplaces_eq_formatWith (strftime_Y t) (strftime_m t) (strftime_d t) (strftime_H t)
      (strftime_M t) (strftime_S t) (decimal_digitsOnly _) (pad2_digitsOnly _)
      (pad2_digitsOnly _) (pad2_digitsOnly _) (pad2_digitsOnly _) _ fmt (Nat.le_refl _)]
  obtain ⟨e1, e2, e3, e4, e5, e6⟩ := strftime_valid t ht
  rw [e1, e2, e3, e4, e5, e6]
  rfl

theorem ConvertMacro_token (ctx : Context) (g : Str) (hg : groupOK g) :
    ConvertMacro ctx (tokenText g)
      = (branches ctx g).foldl (branchStep (matchOf g)) (tokenText g) := by
  unfold ConvertMacro
  rw [regexMatches_token g hg]
  rfl

theorem ConvertMacro_StartTime (ctx : Context) (fmt : Str)
    (hfmt : ∀ c ∈ fmt, isGroupChar c = true) (hn : ∀ n ∈ macroNames, ¬ n <:+: fmt)
    (ht : ctx.now.valid) :
    ConvertMacro ctx (tokenText ("StartTime".toList ++ ':' :: fmt)) = formatTime ctx.now fmt := by
  have hname : ∀ c ∈ "StartTime".toList, isGroupChar c = true := by decide
  have hg : groupOK ("StartTime".toList ++ ':' :: fmt) := by
    refine ⟨by simp, ?_⟩
    intro c hc
    rcases List.mem_append.1 hc with h | h
    · exact hname c h
    · rcases List.mem_cons.1 h with rfl | h
      · rfl
      · exact hfmt c h
  have k := fun n (hm : n ∈ macroNames) (hc : ':' ∉ n) (h1 : ¬ n <:+: "StartTime".toList) =>
    not_infix_timeGroup n "StartTime".toList fmt hc h1 (hn n hm)
  have sVirtualHost : ∀ r v, branchStep (matchOf ("StartTime".toList ++ ':' :: fmt)) r
      ("VirtualHost".toList, v) = r := fun r v =>
    branchStep_skip _ r _ (k "VirtualHost".toList (by decide) (by decide) (by decide))
  have sApplication : ∀ r v, branchStep (matchOf ("StartTime".toList ++ ':' :: fmt)) r
      ("Application".toList, v) = r := fun r v =>
    branchStep_skip _ r _ (k "Application".toList (by decide) (by decide) (by decide))
  have sStream : ∀ r v, branchStep (matchOf ("StartTime".toList ++ ':' :: fmt)) r
      ("Stream".toList, v) = r := fun r v =>
    branchStep_skip _ r _ (k "Stream".toList (by decide) (by decide) (by decide))
  have sSequence : ∀ r v, branchStep (matchOf ("StartTime".toList ++ ':' :: fmt)) r
      ("Sequence".toList, v) = r := fun r v =>
    branchStep_skip _ r _ (k "Sequence".toList (by decide) (by decide) (by decide))
  have sEndTime : ∀ r v, branchStep (matchOf ("StartTime".toList ++ ':' :: fmt)) r
      ("EndTime".toList, v) = r := fun r v =>
    branchStep_skip _ r _ (k "EndTime".toList (by decide) (by decide) (by decide))
  have shit : ∀ v, branchStep (matchOf ("StartTime".toList ++ ':' :: fmt))
      (tokenText ("StartTime".toList ++ ':' :: fmt)) ("StartTime".toList, v) = v := fun v =>
    branchStep_hit_token _ ("StartTime".toList, v) (List.prefix_append _ _).isInfix
  rw [ConvertMacro_token ctx _ hg]
  simp only [branches, List.foldl_cons, List.foldl_nil]
  rw [sVirtualHost, sApplication, sStream, sSequence]
  rw [shit, sEndTime]
  exact timeString_eq_formatTime _ fmt ctx.now ht (hn _ (by decide))

theorem ConvertMacro_EndTime (ctx : Context) (fmt : Str)
    (hfmt : ∀ c ∈ fmt, isGroupChar c = true) (hn : ∀ n ∈ macroNames, ¬ n <:+: fmt)
    (ht : ctx.now.valid) :
    ConvertMacro ctx (tokenText ("EndTime".toList ++ ':' :: fmt)) = formatTime ctx.now fmt := by
  have hname : ∀ c ∈ "EndTime".toList, isGroupChar c = true := by decide
  have hg : groupOK ("EndTime".toList ++ ':' :: fmt) := by
    refine ⟨by simp, ?_⟩
    intro c hc
    rcases List.mem_append.1 hc with h | h
    · exact hname c h
    · rcases List.mem_cons.1 h with rfl | h
      · rfl
      · exact hfmt c h
  have k := fun n (hm : n ∈ macroNames) (hc : ':' ∉ n) (h1 : ¬ n <:+: "EndTime".toList) =>
    not_infix_timeGroup n "EndTime".toList fmt hc h1 (hn n hm)
  have sVirtualHost : ∀ r v, branchStep (matchOf ("EndTime".toList ++ ':' :: fmt)) r
      ("VirtualHost".toList, v) = r := fun r v =>
    branchStep_skip _ r _ (k "VirtualHost".toList (by decide) (by decide) (by decide))
  have sApplication : ∀ r v, branchStep (matchOf ("EndTime".toList ++ ':' :: fmt)) r
      ("Application".toList, v) = r := fun r v =>
    branchStep_skip _ r _ (k "Application".toList (by decide) (by decide) (by decide))
  have sStream : ∀ r v, branchStep (matchOf ("EndTime".toList ++ ':' :: fmt)) r
      ("Stream".toList, v) = r := fun r v =>
    branchStep_skip _ r _ (k "Stream".toList (by decide) (by decide) (by decide))
  have sSequence : ∀ r v, branchStep (matchOf ("EndTime".toList ++ ':' :: fmt)) r
      ("Sequence".toList, v) = r := fun r v =>
    branchStep_skip _ r _ (k "Sequence".toList (by decide) (by decide) (by decide))
  have sStartTime : ∀ r v, branchStep (matchOf ("EndTime".toList ++ ':' :: fmt)) r
      ("StartTime".toList, v) = r := fun r v =>
    branchStep_skip _ r _ (k "StartTime".toList (by decide) (by decide) (by decide))
  have shit : ∀ v, branchStep (matchOf ("EndTime".toList ++ ':' :: fmt))
      (tokenText ("EndTime".toList ++ ':' :: fmt)) ("EndTime".toList, v) = v := fun v =>
    branchStep_hit_token _ ("EndTime".toList, v) (List.prefix_append _ _).isInfix
  rw [ConvertMacro_token ctx _ hg]
  simp only [branches, List.foldl_cons, List.foldl_nil]
  rw [sVirtualHost, sApplication, sStream, sSequence]
  rw [sStartTime, shit]
  exact timeString_eq_formatTime _ fmt ctx.now ht (hn _ (by decide))

end TimeTokenLemmas

/-! ## The application name and the scenario template -/

section ScenarioLemmas

theorem alnum_ne_hash {c : Char} (h : c.isAlphanum = true) : c ≠ '#' := by
  intro he; subst he; exact absurd h (by decide)

theorem alnum_ne_dollar {c : Char} (h : c.isAlphanum = true) : c ≠ '$' := by
  intro he; subst he; exact absurd h (by decide)

theorem digit_ne_dollar (n : Nat) : digit n ≠ '$' := by
  intro he
  have := digit_isDigit n
  rw [he] at this
  exact absurd this (by decide)

theorem dollar_ne_digit (n : Nat) : ¬ '$' = digit n :=
  fun he => digit_ne_dollar n he.symm

theorem applicationName_plain (h a s : Str) (t : LocalTime)
    (ha : ∀ c ∈ a, c.isAlphanum = true) : applicationName ⟨h, a, s, t⟩ = a := by
  show Replace a ('#' :: (h ++ ['#'])) [] = a
  rw [Replace_eq _ _ _ (by simp)]
  have := replaceFrom_free '#' (h ++ ['#']) [] a [] (fun c hc => alnum_ne_hash (ha c hc))
  rw [List.append_nil] at this
  rw [this, replaceFrom_nil, List.append_nil]

theorem applicationName_prefixed (h a s : Str) (t : LocalTime)
    (ha : ∀ c ∈ a, c.isAlphanum = true) :
    applicationName ⟨h, '#' :: (h ++ '#' :: a), s, t⟩ = a := by
  show Replace ('#' :: (h ++ '#' :: a)) ('#' :: (h ++ ['#'])) [] = a
  rw [Replace_eq _ _ _ (by simp)]
  have e : '#' :: (h ++ '#' :: a) = ('#' :: (h ++ ['#'])) ++ a := by simp
  rw [e, replaceFrom_hit _ _ _ (by simp)]
  have := replaceFrom_free '#' (h ++ ['#']) [] a [] (fun c hc => alnum_ne_hash (ha c hc))
  rw [List.append_nil] at this
  rw [this, replaceFrom_nil, List.append_nil, List.nil_append]

theorem timeString_YYYYMMDD (t : LocalTime) (ht : t.valid) :
    timeString "StartTime".toList "StartTime:YYYYMMDD".toList t
      = zeroPadded4 t.year ++ (zeroPadded2 t.month ++ zeroPadded2 t.day) := by
  have h := timeString_eq_formatTime "StartTime".toList "YYYYMMDD".toList t ht (by decide)
  have e : "StartTime".toList ++ ':' :: "YYYYMMDD".toList = "StartTime:YYYYMMDD".toList := by
    decide
  rw [e] at h
  rw [h]
  unfold formatTime
  show formatWith _ _ _ _ _ _ 0 ('Y' :: 'Y' :: 'Y' :: 'Y' :: 'M' :: 'M' :: 'D' :: 'D' :: []) = _
  rw [formatWith_hitY, formatWith_hitM, formatWith_hitD]
  simp [formatWith]

end ScenarioLemmas

/-! ## The path macros: claims -/

section MacroClaims

/-- C3: for every virtual-host name, every alphanumeric application name `a` (given
as `a` or as `#<host>#a`), every alphanumeric stream name `s` and every local date with a
four-digit year, the template `${Application}/${Stream}_${StartTime:YYYYMMDD}.ts`
resolves to `a/s_` followed by the zero-padded year, month and day and `.ts`. -/
theorem C3_scenario_template_resolves (h a s app : Str) (t : LocalTime)
    (ha : ∀ c ∈ a, c.isAlphanum = true) (hs : ∀ c ∈ s, c.isAlphanum = true)
    (happ : app = a ∨ app = '#' :: (h ++ '#' :: a)) (ht : t.valid) :
    ConvertMacro ⟨h, app, s, t⟩ "${Application}/${Stream}_${StartTime:YYYYMMDD}.ts".toList
      = a ++ "/".toList ++ s ++ "_".toList ++ zeroPadded4 t.year ++ zeroPadded2 t.month
        ++ zeroPadded2 t.day ++ ".ts".toList := by
  have hA : applicationName ⟨h, app, s, t⟩ = a := by
    rcases happ with rfl | rfl
    · exact applicationName_plain h _ s t ha
    · exact applicationName_prefixed h a s t ha
  have hT := timeString_YYYYMMDD t ht
  have hgs : groupsOf (pieces "${Application}/${Stream}_${StartTime:YYYYMMDD}.ts".toList)
      = ["Application".toList, "Stream".toList, "StartTime:YYYYMMDD".toList] := by decide
  have h2 : ∀ g ∈ groupsOf (pieces "${Application}/${Stream}_${StartTime:YYYYMMDD}.ts".toList),
      ∀ v, macroValue ⟨h, app, s, t⟩ g = some v → '$' ∉ v := by
    intro g hg v hv
    rw [hgs] at hg
    simp only [List.mem_cons, List.mem_singleton, List.not_mem_nil, or_false] at hg
    rcases hg with rfl | rfl | rfl
    · have e : macroValue ⟨h, app, s, t⟩ "Application".toList
          = some (applicationName ⟨h, app, s, t⟩) := rfl
      rw [e, hA, Option.some.injEq] at hv
      subst hv
      exact fun hm => alnum_ne_dollar (ha _ hm) rfl
    · have e : macroValue ⟨h, app, s, t⟩ "Stream".toList = some s := rfl
      rw [e, Option.some.injEq] at hv
      subst hv
      exact fun hm => alnum_ne_dollar (hs _ hm) rfl
    · have e : macroValue ⟨h, app, s, t⟩ "StartTime:YYYYMMDD".toList
          = some (timeString "StartTime".toList "StartTime:YYYYMMDD".toList t) := rfl
      rw [e, hT, Option.some.injEq] at hv
      subst hv
      simp [zeroPadded4, zeroPadded2, dollar_ne_digit]
  rw [ConvertMacro_eq_expandOnce_of_dollar_free _ _ (by decide) h2]
  have hE : expandOnce ⟨h, app, s, t⟩ "${Application}/${Stream}_${StartTime:YYYYMMDD}.ts".toList
      = applicationName ⟨h, app, s, t⟩ ++ ('/' :: (s ++ ('_' ::
          (timeString "StartTime".toList "StartTime:YYYYMMDD".toList t ++ ".ts".toList)))) := rfl
  rw [hE, hA, hT]
  simp

/-- Witness for C3: application `live` (carried as `#vhost#live`), stream `abc`, date
2024-05-01 give `live/abc_20240501.ts`. -/
theorem C3_scenario_template_resolves_witness :
    ConvertMacro ⟨"vhost".toList, "#vhost#live".toList, "abc".toList, ⟨2024, 5, 1, 13, 7, 9⟩⟩
        "${Application}/${Stream}_${StartTime:YYYYMMDD}.ts".toList
      = "live/abc_20240501.ts".toList :=
  (C3_scenario_template_resolves "vhost".toList "live".toList "abc".toList
    "#vhost#live".toList ⟨2024, 5, 1, 13, 7, 9⟩ (by decide) (by decide)
    (Or.inr (by decide)) (by decide)).trans (by decide)

/-- C4 as stated fails: the token `${MyStream}` has a macro name that is none of the
six names, yet `ConvertMacro` replaces it by the stream name, because the branches test
whether a name occurs anywhere in the capture group. -/
theorem C4_counterexample_MyStream :
    "MyStream".toList ∉ macroNames ∧
    ConvertMacro sampleContext "${MyStream}".toList = "abc".toList ∧
    ¬ "${MyStream}".toList <:+: ConvertMacro sampleContext "${MyStream}".toList := by
  decide

/-- C4, amended: a token `${g}` whose capture group contains none of the six macro
names as a substring stays where it is: the output is the token between the results of
applying the same sequence of replacement steps to the text before it and to the text
after it. -/
theorem C4_token_without_macro_name_unchanged (ctx : Context) (pre g post : Str)
    (hg : groupOK g) (hn : ∀ n ∈ macroNames, ¬ n <:+: g) :
    ConvertMacro ctx (pre ++ (tokenText g ++ post))
      = (regexMatches (pre ++ (tokenText g ++ post))).foldl (macroStep ctx) pre
        ++ (tokenText g
          ++ (regexMatches (pre ++ (tokenText g ++ post))).foldl (macroStep ctx) post) := by
  unfold ConvertMacro
  rw [regexMatches_eq]
  exact foldl_macroStep_around_token ctx g hg hn _ (groupsOf_pieces_ok _) pre post

/-- Witness for C4: `${Foo}` between two `${Stream}` tokens. -/
theorem C4_token_without_macro_name_unchanged_witness :
    groupOK "Foo".toList ∧ (∀ n ∈ macroNames, ¬ n <:+: "Foo".toList) ∧
    ConvertMacro sampleContext ("${Stream}/".toList ++ (tokenText "Foo".toList ++ "/${Stream}".toList))
      = "abc/${Foo}/abc".toList :=
  ⟨by decide, by decide,
    (C4_token_without_macro_name_unchanged sampleContext "${Stream}/".toList "Foo".toList
      "/${Stream}".toList (by decide) (by decide)).trans (by decide)⟩

/-- C5 as stated fails: with the virtual-host name `${Stream}` the template
`${VirtualHost}-${Stream}` yields `abc-abc`; the text inserted for the first token is
expanded again at the second token, whereas one pass over the scanned tokens gives
`${Stream}-abc`. -/
theorem C5_counterexample_inserted_text_expanded :
    ConvertMacro ⟨"${Stream}".toList, "live".toList, "abc".toList, sampleTime⟩
        "${VirtualHost}-${Stream}".toList = "abc-abc".toList ∧
    expandOnce ⟨"${Stream}".toList, "live".toList, "abc".toList, sampleTime⟩
        "${VirtualHost}-${Stream}".toList = "${Stream}-abc".toList := by
  decide

/-- C5, amended: when `$` occurs neither in the template outside its scanned tokens
nor in a value substituted for one of them, the output of `ConvertMacro` is the
template with each scanned token replaced by its value, inserted verbatim. -/
theorem C5_ConvertMacro_is_single_pass_without_dollar (ctx : Context) (s : Str)
    (h1 : '$' ∉ outsideTokens s)
    (h2 : ∀ g ∈ groupsOf (pieces s), ∀ v ∈ macroValue ctx g, '$' ∉ v) :
    ConvertMacro ctx s = expandOnce ctx s :=
  ConvertMacro_eq_expandOnce_of_dollar_free ctx s h1 (fun g hg v hv => h2 g hg v hv)

/-- Witness for C5: the file path template of the sample session. -/
theorem C5_ConvertMacro_is_single_pass_without_dollar_witness :
    '$' ∉ outsideTokens "/rec/${Application}/${Stream}.ts".toList ∧
    ConvertMacro sampleContext "/rec/${Application}/${Stream}.ts".toList
      = expandOnce sampleContext "/rec/${Application}/${Stream}.ts".toList ∧
    expandOnce sampleContext "/rec/${Application}/${Stream}.ts".toList
      = "/rec/live/abc.ts".toList :=
  ⟨by decide,
    C5_ConvertMacro_is_single_pass_without_dollar sampleContext
      "/rec/${Application}/${Stream}.ts".toList (by decide) (by decide),
    by decide⟩

/-- C6 as stated fails: a stream named `${Sequence}` puts the token `${Sequence}` into
the output of the template `${Sequence}-${Stream}`, and with the plain stream name
`Stream` the template `${${Stream}}` yields the token `${Stream}`. -/
theorem C6_counterexample_token_in_output :
    "${Sequence}".toList ∈ recognizedTokens ∧
    "${Sequence}".toList <:+:
      ConvertMacro ⟨"vhost".toList, "live".toList, "${Sequence}".toList, sampleTime⟩
        "${Sequence}-${Stream}".toList ∧
    "${Stream}".toList ∈ recognizedTokens ∧
    "${Stream}".toList <:+:
      ConvertMacro ⟨"vhost".toList, "live".toList, "Stream".toList, sampleTime⟩
        "${${Stream}}".toList := by
  decide

/-- C6, amended: when `$` occurs neither in the template outside its scanned tokens
nor in a value substituted for one of them, the string returned by `ConvertMacro`
contains no occurrence of `${VirtualHost}`, `${Application}`, `${Stream}`,
`${Sequence}` or `${StartTime:YYYYMMDD}`. -/
theorem C6_no_recognized_token_left_without_dollar (ctx : Context) (s : Str)
    (h1 : '$' ∉ outsideTokens s)
    (h2 : ∀ g ∈ groupsOf (pieces s), ∀ v ∈ macroValue ctx g, '$' ∉ v) :
    ∀ T ∈ recognizedTokens, ¬ T <:+: ConvertMacro ctx s := by
  intro T hT hin
  have h2' : ∀ g ∈ groupsOf (pieces s), ∀ v, macroValue ctx g = some v → '$' ∉ v :=
    fun g hg v hv => h2 g hg v hv
  obtain ⟨g, rfl, hg, hsome⟩ := recognizedTokens_cases T hT
  rw [ConvertMacro_eq_expandOnce_of_dollar_free ctx s h1 h2'] at hin
  have hmem := token_infix_render g hg _ (expanded_wf ctx s h1 h2') hin
  have hnone := expanded_tokens ctx s g hmem
  have := hsome ctx
  rw [hnone] at this
  exact absurd this (by decide)

/-- Witness for C6: a template with all five tokens in the sample context. -/
theorem C6_no_recognized_token_left_without_dollar_witness :
    '$' ∉ outsideTokens
      "${VirtualHost}/${Application}/${Stream}_${Sequence}_${StartTime:YYYYMMDD}.ts".toList ∧
    ∀ T ∈ recognizedTokens, ¬ T <:+: ConvertMacro sampleContext
      "${VirtualHost}/${Application}/${Stream}_${Sequence}_${StartTime:YYYYMMDD}.ts".toList :=
  ⟨by decide,
    C6_no_recognized_token_left_without_dollar sampleContext
      "${VirtualHost}/${Application}/${Stream}_${Sequence}_${StartTime:YYYYMMDD}.ts".toList
      (by decide) (by decide)⟩

/-- C7 as stated fails: the format `Stream` is over `[A-Za-z0-9:]` and contains none
of `YYYY`, `MM`, `DD`, `hh`, `mm`, `ss`, so the claim gives `Stream` for
`${StartTime:Stream}`; the code gives the stream name, because the `Stream` branch also
fires on this capture group. -/
theorem C7_counterexample_format_with_macro_name :
    (∀ c ∈ "Stream".toList, isGroupChar c = true) ∧
    formatTime sampleTime "Stream".toList = "Stream".toList ∧
    ConvertMacro sampleContext "${StartTime:Stream}".toList = "abc".toList := by
  decide

/-- C7, amended: for every format string over `[A-Za-z0-9:]` that contains none of the
six macro names, and every local time with a four-digit year, the tokens
`${StartTime:fmt}` and `${EndTime:fmt}` are replaced by the format in which each
occurrence of `YYYY`, `MM`, `DD`, `hh`, `mm`, `ss` is replaced by the zero-padded field
and every other character is kept. -/
theorem C7_time_token_formats_without_macro_name (ctx : Context) (fmt : Str)
    (hfmt : ∀ c ∈ fmt, isGroupChar c = true) (hn : ∀ n ∈ macroNames, ¬ n <:+: fmt)
    (ht : ctx.now.valid) :
    ConvertMacro ctx ("$\x7bStartTime:".toList ++ fmt ++ "\x7d".toList) = formatTime ctx.now fmt ∧
    ConvertMacro ctx ("$\x7bEndTime:".toList ++ fmt ++ "\x7d".toList) = formatTime ctx.now fmt := by
  have e1 : "$\x7bStartTime:".toList ++ fmt ++ "\x7d".toList
      = tokenText ("StartTime".toList ++ ':' :: fmt) := by
    simp [tokenText]
  have e2 : "$\x7bEndTime:".toList ++ fmt ++ "\x7d".toList
      = tokenText ("EndTime".toList ++ ':' :: fmt) := by
    simp [tokenText]
  rw [e1, e2]
  exact ⟨ConvertMacro_StartTime ctx fmt hfmt hn ht, ConvertMacro_EndTime ctx fmt hfmt hn ht⟩

/-- Witness for C7: `${StartTime:YYYYMMDDhhmmss}` at 2024-05-01 13:07:09 gives
`20240501130709`, and so does the `EndTime` token. -/
theorem C7_time_token_formats_without_macro_name_witness :
    ConvertMacro sampleContext "${StartTime:YYYYMMDDhhmmss}".toList = "20240501130709".toList ∧
    ConvertMacro sampleContext "${EndTime:YYYYMMDDhhmmss}".toList = "20240501130709".toList :=
  have h := C7_time_token_formats_without_macro_name sampleContext "YYYYMMDDhhmmss".toList
    (by decide) (by decide) (by decide)
  ⟨h.1.trans (by decide), h.2.trans (by decide)⟩

/-- C8, evaluated on the code: `ConvertMacro` removes `#<host>#` wherever it occurs in
the application name. The name `x#vhost#y` does not start with `#vhost#` and is
replaced by `xy` instead of being kept, and in `#vhost#live#vhost#2` the occurrence
after the prefix is removed as well. -/
theorem C8_Application_removes_every_occurrence :
    ConvertMacro ⟨"vhost".toList, "x#vhost#y".toList, "abc".toList, sampleTime⟩
        "${Application}".toList = "xy".toList ∧
    ConvertMacro ⟨"vhost".toList, "#vhost#live#vhost#2".toList, "abc".toList, sampleTime⟩
        "${Application}".toList = "live2".toList := by
  decide

end MacroClaims

/-! ## The recording session: further claims -/

section SessionClaims2

variable {ε : Type}

theorem addTracks_events (E : Env ε) (wr : Nat) (selected_tracks : List Int) :
    ∀ (tracks : List (Int × MediaTrack)) (w : World ε),
      ∃ evs, (addTracks E wr selected_tracks tracks w).log = w.log ++ evs ∧
        evs.map Event.addTrackArgs
          = ((tracksToRegister selected_tracks tracks).map registration).map some := by
  intro tracks
  induction tracks with
  | nil => intro w; exact ⟨[], by simp [addTracks], rfl⟩
  | cons item rest ih =>
    intro w
    unfold addTracks
    by_cases hsel : ((selected_tracks.isEmpty != true) && !(selected_tracks.elem item.2.id)) = true
    · simp only [hsel, if_true]
      obtain ⟨evs, h1, h2⟩ := ih w
      refine ⟨evs, h1, ?_⟩
      rw [h2]
      have : ¬ (selected_tracks = [] ∨ item.2.id ∈ selected_tracks) := by
        simpa [not_or] using hsel
      simp [tracksToRegister, List.filter_cons, this]
    · simp only [hsel]
      obtain ⟨evs, h1, h2⟩ := ih (w.doAddTrack E wr item.2.mediaType item.2.id (qualityOf item.2)).2
      refine ⟨Event.addTrack wr item.2.mediaType item.2.id (qualityOf item.2)
        (E.addTrack w.ext wr item.2.mediaType item.2.id (qualityOf item.2)).1 :: evs, ?_, ?_⟩
      · simp only [Bool.false_eq_true, if_false]
        rw [h1]; simp [World.doAddTrack, World.emit]
      · have : selected_tracks = [] ∨ item.2.id ∈ selected_tracks := by
          by_contra hc
          exact hsel (by simpa [not_or] using hc)
        rw [List.map_cons, h2]
        simp [tracksToRegister, List.filter_cons, this, registration, qualityOf,
          Event.addTrackArgs]

theorem fs_not_writer (evs : List Event) (h : ∀ e ∈ evs, e.isFs = true) :
    ∀ e ∈ evs, e.isAddTrack = false ∧ e.isStart = false ∧ e.isSetPath = false ∧
      e.isRename = false := by
  intro e he
  have := h e he
  cases e <;> simp_all [Event.isFs, Event.isAddTrack, Event.isStart, Event.isSetPath,
    Event.isRename]

/-- C11: when provisioning succeeded and `SetPath` returns false, `RecordStart` returns
a session without writer and none of the calls it logged is an `AddTrack` or a `Start`;
when `SetPath` succeeds and `Start` returns false, it returns a session without
writer. -/
theorem C11_RecordStart_SetPath_or_Start_failure_discards_writer (E : Env ε)
    (now : LocalTime) (selected_tracks : List Int) (self : FileStream) (w w1 : World ε)
    (hdir : MakeDirectoryRecursive E (E.extractPath (GetOutputTempFilePath self now))
      (w.doCreate E).2 = some (true, w1)) :
    ((w1.doSetPath E (w.doCreate E).1 (GetOutputTempFilePath self now)
        "mpegts".toList).1 = false →
      ∃ self' w' evs, RecordStart E now selected_tracks self w = some (self', w') ∧
        self'.writer = none ∧ w'.log = w.log ++ evs ∧
        ∀ e ∈ evs, e.isAddTrack = false ∧ e.isStart = false) ∧
    ((w1.doSetPath E (w.doCreate E).1 (GetOutputTempFilePath self now)
        "mpegts".toList).1 = true →
      ((addTracks E (w.doCreate E).1 selected_tracks self.tracks
        (w1.doSetPath E (w.doCreate E).1 (GetOutputTempFilePath self now)
          "mpegts".toList).2).doStart E (w.doCreate E).1).1 = false →
      ∃ self' w', RecordStart E now selected_tracks self w = some (self', w') ∧
        self'.writer = none) := by
  obtain ⟨fsEvs, hfs1, hfs2⟩ := MakeDirectoryRecursive_log E _ _ _ _ hdir
  constructor
  · intro hset
    refine ⟨{ self with writer := none }, (w1.doSetPath E (w.doCreate E).1
      (GetOutputTempFilePath self now) "mpegts".toList).2,
      Event.create (E.create w.ext).1 :: (fsEvs ++ [Event.setPath (w.doCreate E).1
        (GetOutputTempFilePath self now) "mpegts".toList false]), ?_, rfl, ?_, ?_⟩
    · unfold RecordStart
      simp only [GetOutputTempFilePath_writer, hdir, hset, if_true]
    · have := hset
      simp only [World.doSetPath, World.emit] at this ⊢
      rw [this, hfs1]
      simp [World.doCreate, World.emit]
    · intro e he
      rcases List.mem_cons.1 he with rfl | he
      · exact ⟨rfl, rfl⟩
      · rcases List.mem_append.1 he with he | he
        · exact ⟨(fs_not_writer fsEvs hfs2 e he).1, (fs_not_writer fsEvs hfs2 e he).2.1⟩
        · rw [List.mem_singleton.1 he]; exact ⟨rfl, rfl⟩
  · intro hset hstart
    refine ⟨{ self with writer := none }, ((addTracks E (w.doCreate E).1 selected_tracks
      self.tracks (w1.doSetPath E (w.doCreate E).1 (GetOutputTempFilePath self now)
        "mpegts".toList).2).doStart E (w.doCreate E).1).2, ?_, rfl⟩
    unfold RecordStart
    simp only [GetOutputTempFilePath_writer, hdir, hset, Bool.true_eq_false, if_false,
      hstart, if_true]

/-- Witness for C11: `SetPath` fails in the first run and `Start` fails in the second. -/
theorem C11_RecordStart_SetPath_or_Start_failure_discards_writer_witness :
    (∃ self' w' evs, RecordStart (flagEnv true false true true) sampleTime [] sampleStream
        World.empty = some (self', w') ∧ self'.writer = none ∧
        w'.log = World.empty.log ++ evs ∧
        ∀ e ∈ evs, e.isAddTrack = false ∧ e.isStart = false) ∧
    (∃ self' w', RecordStart (flagEnv true true true false) sampleTime [] sampleStream
        World.empty = some (self', w') ∧ self'.writer = none) :=
  ⟨(C11_RecordStart_SetPath_or_Start_failure_discards_writer (flagEnv true false true true)
      sampleTime [] sampleStream World.empty _ rfl).1 rfl,
   (C11_RecordStart_SetPath_or_Start_failure_discards_writer (flagEnv true true true false)
      sampleTime [] sampleStream World.empty _ rfl).2 rfl rfl⟩

/-- C12: when provisioning and `SetPath` succeed, whatever the `AddTrack` calls return,
the calls `RecordStart` makes after `SetPath` are the `AddTrack` calls for the tracks to
register, in order, followed by one `Start`; the returned session holds a writer if and
only if that `Start` returned true. -/
theorem C12_RecordStart_AddTrack_failures_do_not_abort (E : Env ε) (now : LocalTime)
    (selected_tracks : List Int) (self : FileStream) (w w1 : World ε)
    (hdir : MakeDirectoryRecursive E (E.extractPath (GetOutputTempFilePath self now))
      (w.doCreate E).2 = some (true, w1))
    (hset : (w1.doSetPath E (w.doCreate E).1 (GetOutputTempFilePath self now)
      "mpegts".toList).1 = true) :
    ∃ self' w' trEvs ret, RecordStart E now selected_tracks self w = some (self', w') ∧
      w'.log = (w1.doSetPath E (w.doCreate E).1 (GetOutputTempFilePath self now)
        "mpegts".toList).2.log ++ trEvs ++ [Event.start (w.doCreate E).1 ret] ∧
      trEvs.map Event.addTrackArgs
        = ((tracksToRegister selected_tracks self.tracks).map registration).map some ∧
      (self'.writer.isSome = true ↔ ret = true) := by
  obtain ⟨trEvs, htr1, htr2⟩ := addTracks_events E (w.doCreate E).1 selected_tracks self.tracks
    (w1.doSetPath E (w.doCreate E).1 (GetOutputTempFilePath self now) "mpegts".toList).2
  unfold RecordStart
  simp only [GetOutputTempFilePath_writer, hdir, hset, Bool.true_eq_false, if_false]
  split
  · rename_i hs
    refine ⟨_, _, trEvs, false, rfl, ?_, htr2, by simp⟩
    have := hs
    simp only [World.doStart, World.emit] at this ⊢
    rw [this, htr1]
  · rename_i hs
    have hs' : ((addTracks E (w.doCreate E).1 selected_tracks self.tracks
        (w1.doSetPath E (w.doCreate E).1 (GetOutputTempFilePath self now)
          "mpegts".toList).2).doStart E (w.doCreate E).1).1 = true := by
      simpa using hs
    refine ⟨_, _, trEvs, true, rfl, ?_, htr2, by simp⟩
    have := hs'
    simp only [World.doStart, World.emit] at this ⊢
    rw [this, htr1]

/-- Witness for C12: every `AddTrack` fails and `Start` succeeds; tracks 1, 2 and 3 are
all attempted and the session holds the writer. -/
theorem C12_RecordStart_AddTrack_failures_do_not_abort_witness :
    ∃ self' w' trEvs ret, RecordStart (flagEnv true true false true) sampleTime []
        sampleStream World.empty = some (self', w') ∧
      w'.log = ((⟨[[]], [Event.create 0, Event.access "/rec/live/".toList true]⟩ :
        World (List Str)).doSetPath (flagEnv true true false true) 0
          (GetOutputTempFilePath sampleStream sampleTime) "mpegts".toList).2.log
        ++ trEvs ++ [Event.start 0 ret] ∧
      trEvs.map Event.addTrackArgs
        = ([registration (sampleTrack 1).2, registration (sampleTrack 2).2,
            registration (sampleTrack 3).2]).map some ∧
      (self'.writer.isSome = true ↔ ret = true) :=
  C12_RecordStart_AddTrack_failures_do_not_abort (flagEnv true true false true) sampleTime []
    sampleStream World.empty _ rfl rfl

/-- C13: without writer `SendVideoFrame` makes no call and changes nothing; with a
writer it makes exactly one `PutData` call carrying the packet's track id, pts, dts,
flag and data and keeps the writer handle whatever `PutData` returns; `SendAudioFrame`
does the same as `SendVideoFrame` on every packet and state. -/
theorem C13_Send_frames_forward_one_PutData (E : Env ε) (p : MediaPacket)
    (self : FileStream) (w : World ε) (wr : Nat) :
    SendVideoFrame E p { self with writer := none } w = ({ self with writer := none }, w) ∧
    SendVideoFrame E p { self with writer := some wr } w
      = ({ self with writer := some wr },
          ⟨(E.putData w.ext wr p).2, w.log ++ [Event.putData wr p.trackId p.pts p.dts p.flag
            p.data (E.putData w.ext wr p).1]⟩) ∧
    SendAudioFrame E p self w = SendVideoFrame E p self w :=
  ⟨rfl, rfl, rfl⟩

/-- C19: for every session and clock value the temporary output path is the final
output path followed by `.tmp`. -/
theorem C19_temp_path_is_final_path_with_suffix (self : FileStream) (now : LocalTime) :
    GetOutputTempFilePath self now = GetOutputFilePath self now ++ ".tmp".toList :=
  rfl

end SessionClaims2

/-! ## The directory walk -/

section WalkLemmas

variable {ε : Type}

theorem drop_succ_of_cons {s rest : Str} {c : Char} {pos : Nat} (h : s.drop pos = c :: rest) :
    s.drop (pos + 1) = rest := by
  rw [← List.tail_drop, h]; rfl

theorem lt_length_of_drop_cons {s rest : Str} {c : Char} {pos : Nat}
    (h : s.drop pos = c :: rest) : pos < s.length := by
  have := congrArg List.length h
  simp only [List.length_drop, List.length_cons] at this
  omega

theorem find_first_of_nil {s : Str} {c : Char} {pos : Nat} (h : s.drop pos = []) :
    find_first_of s c pos = none := by
  have hl : s.length ≤ pos := List.drop_eq_nil_iff.1 h
  simp only [find_first_of, h, List.findIdx_nil, Nat.add_zero]
  rw [if_neg (by omega)]

theorem find_first_of_hit {s rest : Str} {c : Char} {pos : Nat} (h : s.drop pos = c :: rest) :
    find_first_of s c pos = some pos := by
  have hl := lt_length_of_drop_cons h
  simp only [find_first_of, h, List.findIdx_cons, beq_self_eq_true, cond_true, Nat.add_zero]
  rw [if_pos hl]

theorem find_first_of_miss {s rest : Str} {c d : Char} {pos : Nat}
    (h : s.drop pos = d :: rest) (hd : d ≠ c) :
    find_first_of s c pos = find_first_of s c (pos + 1) := by
  have hb : (d == c) = false := by simpa using hd
  simp only [find_first_of, h, drop_succ_of_cons h, List.findIdx_cons, hb, cond_false]
  rw [show pos + (List.findIdx (fun x => x == c) rest + 1)
    = pos + 1 + List.findIdx (fun x => x == c) rest by omega]

theorem find_first_of_bounds {s : Str} {c : Char} {pos p : Nat}
    (h : find_first_of s c pos = some p) : pos ≤ p ∧ p < s.length := by
  unfold find_first_of at h
  simp only at h
  split at h
  · rename_i hl
    simp only [Option.some.injEq] at h
    omega
  · exact absurd h (by simp)

theorem mkdirLoop_congr (E : Env ε) (s : Str) (fuel pos pos' : Nat) (w : World ε)
    (h : find_first_of s '/' pos = find_first_of s '/' pos') :
    mkdirLoop E s fuel pos w = mkdirLoop E s fuel pos' w := by
  cases fuel with
  | zero => rfl
  | succ f => simp only [mkdirLoop, h]

theorem mkdirLoop_eq_mkdirAll (E : Env ε) (s : Str) :
    ∀ (rest : Str) (pos fuel : Nat) (w : World ε), s.drop pos = rest →
      rest.count '/' < fuel →
      mkdirLoop E s fuel pos w = some (mkdirAll E (slashPrefixesFrom s rest pos) w) := by
  intro rest
  induction rest with
  | nil =>
    intro pos fuel w h hf
    obtain ⟨f, rfl⟩ : ∃ f, fuel = f + 1 := ⟨fuel - 1, by omega⟩
    simp only [mkdirLoop, find_first_of_nil h, slashPrefixesFrom, mkdirAll]
  | cons c rest ih =>
    intro pos fuel w h hf
    have hnext := drop_succ_of_cons h
    have hlt := lt_length_of_drop_cons h
    by_cases hc : c = '/'
    · subst hc
      simp only [List.count_cons_self] at hf
      obtain ⟨f, rfl⟩ : ∃ f, fuel = f + 1 := ⟨fuel - 1, by omega⟩
      have hf' : rest.count '/' < f := by omega
      have hlen : (s.take pos).length = pos := by
        rw [List.length_take]; omega
      simp only [mkdirLoop, find_first_of_hit h, hlen, slashPrefixesFrom, beq_self_eq_true,
        Bool.and_true]
      by_cases hp : pos = 0
      · subst hp
        simp only [if_true, Nat.lt_irrefl, decide_False, Bool.false_eq_true, if_false]
        exact ih _ f w hnext hf'
      · have hp' : 0 < pos := Nat.pos_of_ne_zero hp
        simp only [hp, if_false, hp', decide_True, if_true, mkdirAll]
        split
        · rfl
        · exact ih _ f _ hnext hf'
    · have hcount : (c :: rest).count '/' = rest.count '/' := by
        rw [List.count_cons_of_ne (Ne.symm hc)]
      rw [hcount] at hf
      have hb : (c == '/') = false := by simpa using hc
      rw [mkdirLoop_congr E s fuel pos (pos + 1) w (find_first_of_miss h hc)]
      simp only [slashPrefixesFrom, hb, Bool.and_false, Bool.false_eq_true, if_false]
      exact ih _ fuel w hnext hf

theorem slashPrefixesFrom_eq (s : Str) :
    ∀ (rest : Str) (pos : Nat), s.drop pos = rest →
      slashPrefixesFrom s rest pos
        = ((List.range' pos rest.length).filter
            (fun i => decide (0 < i) && (s[i]? == some '/'))).map (fun i => s.take i) := by
  intro rest
  induction rest with
  | nil => intro pos _; rfl
  | cons c rest ih =>
    intro pos h
    have hnext := drop_succ_of_cons h
    have hget : s[pos]? = some c := by
      have := List.getElem?_drop s pos 0
      rw [h] at this
      simpa using this.symm
    simp only [slashPrefixesFrom, List.length_cons, List.range'_succ, List.filter_cons, hget,
      ih _ hnext]
    by_cases hcond : (decide (0 < pos) && (c == '/')) = true
    · have hcond' : (decide (0 < pos) && (some c == some '/')) = true := by simpa using hcond
      simp only [hcond, hcond', if_true, List.map_cons]
    · have hcond' : ¬ (decide (0 < pos) && (some c == some '/')) = true := by simpa using hcond
      simp only [hcond, hcond', Bool.false_eq_true, if_false]

theorem slashPrefixes_eq (s : Str) : slashPrefixes s = slashPrefixesFrom s s 0 := by
  rw [slashPrefixesFrom_eq s s 0 rfl, slashPrefixes, List.range_eq_range']

theorem slashPrefixesFrom_length (s : Str) :
    ∀ (rest : Str) (pos : Nat), (slashPrefixesFrom s rest pos).length ≤ rest.count '/' := by
  intro rest
  induction rest with
  | nil => intro pos; simp [slashPrefixesFrom]
  | cons c rest ih =>
    intro pos
    have := ih (pos + 1)
    by_cases hc : c = '/'
    · subst hc
      simp only [slashPrefixesFrom, List.count_cons_self]
      split
      · simp only [List.length_cons]; omega
      · omega
    · have hb : (c == '/') = false := by simpa using hc
      simp only [slashPrefixesFrom, hb, Bool.and_false, Bool.false_eq_true, if_false]
      rw [List.count_cons_of_ne (Ne.symm hc)]
      exact this

theorem slashPrefixes_length (s : Str) : (slashPrefixes s).length ≤ s.count '/' := by
  rw [slashPrefixes_eq]; exact slashPrefixesFrom_length s s 0

theorem mkdirLoop_total (E : Env ε) (s : Str) (w : World ε) :
    mkdirLoop E s (s.length + 1) 0 w = some (mkdirAll E (slashPrefixes s) w) := by
  rw [slashPrefixes_eq]
  exact mkdirLoop_eq_mkdirAll E s s 0 _ w rfl
    (Nat.lt_succ_of_le (List.count_le_length _ _))

end WalkLemmas


/-! ## The shape of `MakeDirectoryRecursive` -/

section ProvisionLemmas

variable {ε : Type}

theorem MakeDirectoryRecursive_fast (E : Env ε) (s : Str) (w : World ε)
    (h : E.access w.ext s = true) :
    MakeDirectoryRecursive E s w = some (true, (w.doAccess E s).2) := by
  unfold MakeDirectoryRecursive
  simp only [World.doAccess, h, if_true]

theorem MakeDirectoryRecursive_empty (E : Env ε) (w : World ε)
    (h : E.access w.ext [] = false) : MakeDirectoryRecursive E [] w = none := by
  unfold MakeDirectoryRecursive
  simp only [World.doAccess, h, Bool.false_eq_true, if_false, List.getLast?_nil]

theorem MakeDirectoryRecursive_slow (E : Env ε) (s : Str) (w : World ε) (hne : s ≠ [])
    (h : E.access w.ext s = false) :
    MakeDirectoryRecursive E s w
      = some (if (mkdirAll E (slashPrefixes (forceSlash s)) (w.doAccess E s).2).1 = true then
          ((mkdirAll E (slashPrefixes (forceSlash s)) (w.doAccess E s).2).2.doAccess E
            (forceSlash s))
        else (false, (mkdirAll E (slashPrefixes (forceSlash s)) (w.doAccess E s).2).2)) := by
  obtain ⟨last, hlast⟩ : ∃ last, s.getLast? = some last := by
    cases hl : s.getLast? with
    | none => exact absurd (List.getLast?_eq_none_iff.1 hl) hne
    | some c => exact ⟨c, rfl⟩
  have hforce : (if last ≠ '/' then s ++ ['/'] else s) = forceSlash s := by
    unfold forceSlash
    rw [hlast]
    by_cases hc : last = '/'
    · simp [hc]
    · simp [hc]
  unfold MakeDirectoryRecursive
  simp only [World.doAccess, h, Bool.false_eq_true, if_false, hlast, hforce, mkdirLoop_total]
  cases hr : mkdirAll E (slashPrefixes (forceSlash s)) (w.emit w.ext (Event.access s false)) with
  | mk b w2 =>
    cases b with
    | false => simp
    | true =>
      simp only [if_true]
      cases hb : E.access w2.ext (forceSlash s) <;> simp [hb]

theorem mkdirAll_log (E : Env ε) :
    ∀ (ds : List Str) (w : World ε), ∃ attempts : List (Str × MkdirResult),
      (mkdirAll E ds w).2.log = w.log ++ attempts.map attemptEvent ∧
      attempts.map Prod.fst <+: ds ∧
      ((mkdirAll E ds w).1 = true →
        attempts.map Prod.fst = ds ∧ ∀ a ∈ attempts, a.2 ≠ MkdirResult.failed) ∧
      ((mkdirAll E ds w).1 = false →
        ∃ pre d, attempts = pre ++ [(d, MkdirResult.failed)] ∧
          ∀ a ∈ pre, a.2 ≠ MkdirResult.failed) := by
  intro ds
  induction ds with
  | nil =>
    intro w
    exact ⟨[], by simp [mkdirAll], List.nil_prefix, fun _ => ⟨rfl, by simp⟩,
      fun h => absurd h (by simp [mkdirAll])⟩
  | cons d ds ih =>
    intro w
    by_cases hf : (E.mkdir w.ext d).1 = MkdirResult.failed
    · have hm : mkdirAll E (d :: ds) w = (false, (w.doMkdir E d).2) := by
        simp only [mkdirAll, World.doMkdir, hf, if_true]
      refine ⟨[(d, MkdirResult.failed)], ?_, ?_, ?_, ?_⟩
      · rw [hm]; simp [World.doMkdir, World.emit, attemptEvent, hf]
      · simp
      · intro h; rw [hm] at h; exact absurd h (by simp)
      · intro _; exact ⟨[], d, rfl, by simp⟩
    · have hm : mkdirAll E (d :: ds) w = mkdirAll E ds (w.doMkdir E d).2 := by
        simp only [mkdirAll, World.doMkdir, hf, if_false]
      obtain ⟨att, h1, h2, h3, h4⟩ := ih (w.doMkdir E d).2
      refine ⟨(d, (E.mkdir w.ext d).1) :: att, ?_, ?_, ?_, ?_⟩
      · rw [hm, h1]; simp [World.doMkdir, World.emit, attemptEvent]
      · simpa using h2
      · intro h
        rw [hm] at h
        obtain ⟨e1, e2⟩ := h3 h
        refine ⟨by simp [e1], ?_⟩
        intro a ha
        rcases List.mem_cons.1 ha with rfl | ha
        · exact hf
        · exact e2 a ha
      · intro h
        rw [hm] at h
        obtain ⟨pre, d', e1, e2⟩ := h4 h
        refine ⟨(d, (E.mkdir w.ext d).1) :: pre, d', by simp [e1], ?_⟩
        intro a ha
        rcases List.mem_cons.1 ha with rfl | ha
        · exact hf
        · exact e2 a ha

theorem MakeDirectoryRecursive_true_access (E : Env ε) (s : Str) (w w' : World ε)
    (h : MakeDirectoryRecursive E s w = some (true, w')) :
    (E.access w'.ext s = true ∨ (s ≠ [] ∧ E.access w'.ext (forceSlash s) = true)) ∧
    ∃ p, (p = s ∨ p = forceSlash s) ∧ E.access w'.ext p = true ∧
      w'.log.getLast? = some (Event.access p true) := by
  by_cases ha : E.access w.ext s = true
  · rw [MakeDirectoryRecursive_fast E s w ha] at h
    simp only [Option.some.injEq, Prod.mk.injEq, true_and] at h
    subst h
    refine ⟨Or.inl ha, s, Or.inl rfl, ha, ?_⟩
    simp [World.doAccess, World.emit, ha]
  · have ha' : E.access w.ext s = false := by simpa using ha
    by_cases hne : s = []
    · subst hne
      rw [MakeDirectoryRecursive_empty E w ha'] at h
      exact absurd h (by simp)
    · rw [MakeDirectoryRecursive_slow E s w hne ha'] at h
      simp only [Option.some.injEq] at h
      split at h
      · simp only [World.doAccess, World.emit, Prod.mk.injEq] at h
        obtain ⟨h1, h2⟩ := h
        subst h2
        exact ⟨Or.inr ⟨hne, h1⟩, forceSlash s, Or.inr rfl, h1, by simp [h1]⟩
      · simp at h

theorem MakeDirectoryRecursive_attempts (E : Env ε) (s : Str) (w : World ε) (hne : s ≠ [])
    (hacc : E.access w.ext s = false) :
    ∃ (attempts : List (Str × MkdirResult)) (b : Bool) (w' : World ε),
      MakeDirectoryRecursive E s w = some (b, w') ∧
      attempts.map Prod.fst <+: slashPrefixes (forceSlash s) ∧
      (∀ a ∈ attempts.dropLast, a.2 ≠ MkdirResult.failed) ∧
      ((∀ a ∈ attempts, a.2 ≠ MkdirResult.failed) →
        attempts.map Prod.fst = slashPrefixes (forceSlash s) ∧
        w'.log = w.log ++ Event.access s false ::
          (attempts.map attemptEvent ++ [Event.access (forceSlash s) b])) ∧
      ((∃ a ∈ attempts, a.2 = MkdirResult.failed) →
        b = false ∧ w'.log = w.log ++ Event.access s false :: attempts.map attemptEvent ∧
        ∃ d, attempts.getLast? = some (d, MkdirResult.failed)) := by
  obtain ⟨att, h1, h2, h3, h4⟩ :=
    mkdirAll_log E (slashPrefixes (forceSlash s)) (w.doAccess E s).2
  have hlog0 : (w.doAccess E s).2.log = w.log ++ [Event.access s false] := by
    simp [World.doAccess, World.emit, hacc]
  cases hr : (mkdirAll E (slashPrefixes (forceSlash s)) (w.doAccess E s).2).1 with
  | true =>
    obtain ⟨e1, e2⟩ := h3 hr
    refine ⟨att, _, _, by rw [MakeDirectoryRecursive_slow E s w hne hacc, if_pos hr], h2,
      fun a ha => e2 a (List.mem_of_mem_dropLast ha), ?_, ?_⟩
    · intro _
      refine ⟨e1, ?_⟩
      show (mkdirAll E (slashPrefixes (forceSlash s)) (w.doAccess E s).2).2.log
          ++ [Event.access (forceSlash s) _] = _
      rw [h1, hlog0]
      simp [World.doAccess]
    · rintro ⟨a, ha, hf⟩
      exact absurd hf (e2 a ha)
  | false =>
    obtain ⟨pre, d, e1, e2⟩ := h4 hr
    refine ⟨att, false, _, by
      rw [MakeDirectoryRecursive_slow E s w hne hacc, if_neg (by simp [hr])], h2, ?_, ?_, ?_⟩
    · rw [e1, List.dropLast_concat]; exact e2
    · intro hall
      exact absurd rfl (hall (d, MkdirResult.failed) (by simp [e1]))
    · intro _
      refine ⟨rfl, ?_, d, by simp [e1]⟩
      rw [h1, hlog0]; simp

theorem MakeDirectoryRecursive_false_last (E : Env ε) (s : Str) (w w' : World ε)
    (h : MakeDirectoryRecursive E s w = some (false, w')) :
    ∃ p, w'.log.getLast? = some (Event.mkdir p MkdirResult.failed) ∨
      w'.log.getLast? = some (Event.access p false) := by
  by_cases ha : E.access w.ext s = true
  · rw [MakeDirectoryRecursive_fast E s w ha] at h
    simp at h
  · have ha' : E.access w.ext s = false := by simpa using ha
    by_cases hne : s = []
    · subst hne
      rw [MakeDirectoryRecursive_empty E w ha'] at h
      exact absurd h (by simp)
    · obtain ⟨att, b, w2, e0, _, _, e3, e4⟩ := MakeDirectoryRecursive_attempts E s w hne ha'
      rw [h] at e0
      simp only [Option.some.injEq, Prod.mk.injEq] at e0
      obtain ⟨rfl, rfl⟩ := e0
      by_cases hall : ∀ a ∈ att, a.2 ≠ MkdirResult.failed
      · refine ⟨forceSlash s, Or.inr ?_⟩
        rw [(e3 hall).2, show w.log ++ Event.access s false ::
            (att.map attemptEvent ++ [Event.access (forceSlash s) false])
          = (w.log ++ Event.access s false :: att.map attemptEvent)
            ++ [Event.access (forceSlash s) false] by simp, List.getLast?_concat]
      · have hex : ∃ a ∈ att, a.2 = MkdirResult.failed := by
          by_contra hc
          exact hall (fun a ha hf => hc ⟨a, ha, hf⟩)
        obtain ⟨_, hl, d, hd⟩ := e4 hex
        refine ⟨d, Or.inl ?_⟩
        obtain ⟨pre, hpre⟩ := List.getLast?_eq_some_iff.1 hd
        rw [hl, hpre, show w.log ++ Event.access s false ::
            (pre ++ [(d, MkdirResult.failed)]).map attemptEvent
          = (w.log ++ Event.access s false :: pre.map attemptEvent)
            ++ [Event.mkdir d MkdirResult.failed] by simp [attemptEvent],
          List.getLast?_concat]

theorem MakeDirectoryRecursive_again (E : Env ε)
    (hslash : ∀ e p, p ≠ [] → E.access e (forceSlash p) = true → E.access e p = true)
    (s : Str) (w w' : World ε) (h : MakeDirectoryRecursive E s w = some (true, w')) :
    MakeDirectoryRecursive E s w'
      = some (true, ⟨w'.ext, w'.log ++ [Event.access s true]⟩) := by
  have hacc : E.access w'.ext s = true := by
    rcases (MakeDirectoryRecursive_true_access E s w w' h).1 with h1 | ⟨hne, h2⟩
    · exact h1
    · exact hslash _ _ hne h2
  rw [MakeDirectoryRecursive_fast E s w' hacc]
  simp [World.doAccess, World.emit, hacc]

end ProvisionLemmas

/-! ## Directory provisioning: claims -/

section ProvisionClaims

variable {ε : Type}

theorem componentsFrom_append_slash :
    ∀ (p cur : Str), componentsFrom (p ++ ['/']) cur = componentsFrom p cur
  | [], cur => by
    simp only [List.nil_append, componentsFrom, if_true]
    split <;> rfl
  | c :: p, cur => by
    show componentsFrom (c :: (p ++ ['/'])) cur = componentsFrom (c :: p) cur
    simp only [componentsFrom, componentsFrom_append_slash p]

theorem canAccess_of_forceSlash (e : FsState) (p : Str) (hne : p ≠ [])
    (h : e.canAccess (forceSlash p) = true) : e.canAccess p = true := by
  unfold forceSlash at h
  split at h
  · exact h
  · have hc : components (p ++ ['/']) = components p := componentsFrom_append_slash p []
    have hp : p.isEmpty = false := by
      cases p with
      | nil => exact absurd rfl hne
      | cons c t => rfl
    unfold FsState.canAccess at h ⊢
    rw [hc] at h
    rw [hp]
    cases hf : e.find (components p) with
    | none => rw [hf] at h; simp at h
    | some ent =>
      rw [hf] at h
      simp only [List.getLast?_concat, bne_self_eq_false, Bool.false_or, Bool.and_eq_true,
        Bool.not_eq_true'] at h
      simp [h.2.1, h.2.2]

theorem filter_isMkdir_attempts (att : List (Str × MkdirResult)) :
    (att.map attemptEvent).filter Event.isMkdir = att.map attemptEvent := by
  rw [List.filter_eq_self]
  intro e he
  obtain ⟨a, _, rfl⟩ := List.mem_map.1 he
  rfl

theorem count_forceSlash (s : Str) : (forceSlash s).count '/' ≤ s.count '/' + 1 := by
  unfold forceSlash
  split
  · omega
  · simp

/-- C17: for a non-empty path that fails the initial access check,
`MakeDirectoryRecursive` returns, and its `mkdir` attempts are, in order, an initial part
of the non-empty prefixes that end just before a `/` of the path with the trailing `/`
forced. No attempt before the last one failed. When no attempt failed, every such prefix
was attempted and the final access check follows; when an attempt failed with an error
other than "already exists", it is the last call made and the result is false. -/
theorem C17_mkdir_attempts_follow_slash_prefixes (E : Env ε) (s : Str) (w : World ε)
    (hne : s ≠ []) (hacc : E.access w.ext s = false) :
    ∃ (attempts : List (Str × MkdirResult)) (b : Bool) (w' : World ε),
      MakeDirectoryRecursive E s w = some (b, w') ∧
      attempts.map Prod.fst <+: slashPrefixes (forceSlash s) ∧
      (∀ a ∈ attempts.dropLast, a.2 ≠ MkdirResult.failed) ∧
      ((∀ a ∈ attempts, a.2 ≠ MkdirResult.failed) →
        attempts.map Prod.fst = slashPrefixes (forceSlash s) ∧
        w'.log = w.log ++ Event.access s false ::
          (attempts.map attemptEvent ++ [Event.access (forceSlash s) b])) ∧
      ((∃ a ∈ attempts, a.2 = MkdirResult.failed) →
        b = false ∧ w'.log = w.log ++ Event.access s false :: attempts.map attemptEvent ∧
        ∃ d, attempts.getLast? = some (d, MkdirResult.failed)) :=
  MakeDirectoryRecursive_attempts E s w hne hacc

/-- Witness for C17: the prefixes of `/a/b/c` are `/a`, `/a/b`, `/a/b/c`; under the
read-only directory `/ro` the walk for `/ro/b/c` meets "already exists" at `/ro`,
continues, and stops at the failure of `/ro/b`. -/
theorem C17_mkdir_attempts_follow_slash_prefixes_witness :
    slashPrefixes (forceSlash "/a/b/c".toList)
      = ["/a".toList, "/a/b".toList, "/a/b/c".toList] ∧
    MakeDirectoryRecursive modelEnv "/ro/b/c".toList ⟨sampleFs, []⟩
      = some (false, ⟨sampleFs, [Event.access "/ro/b/c".toList false,
          Event.mkdir "/ro".toList MkdirResult.eexist,
          Event.mkdir "/ro/b".toList MkdirResult.failed]⟩) ∧
    ∃ (attempts : List (Str × MkdirResult)) (b : Bool) (w' : World FsState),
      MakeDirectoryRecursive modelEnv "/ro/b/c".toList ⟨sampleFs, []⟩ = some (b, w') ∧
      attempts.map Prod.fst <+: slashPrefixes (forceSlash "/ro/b/c".toList) ∧
      (∀ a ∈ attempts.dropLast, a.2 ≠ MkdirResult.failed) ∧
      ((∀ a ∈ attempts, a.2 ≠ MkdirResult.failed) →
        attempts.map Prod.fst = slashPrefixes (forceSlash "/ro/b/c".toList) ∧
        w'.log = ([] : List Event) ++ Event.access "/ro/b/c".toList false ::
          (attempts.map attemptEvent ++ [Event.access (forceSlash "/ro/b/c".toList) b])) ∧
      ((∃ a ∈ attempts, a.2 = MkdirResult.failed) →
        b = false ∧ w'.log = ([] : List Event) ++ Event.access "/ro/b/c".toList false ::
          attempts.map attemptEvent ∧
        ∃ d, attempts.getLast? = some (d, MkdirResult.failed)) :=
  ⟨by decide, by decide,
    C17_mkdir_attempts_follow_slash_prefixes modelEnv "/ro/b/c".toList ⟨sampleFs, []⟩
      (by decide) (by decide)⟩

/-- C14: in the filesystem model, when a call of `MakeDirectoryRecursive` returns true,
a second call on the resulting state returns true after the single access check, makes
no `mkdir` call and leaves the filesystem unchanged; and a call that returns false ends
with a `mkdir` that failed with an error other than "already exists" or with a failed
access check, so "already exists" alone never gives false. -/
theorem C14_MakeDirectoryRecursive_idempotent (s : Str) (w w' : World FsState) :
    (MakeDirectoryRecursive modelEnv s w = some (true, w') →
      MakeDirectoryRecursive modelEnv s w'
        = some (true, ⟨w'.ext, w'.log ++ [Event.access s true]⟩)) ∧
    (MakeDirectoryRecursive modelEnv s w = some (false, w') →
      ∃ p, w'.log.getLast? = some (Event.mkdir p MkdirResult.failed) ∨
        w'.log.getLast? = some (Event.access p false)) :=
  ⟨MakeDirectoryRecursive_again modelEnv (fun e p hne h => canAccess_of_forceSlash e p hne h)
      s w w',
   MakeDirectoryRecursive_false_last modelEnv s w w'⟩

/-- Witness for C14: `/a/b/c` is created under the writable root, and the second call
only repeats the access check. -/
theorem C14_MakeDirectoryRecursive_idempotent_witness :
    ∃ w', MakeDirectoryRecursive modelEnv "/a/b/c".toList ⟨sampleFs, []⟩ = some (true, w') ∧
      MakeDirectoryRecursive modelEnv "/a/b/c".toList w'
        = some (true, ⟨w'.ext, w'.log ++ [Event.access "/a/b/c".toList true]⟩) ∧
      ∃ w'', MakeDirectoryRecursive modelEnv "/ro/b".toList ⟨sampleFs, []⟩ = some (false, w'') ∧
        ∃ p, w''.log.getLast? = some (Event.mkdir p MkdirResult.failed) ∨
          w''.log.getLast? = some (Event.access p false) :=
  ⟨_, rfl, (C14_MakeDirectoryRecursive_idempotent "/a/b/c".toList ⟨sampleFs, []⟩ _).1 rfl,
    _, rfl, (C14_MakeDirectoryRecursive_idempotent "/ro/b".toList ⟨sampleFs, []⟩ _).2 rfl⟩

/-- C20: for a non-empty path that fails the initial access check the read of the last
character is in bounds, `MakeDirectoryRecursive` returns, and it makes at most as many
`mkdir` calls as the path has `/` characters plus one; every loop iteration moves the
scan position strictly forward and keeps it within the string; for the empty path that
fails the access check the read at index `size - 1` is outside the string and the call
has no defined result. -/
theorem C20_MakeDirectoryRecursive_total_on_nonempty (E : Env ε) (w : World ε) :
    (∀ s : Str, s ≠ [] → E.access w.ext s = false →
      (s.length - 1 < s.length ∧ s.getLast? = s[s.length - 1]?) ∧
      ∃ b w' evs, MakeDirectoryRecursive E s w = some (b, w') ∧ w'.log = w.log ++ evs ∧
        (evs.filter Event.isMkdir).length ≤ s.count '/' + 1) ∧
    (∀ (s : Str) (pos p : Nat), find_first_of s '/' pos = some p →
      pos < p + 1 ∧ p + 1 ≤ s.length) ∧
    (E.access w.ext [] = false →
      ([] : Str)[([] : Str).length - 1]? = none ∧ MakeDirectoryRecursive E [] w = none) := by
  refine ⟨?_, ?_, ?_⟩
  · intro s hne hacc
    refine ⟨⟨?_, List.getLast?_eq_getElem? s⟩, ?_⟩
    · have : 0 < s.length := List.length_pos.2 hne
      omega
    · obtain ⟨att, b, w', e0, e1, _, e3, e4⟩ := MakeDirectoryRecursive_attempts E s w hne hacc
      have hlen : att.length ≤ s.count '/' + 1 := by
        have h1 := e1.length_le
        rw [List.length_map] at h1
        have h2 := slashPrefixes_length (forceSlash s)
        have h3 := count_forceSlash s
        omega
      by_cases hall : ∀ a ∈ att, a.2 ≠ MkdirResult.failed
      · refine ⟨b, w', _, e0, (e3 hall).2, ?_⟩
        simp only [List.filter_cons, List.filter_append, filter_isMkdir_attempts, Event.isMkdir,
          Bool.false_eq_true, if_false, List.filter_nil, List.append_nil, List.length_map]
        exact hlen
      · have hex : ∃ a ∈ att, a.2 = MkdirResult.failed := by
          by_contra hc
          exact hall (fun a ha hf => hc ⟨a, ha, hf⟩)
        refine ⟨b, w', _, e0, (e4 hex).2.1, ?_⟩
        simp only [List.filter_cons, filter_isMkdir_attempts, Event.isMkdir,
          Bool.false_eq_true, if_false, List.length_map]
        exact hlen
  · intro s pos p h
    have := find_first_of_bounds h
    omega
  · intro h
    exact ⟨rfl, MakeDirectoryRecursive_empty E w h⟩

/-- Witness for C20: the path `/a/b/c` has three `/` and gets three `mkdir` calls; the
empty path has no defined result. -/
theorem C20_MakeDirectoryRecursive_total_on_nonempty_witness :
    (∃ b w' evs, MakeDirectoryRecursive modelEnv "/a/b/c".toList ⟨sampleFs, []⟩ = some (b, w') ∧
      w'.log = ([] : List Event) ++ evs ∧
      (evs.filter Event.isMkdir).length ≤ "/a/b/c".toList.count '/' + 1) ∧
    (0 < 0 + 1 ∧ 0 + 1 ≤ "/a".toList.length) ∧
    MakeDirectoryRecursive modelEnv [] ⟨sampleFs, []⟩ = none :=
  ⟨((C20_MakeDirectoryRecursive_total_on_nonempty modelEnv ⟨sampleFs, []⟩).1 "/a/b/c".toList
      (by decide) (by decide)).2,
   (C20_MakeDirectoryRecursive_total_on_nonempty modelEnv ⟨sampleFs, []⟩).2.1 "/a".toList 0 0
      (by decide),
   ((C20_MakeDirectoryRecursive_total_on_nonempty modelEnv ⟨sampleFs, []⟩).2.2
      (by decide)).2⟩

end ProvisionClaims

/-! ## The branches of `RecordStart` and `RecordStop` -/

section BranchLemmas

variable {ε : Type}

theorem RecordStart_cases (E : Env ε) (now : LocalTime) (selected_tracks : List Int)
    (self : FileStream) (w : World ε) (st : FileStream × World ε)
    (h : RecordStart E now selected_tracks self w = some st) :
    ∃ b w1, MakeDirectoryRecursive E (E.extractPath (GetOutputTempFilePath self now))
        (w.doCreate E).2 = some (b, w1) ∧
      ((b = false ∧ st = ({ self with writer := some (w.doCreate E).1 }, w1)) ∨
       (b = true ∧
        (w1.doSetPath E (w.doCreate E).1 (GetOutputTempFilePath self now)
          "mpegts".toList).1 = false ∧
        st = ({ self with writer := none },
          (w1.doSetPath E (w.doCreate E).1 (GetOutputTempFilePath self now)
            "mpegts".toList).2)) ∨
       (b = true ∧
        (w1.doSetPath E (w.doCreate E).1 (GetOutputTempFilePath self now)
          "mpegts".toList).1 = true ∧
        ∃ ret, ((addTracks E (w.doCreate E).1 selected_tracks self.tracks
          (w1.doSetPath E (w.doCreate E).1 (GetOutputTempFilePath self now)
            "mpegts".toList).2).doStart E (w.doCreate E).1).1 = ret ∧
          st = ({ self with writer := if ret then some (w.doCreate E).1 else none },
            ((addTracks E (w.doCreate E).1 selected_tracks self.tracks
              (w1.doSetPath E (w.doCreate E).1 (GetOutputTempFilePath self now)
                "mpegts".toList).2).doStart E (w.doCreate E).1).2))) := by
  unfold RecordStart at h
  simp only [GetOutputTempFilePath_writer] at h
  split at h
  · exact absurd h (by simp)
  · rename_i w1 hd
    simp only [Option.some.injEq] at h
    exact ⟨false, w1, hd, Or.inl ⟨rfl, h.symm⟩⟩
  · rename_i w1 hd
    refine ⟨true, w1, hd, Or.inr ?_⟩
    split at h
    · rename_i hs
      simp only [Option.some.injEq] at h
      exact Or.inl ⟨rfl, hs, h.symm⟩
    · rename_i hs
      have hs' : (w1.doSetPath E (w.doCreate E).1 (GetOutputTempFilePath self now)
          "mpegts".toList).1 = true := by simpa using hs
      refine Or.inr ⟨rfl, hs', ?_⟩
      split at h
      · rename_i hst
        simp only [Option.some.injEq] at h
        exact ⟨false, hst, by rw [← h]; rfl⟩
      · rename_i hst
        simp only [Option.some.injEq] at h
        have hst' : ((addTracks E (w.doCreate E).1 selected_tracks self.tracks
            (w1.doSetPath E (w.doCreate E).1 (GetOutputTempFilePath self now)
              "mpegts".toList).2).doStart E (w.doCreate E).1).1 = true := by simpa using hst
        exact ⟨true, hst', by rw [← h]; rfl⟩

theorem RecordStop_cases (E : Env ε) (now : LocalTime) (self : FileStream) (w : World ε)
    (st : FileStream × World ε) (wr : Nat) (hwr : self.writer = some wr)
    (h : RecordStop E now self w = some st) :
    ∃ b1 w2, MakeDirectoryRecursive E (E.extractPath (GetOutputFilePath self now))
        (w.doStop E wr) = some (b1, w2) ∧
      ((b1 = false ∧ st = (self, w2)) ∨
       (b1 = true ∧ ∃ b2 w3,
        MakeDirectoryRecursive E (E.extractPath (GetOutputFileInfoPath self now)) w2
          = some (b2, w3) ∧
        ((b2 = false ∧ st = (self, w3)) ∨
         (b2 = true ∧ st = (self, (w3.doRename E (E.getPath (w.doStop E wr).ext wr)
            (GetOutputFilePath self now)).2))))) := by
  unfold RecordStop at h
  simp only [hwr] at h
  split at h
  · exact absurd h (by simp)
  · rename_i w2 h1
    simp only [Option.some.injEq] at h
    exact ⟨false, w2, h1, Or.inl ⟨rfl, h.symm⟩⟩
  · rename_i w2 h1
    refine ⟨true, w2, h1, Or.inr ⟨rfl, ?_⟩⟩
    split at h
    · exact absurd h (by simp)
    · rename_i w3 h2
      simp only [Option.some.injEq] at h
      exact ⟨false, w3, h2, Or.inl ⟨rfl, h.symm⟩⟩
    · rename_i w3 h2
      simp only [Option.some.injEq] at h
      exact ⟨true, w3, h2, Or.inr ⟨rfl, h.symm⟩⟩

theorem RecordStop_none (E : Env ε) (now : LocalTime) (self : FileStream) (w : World ε)
    (hwr : self.writer = none) : RecordStop E now self w = some (self, w) := by
  unfold RecordStop
  simp only [hwr]

end BranchLemmas

/-! ## Provisioning comes first -/

section OrderClaims

variable {ε : Type}

/-- C18: in `RecordStart` every call after the creation of the writer and the
provisioning of the temp directory comes later in the log than the provisioning, and
there is none when provisioning returned false, so `SetPath` and `Start` are reached only
after provisioning returned true; likewise in `RecordStop` nothing (in particular no
`rename`) follows a provisioning of the final directory that returned false; and when
`MakeDirectoryRecursive` returns true, its last call is an access check on the path (as
given or with the trailing `/` forced) that succeeded in the state it returns. -/
theorem C18_targets_touched_after_provisioning (E : Env ε) (now : LocalTime)
    (selected_tracks : List Int) (self : FileStream) (w : World ε) :
    (∀ st, RecordStart E now selected_tracks self w = some st →
      ∃ b w1 fsEvs rest,
        MakeDirectoryRecursive E (E.extractPath (GetOutputTempFilePath self now))
          (w.doCreate E).2 = some (b, w1) ∧
        w1.log = w.log ++ Event.create (w.doCreate E).1 :: fsEvs ∧
        (∀ e ∈ fsEvs, e.isFs = true) ∧
        st.2.log = w1.log ++ rest ∧ (b = false → rest = [])) ∧
    (∀ wr st, self.writer = some wr → RecordStop E now self w = some st →
      ∃ b w2 fsEvs rest,
        MakeDirectoryRecursive E (E.extractPath (GetOutputFilePath self now))
          (w.doStop E wr) = some (b, w2) ∧
        w2.log = w.log ++ Event.stop wr :: fsEvs ∧
        (∀ e ∈ fsEvs, e.isFs = true) ∧
        st.2.log = w2.log ++ rest ∧ (b = false → rest = [])) ∧
    (∀ s w', MakeDirectoryRecursive E s w = some (true, w') →
      ∃ p, (p = s ∨ p = forceSlash s) ∧ E.access w'.ext p = true ∧
        w'.log.getLast? = some (Event.access p true)) := by
  refine ⟨?_, ?_, ?_⟩
  · intro st h
    obtain ⟨b, w1, hd, hcases⟩ := RecordStart_cases E now selected_tracks self w st h
    obtain ⟨fsEvs, hfs1, hfs2⟩ := MakeDirectoryRecursive_log E _ _ _ _ hd
    have hw1 : w1.log = w.log ++ Event.create (w.doCreate E).1 :: fsEvs := by
      rw [hfs1]; simp [World.doCreate, World.emit]
    rcases hcases with ⟨hb, hst⟩ | ⟨hb, _, hst⟩ | ⟨hb, _, ret, _, hst⟩
    · exact ⟨b, w1, fsEvs, [], hd, hw1, hfs2, by rw [hst]; simp, fun _ => rfl⟩
    · refine ⟨b, w1, fsEvs, [Event.setPath (w.doCreate E).1 (GetOutputTempFilePath self now)
        "mpegts".toList (E.setPath w1.ext (w.doCreate E).1 (GetOutputTempFilePath self now)
          "mpegts".toList).1], hd, hw1, hfs2, ?_, fun hf => absurd hb (by simp [hf])⟩
      rw [hst]
      rfl
    · obtain ⟨trEvs, htr1, _⟩ := addTracks_events E (w.doCreate E).1 selected_tracks
        self.tracks (w1.doSetPath E (w.doCreate E).1 (GetOutputTempFilePath self now)
          "mpegts".toList).2
      refine ⟨b, w1, fsEvs, Event.setPath (w.doCreate E).1 (GetOutputTempFilePath self now)
        "mpegts".toList (E.setPath w1.ext (w.doCreate E).1 (GetOutputTempFilePath self now)
          "mpegts".toList).1 :: (trEvs ++ [Event.start (w.doCreate E).1
            (E.start (addTracks E (w.doCreate E).1 selected_tracks self.tracks
              (w1.doSetPath E (w.doCreate E).1 (GetOutputTempFilePath self now)
                "mpegts".toList).2).ext (w.doCreate E).1).1]), hd, hw1, hfs2, ?_,
        fun hf => absurd hb (by simp [hf])⟩
      rw [hst]
      simp only [World.doStart, World.emit]
      rw [htr1]
      simp only [World.doSetPath, World.emit, List.append_assoc, List.singleton_append,
        List.cons_append, List.nil_append]
  · intro wr st hwr h
    obtain ⟨b1, w2, h1, hcases⟩ := RecordStop_cases E now self w st wr hwr h
    obtain ⟨fsEvs, hfs1, hfs2⟩ := MakeDirectoryRecursive_log E _ _ _ _ h1
    have hw2 : w2.log = w.log ++ Event.stop wr :: fsEvs := by
      rw [hfs1]; simp [World.doStop, World.emit]
    rcases hcases with ⟨hb, hst⟩ | ⟨hb, b2, w3, h2, hc2⟩
    · exact ⟨b1, w2, fsEvs, [], h1, hw2, hfs2, by rw [hst]; simp, fun _ => rfl⟩
    · obtain ⟨fsEvs2, hg1, _⟩ := MakeDirectoryRecursive_log E _ _ _ _ h2
      rcases hc2 with ⟨_, hst⟩ | ⟨_, hst⟩
      · exact ⟨b1, w2, fsEvs, fsEvs2, h1, hw2, hfs2, by rw [hst]; exact hg1,
          fun hf => absurd hb (by simp [hf])⟩
      · refine ⟨b1, w2, fsEvs, fsEvs2 ++ [Event.rename (E.getPath (w.doStop E wr).ext wr)
          (GetOutputFilePath self now) (E.rename w3.ext (E.getPath (w.doStop E wr).ext wr)
            (GetOutputFilePath self now)).1], h1, hw2, hfs2, ?_,
          fun hf => absurd hb (by simp [hf])⟩
        rw [hst]
        simp only [World.doRename, World.emit]
        rw [hg1, List.append_assoc]
  · intro s w' h
    exact (MakeDirectoryRecursive_true_access E s w w' h).2

/-- Witness for C18: a `RecordStart` in the filesystem model, and the provisioning of
`/a/b/c`. -/
theorem C18_targets_touched_after_provisioning_witness :
    (∃ b w1 fsEvs rest,
      MakeDirectoryRecursive modelEnv
        (modelEnv.extractPath (GetOutputTempFilePath sampleStream sampleTime))
        ((⟨sampleFs, []⟩ : World FsState).doCreate modelEnv).2 = some (b, w1) ∧
      w1.log = ([] : List Event)
        ++ Event.create ((⟨sampleFs, []⟩ : World FsState).doCreate modelEnv).1 :: fsEvs ∧
      (∀ e ∈ fsEvs, e.isFs = true) ∧
      ((RecordStart modelEnv sampleTime [] sampleStream ⟨sampleFs, []⟩).getD
        (sampleStream, ⟨sampleFs, []⟩)).2.log = w1.log ++ rest ∧ (b = false → rest = [])) ∧
    (∃ p, (p = "/a/b/c".toList ∨ p = forceSlash "/a/b/c".toList) ∧
      modelEnv.access ((MakeDirectoryRecursive modelEnv "/a/b/c".toList
        ⟨sampleFs, []⟩).getD (true, ⟨sampleFs, []⟩)).2.ext p = true ∧
      ((MakeDirectoryRecursive modelEnv "/a/b/c".toList
        ⟨sampleFs, []⟩).getD (true, ⟨sampleFs, []⟩)).2.log.getLast?
          = some (Event.access p true)) :=
  ⟨(C18_targets_touched_after_provisioning modelEnv sampleTime [] sampleStream
      ⟨sampleFs, []⟩).1 _ rfl,
   (C18_targets_touched_after_provisioning modelEnv sampleTime [] sampleStream
      ⟨sampleFs, []⟩).2.2 "/a/b/c".toList _ rfl⟩

end OrderClaims

/-! ## The writer handle over sequences of calls -/

section HandleLemmas

variable {ε : Type}

theorem discardedStep_fs (d : Bool) (e : Event) (he : e.isFs = true) :
    discardedStep d e = d := by
  cases e <;> first | rfl | exact absurd he (by simp [Event.isFs])

theorem foldl_discardedStep_fs (evs : List Event) (hfs : ∀ e ∈ evs, e.isFs = true) :
    ∀ d : Bool, evs.foldl discardedStep d = d := by
  induction evs with
  | nil => intro d; rfl
  | cons e r ih =>
    intro d
    rw [List.foldl_cons, discardedStep_fs d e (hfs e (List.mem_cons_self _ _))]
    exact ih (fun x hx => hfs x (List.mem_cons_of_mem _ hx)) d

theorem foldl_discardedStep_addTrack (evs : List Event)
    (l : List (Nat × Int × FileTrackQuality))
    (hl : evs.map Event.addTrackArgs = l.map some) :
    ∀ d : Bool, evs.foldl discardedStep d = d := by
  induction evs generalizing l with
  | nil => intro d; rfl
  | cons e r ih =>
    intro d
    cases l with
    | nil => exact absurd hl (by simp)
    | cons a l =>
      simp only [List.map_cons, List.cons.injEq] at hl
      have he : discardedStep d e = d := by
        cases e <;> first | rfl | exact absurd hl.1 (by simp [Event.addTrackArgs])
      rw [List.foldl_cons, he]
      exact ih l hl.2 d

theorem RecordStart_discarded (E : Env ε) (now : LocalTime) (selected_tracks : List Int)
    (self : FileStream) (w : World ε) (st : FileStream × World ε)
    (h : RecordStart E now selected_tracks self w = some st)
    (hdis : discardedAfter st.2.log = true) : st.1.writer = none := by
  obtain ⟨b, w1, hd, hcases⟩ := RecordStart_cases E now selected_tracks self w st h
  obtain ⟨fsEvs, hfs1, hfs2⟩ := MakeDirectoryRecursive_log E _ _ _ _ hd
  have hw1 : List.foldl discardedStep true w1.log = false := by
    rw [hfs1]
    simp only [World.doCreate, World.emit, List.foldl_append, List.foldl_cons,
      List.foldl_nil]
    rw [foldl_discardedStep_fs fsEvs hfs2]
    rfl
  rcases hcases with ⟨_, hst⟩ | ⟨_, _, hst⟩ | ⟨_, hsp, ret, hret, hst⟩
  · rw [hst] at hdis
    have hdis' : List.foldl discardedStep true w1.log = true := hdis
    rw [hw1] at hdis'
    exact absurd hdis' (by decide)
  · rw [hst]
  · obtain ⟨trEvs, htr1, htr2⟩ := addTracks_events E (w.doCreate E).1 selected_tracks
      self.tracks (w1.doSetPath E (w.doCreate E).1 (GetOutputTempFilePath self now)
        "mpegts".toList).2
    rw [hst] at hdis ⊢
    cases ret with
    | false => rfl
    | true =>
      simp only [World.doStart, World.emit] at hret
      simp only [discardedAfter, World.doStart, World.emit, List.foldl_append,
        List.foldl_cons, List.foldl_nil, htr1, hret] at hdis
      rw [foldl_discardedStep_addTrack trEvs _ htr2] at hdis
      simp only [World.doSetPath, World.emit] at hsp hdis
      simp only [List.foldl_append, List.foldl_cons, List.foldl_nil, hsp, hw1] at hdis
      exact absurd hdis (by simp [discardedStep])

theorem RecordStop_same (E : Env ε) (now : LocalTime) (self : FileStream) (w : World ε)
    (st : FileStream × World ε) (h : RecordStop E now self w = some st) :
    st.1 = self ∧ discardedAfter st.2.log = discardedAfter w.log := by
  cases hwr : self.writer with
  | none =>
    rw [RecordStop_none E now self w hwr] at h
    simp only [Option.some.injEq] at h
    subst h
    exact ⟨rfl, rfl⟩
  | some wr =>
    obtain ⟨b1, w2, h1, hcases⟩ := RecordStop_cases E now self w st wr hwr h
    obtain ⟨fsEvs, hfs1, hfs2⟩ := MakeDirectoryRecursive_log E _ _ _ _ h1
    have hw2 : discardedAfter w2.log = discardedAfter w.log := by
      rw [hfs1]
      simp only [discardedAfter, World.doStop, World.emit, List.foldl_append, List.foldl_cons,
        List.foldl_nil]
      rw [foldl_discardedStep_fs fsEvs hfs2]
      rfl
    rcases hcases with ⟨_, hst⟩ | ⟨_, b2, w3, h2, hc2⟩
    · rw [hst]; exact ⟨rfl, hw2⟩
    · obtain ⟨fsEvs2, hg1, hg2⟩ := MakeDirectoryRecursive_log E _ _ _ _ h2
      have hw3 : discardedAfter w3.log = discardedAfter w.log := by
        rw [← hw2, hg1]
        simp only [discardedAfter, List.foldl_append]
        rw [foldl_discardedStep_fs fsEvs2 hg2]
      rcases hc2 with ⟨_, hst⟩ | ⟨_, hst⟩
      · rw [hst]; exact ⟨rfl, hw3⟩
      · rw [hst]
        refine ⟨rfl, ?_⟩
        rw [← hw3]
        simp only [discardedAfter, World.doRename, World.emit, List.foldl_append,
          List.foldl_cons, List.foldl_nil]
        rfl

theorem Send_same (E : Env ε) (p : MediaPacket) (self : FileStream) (w : World ε) :
    (SendVideoFrame E p self w).1 = self ∧
    discardedAfter (SendVideoFrame E p self w).2.log = discardedAfter w.log ∧
    (SendAudioFrame E p self w).1 = self ∧
    discardedAfter (SendAudioFrame E p self w).2.log = discardedAfter w.log := by
  unfold SendVideoFrame SendAudioFrame
  cases self.writer with
  | none => exact ⟨rfl, rfl, rfl, rfl⟩
  | some wr =>
    refine ⟨rfl, ?_, rfl, ?_⟩ <;>
    · simp only [discardedAfter, World.doPutData, World.emit, List.foldl_append,
        List.foldl_cons, List.foldl_nil]
      rfl

theorem applyOp_discarded (E : Env ε) (op : Op) (st st1 : FileStream × World ε)
    (hinv : discardedAfter st.2.log = true → st.1.writer = none)
    (h : applyOp E op st = some st1) :
    discardedAfter st1.2.log = true → st1.1.writer = none := by
  cases op with
  | recordStart now sel => exact RecordStart_discarded E now sel st.1 st.2 st1 h
  | recordStop now =>
    obtain ⟨h1, h2⟩ := RecordStop_same E now st.1 st.2 st1 h
    rw [h1, h2]; exact hinv
  | sendVideoFrame p =>
    simp only [applyOp, Option.some.injEq] at h
    rw [← h, (Send_same E p st.1 st.2).1, (Send_same E p st.1 st.2).2.1]; exact hinv
  | sendAudioFrame p =>
    simp only [applyOp, Option.some.injEq] at h
    rw [← h, (Send_same E p st.1 st.2).2.2.1, (Send_same E p st.1 st.2).2.2.2]; exact hinv

theorem runOps_discarded (E : Env ε) (ops : List Op) :
    ∀ (st st1 : FileStream × World ε),
      (discardedAfter st.2.log = true → st.1.writer = none) →
      runOps E ops st = some st1 →
      discardedAfter st1.2.log = true → st1.1.writer = none := by
  induction ops with
  | nil =>
    intro st st1 hinv h
    simp only [runOps, Option.some.injEq] at h
    rw [← h]; exact hinv
  | cons op ops ih =>
    intro st st1 hinv h
    unfold runOps at h
    split at h
    · exact absurd h (by simp)
    · rename_i st2 h2
      exact ih st2 st1 (applyOp_discarded E op st st2 hinv h2) h

theorem recordingStep_fs (r : Bool) (e : Event) (he : e.isFs = true) :
    recordingStep r e = r := by
  cases e <;> first | rfl | exact absurd he (by simp [Event.isFs])

theorem foldl_recordingStep_fs (evs : List Event) (hfs : ∀ e ∈ evs, e.isFs = true) :
    ∀ r : Bool, evs.foldl recordingStep r = r := by
  induction evs with
  | nil => intro r; rfl
  | cons e t ih =>
    intro r
    rw [List.foldl_cons, recordingStep_fs r e (hfs e (List.mem_cons_self _ _))]
    exact ih (fun x hx => hfs x (List.mem_cons_of_mem _ hx)) r

theorem RecordStart_recording (E : Env ε) (now : LocalTime) (selected_tracks : List Int)
    (self : FileStream) (w : World ε) (st : FileStream × World ε)
    (h : RecordStart E now selected_tracks self w = some st)
    (hrec : recordingAfter st.2.log = true) : st.1.writer.isSome = true := by
  obtain ⟨b, w1, hd, hcases⟩ := RecordStart_cases E now selected_tracks self w st h
  obtain ⟨fsEvs, hfs1, hfs2⟩ := MakeDirectoryRecursive_log E _ _ _ _ hd
  have hw1 : recordingAfter w1.log = false := by
    rw [hfs1]
    simp only [recordingAfter, World.doCreate, World.emit, List.foldl_append, List.foldl_cons,
      List.foldl_nil]
    rw [foldl_recordingStep_fs fsEvs hfs2]
    rfl
  rcases hcases with ⟨_, hst⟩ | ⟨_, _, hst⟩ | ⟨_, _, ret, hret, hst⟩
  · rw [hst]; rfl
  · rw [hst] at hrec
    simp only [recordingAfter, World.doSetPath, World.emit, List.foldl_append, List.foldl_cons,
      List.foldl_nil] at hrec
    have hw1' : List.foldl recordingStep false w1.log = false := hw1
    rw [hw1'] at hrec
    exact absurd hrec (by simp [recordingStep])
  · rw [hst] at hrec ⊢
    simp only [World.doStart, World.emit] at hret
    simp only [recordingAfter, World.doStart, World.emit, List.foldl_append, List.foldl_cons,
      List.foldl_nil, hret] at hrec
    have hret' : ret = true := hrec
    rw [hret']
    rfl

theorem RecordStop_recording (E : Env ε) (now : LocalTime) (self : FileStream) (w : World ε)
    (st : FileStream × World ε) (h : RecordStop E now self w = some st)
    (hinv : recordingAfter w.log = true → self.writer.isSome = true)
    (hrec : recordingAfter st.2.log = true) : st.1.writer.isSome = true := by
  cases hwr : self.writer with
  | none =>
    rw [RecordStop_none E now self w hwr] at h
    simp only [Option.some.injEq] at h
    subst h
    exact hinv hrec
  | some wr =>
    rw [(RecordStop_same E now self w st h).1, hwr]
    rfl

theorem Send_recording (E : Env ε) (p : MediaPacket) (self : FileStream) (w : World ε)
    (hinv : recordingAfter w.log = true → self.writer.isSome = true) :
    (recordingAfter (SendVideoFrame E p self w).2.log = true →
      (SendVideoFrame E p self w).1.writer.isSome = true) ∧
    (recordingAfter (SendAudioFrame E p self w).2.log = true →
      (SendAudioFrame E p self w).1.writer.isSome = true) := by
  unfold SendVideoFrame SendAudioFrame
  cases hwr : self.writer with
  | none => exact ⟨hinv, hinv⟩
  | some wr => exact ⟨fun _ => by simp [hwr], fun _ => by simp [hwr]⟩

theorem runOps_recording (E : Env ε) (ops : List Op) :
    ∀ (st st1 : FileStream × World ε),
      (recordingAfter st.2.log = true → st.1.writer.isSome = true) →
      runOps E ops st = some st1 →
      recordingAfter st1.2.log = true → st1.1.writer.isSome = true := by
  induction ops with
  | nil =>
    intro st st1 hinv h
    simp only [runOps, Option.some.injEq] at h
    rw [← h]; exact hinv
  | cons op ops ih =>
    intro st st1 hinv h
    unfold runOps at h
    split at h
    · exact absurd h (by simp)
    · rename_i st2 h2
      refine ih st2 st1 ?_ h
      cases op with
      | recordStart now sel => exact RecordStart_recording E now sel st.1 st.2 st2 h2
      | recordStop now => exact RecordStop_recording E now st.1 st.2 st2 h2 hinv
      | sendVideoFrame p =>
        simp only [applyOp, Option.some.injEq] at h2
        rw [← h2]; exact (Send_recording E p st.1 st.2 hinv).1
      | sendAudioFrame p =>
        simp only [applyOp, Option.some.injEq] at h2
        rw [← h2]; exact (Send_recording E p st.1 st.2 hinv).2

end HandleLemmas

/-! ## The writer handle: claim -/

section HandleClaims

variable {ε : Type}

/-- C16, evaluated on the code: in the filesystem model a fresh session is started
successfully and then stopped; `RecordStop` runs to its last line (the rename succeeds),
the session is not Recording, and the writer handle (handle 0) is still present. -/
theorem C16_counterexample_writer_present_after_RecordStop :
    ∃ st, runOps modelEnv [Op.recordStart sampleTime [], Op.recordStop sampleTime]
        (sampleStream, ⟨sampleFs, []⟩) = some st ∧
      st.2.log.getLast? = some (Event.rename "/rec/live/abc.ts.tmp".toList
        "/rec/live/abc.ts".toList true) ∧
      recordingAfter st.2.log = false ∧
      st.1.writer = some 0 :=
  ⟨_, rfl, rfl, rfl, rfl⟩

/-- C16 (amended): in every state reached from a freshly constructed session by a
sequence of `RecordStart`, `RecordStop`, `SendVideoFrame` and `SendAudioFrame` calls, in
every environment: when the session is Recording the writer handle is present; when no
`RecordStart` has been made yet, or the most recent `RecordStart` failed at `SetPath` or at
`Start`, the writer handle is absent; and a `RecordStop` leaves the handle as it is. -/
theorem C16_writer_present_while_recording (E : Env ε) (ops : List Op)
    (tracks : List (Int × MediaTrack))
    (host_name app_name stream_name file_path file_info_path : Str)
    (e : ε) (st : FileStream × World ε)
    (h : runOps E ops (FileStream.initial tracks host_name app_name stream_name file_path
      file_info_path, ⟨e, []⟩) = some st) :
    (recordingAfter st.2.log = true → st.1.writer.isSome = true) ∧
    (discardedAfter st.2.log = true → st.1.writer = none) ∧
    (∀ now st2, RecordStop E now st.1 st.2 = some st2 → st2.1.writer = st.1.writer) :=
  ⟨runOps_recording E ops (FileStream.initial tracks host_name app_name stream_name file_path
      file_info_path, ⟨e, []⟩) st (fun hf => Bool.noConfusion (show false = true from hf)) h,
   runOps_discarded E ops (FileStream.initial tracks host_name app_name stream_name file_path
      file_info_path, ⟨e, []⟩) st (fun _ => rfl) h,
   fun now st2 h2 => by rw [(RecordStop_same E now st.1 st.2 st2 h2).1]⟩

/-- Witness for C16: in the filesystem model a fresh session is started and forwards a
video and an audio packet; it is Recording and holds writer 0. In an environment whose
`Start` fails, the session is not Recording after `RecordStart` and a packet forward, and
holds no writer. -/
theorem C16_writer_present_while_recording_witness :
    (∃ st, runOps modelEnv [Op.recordStart sampleTime [],
        Op.sendVideoFrame ⟨1, 0, 0, 0, []⟩, Op.sendAudioFrame ⟨2, 0, 0, 0, []⟩]
        (sampleStream, ⟨sampleFs, []⟩) = some st ∧
      recordingAfter st.2.log = true ∧
      st.1.writer = some 0 ∧
      ((recordingAfter st.2.log = true → st.1.writer.isSome = true) ∧
        (discardedAfter st.2.log = true → st.1.writer = none) ∧
        (∀ now st2, RecordStop modelEnv now st.1 st.2 = some st2 →
          st2.1.writer = st.1.writer))) ∧
    (∃ st, runOps (flagEnv true true true false) [Op.recordStart sampleTime [],
        Op.sendVideoFrame ⟨1, 0, 0, 0, []⟩] (sampleStream, ⟨[], []⟩) = some st ∧
      discardedAfter st.2.log = true ∧
      recordingAfter st.2.log = false ∧
      ((recordingAfter st.2.log = true → st.1.writer.isSome = true) ∧
        (discardedAfter st.2.log = true → st.1.writer = none) ∧
        (∀ now st2, RecordStop (flagEnv true true true false) now st.1 st.2 = some st2 →
          st2.1.writer = st.1.writer))) :=
  ⟨⟨_, rfl, rfl, rfl,
    C16_writer_present_while_recording modelEnv [Op.recordStart sampleTime [],
        Op.sendVideoFrame ⟨1, 0, 0, 0, []⟩, Op.sendAudioFrame ⟨2, 0, 0, 0, []⟩]
      [sampleTrack 1, sampleTrack 2, sampleTrack 3] "vhost".toList
      "#vhost#live".toList "abc".toList "/rec/${Application}/${Stream}.ts".toList
      "/rec/info/${Stream}.xml".toList sampleFs _ rfl⟩,
   ⟨_, rfl, rfl, rfl,
    C16_writer_present_while_recording (flagEnv true true true false)
      [Op.recordStart sampleTime [], Op.sendVideoFrame ⟨1, 0, 0, 0, []⟩]
      [sampleTrack 1, sampleTrack 2, sampleTrack 3] "vhost".toList
      "#vhost#live".toList "abc".toList "/rec/${Application}/${Stream}.ts".toList
      "/rec/info/${Stream}.xml".toList [] _ rfl⟩⟩

end HandleClaims

/-! ## The filesystem model over a recording -/

section ModelLemmas

theorem componentsFrom_sum (p : Str) :
    ∀ cur : Str, ((componentsFrom p cur).map List.length).sum
      = cur.length + (p.filter (fun c => c != '/')).length := by
  induction p with
  | nil =>
    intro cur
    cases cur with
    | nil => rfl
    | cons a t => simp [componentsFrom]
  | cons c r ih =>
    intro cur
    by_cases hc : c = '/'
    · subst hc
      cases cur with
      | nil => simp [componentsFrom, ih]
      | cons a t => simp [componentsFrom, ih]
    · simp only [componentsFrom, hc, if_false, ih, List.length_append, List.length_singleton]
      have : (c != '/') = true := by simpa using hc
      simp only [List.filter_cons, this, if_true, List.length_cons]
      omega

theorem components_tmp_ne (p : Str) : components (p ++ ".tmp".toList) ≠ components p := by
  intro h
  have h1 := componentsFrom_sum (p ++ ".tmp".toList) []
  have h2 := componentsFrom_sum p []
  unfold components at h
  rw [h, h2] at h1
  simp only [List.filter_append, List.length_append, List.length_nil] at h1
  have h3 : (List.filter (fun c => c != '/') ".tmp".toList).length = 4 := by decide
  omega

theorem moveFile_true (e : FsState) (src dst : Str) (h : (e.moveFile src dst).1 = true) :
    (e.moveFile src dst).2.pathExists dst = true ∧
    (components src ≠ components dst → (e.moveFile src dst).2.pathExists src = false) := by
  unfold FsState.moveFile at h ⊢
  cases hf : e.find (components src) with
  | none => simp [hf] at h
  | some ent =>
    simp only [hf] at h ⊢
    by_cases hc : (!ent.isDir && e.canCreate (components dst)
        && !((e.find (components dst)).any (fun x => x.isDir))) = true
    · simp only [hc, if_true]
      constructor
      · simp [FsState.pathExists, FsState.find, List.find?_isSome]
      · intro hne
        simp only [FsState.pathExists, FsState.find]
        have hnone : List.find? (fun x => x.path == components src)
            (e.without (components src) (components dst) ++
              [{ path := components dst, isDir := false, rw := ent.rw }]) = none := by
          rw [List.find?_eq_none]
          intro x hx
          simp only [List.mem_append, List.mem_singleton, FsState.without, List.mem_filter] at hx
          rcases hx with ⟨_, hx⟩ | hx
          · simp only [Bool.and_eq_true, bne_iff_ne, ne_eq] at hx
            simpa using hx.1
          · subst hx
            simpa using fun h => hne h.symm
        rw [hnone]
        rfl
    · simp [hc] at h


theorem addTracks_ext (wr : Nat) (selected_tracks : List Int) :
    ∀ (tracks : List (Int × MediaTrack)) (w : World FsState),
      (addTracks modelEnv wr selected_tracks tracks w).ext = w.ext := by
  intro tracks
  induction tracks with
  | nil => intro w; rfl
  | cons item rest ih =>
    intro w
    unfold addTracks
    simp only
    split
    · exact ih w
    · rw [ih]; rfl

theorem sendAll_session {ε : Type} (E : Env ε) :
    ∀ (packets : List (Bool × MediaPacket)) (st : FileStream × World ε),
      (sendAll E packets st).1 = st.1 ∧
      ∃ evs, (sendAll E packets st).2.log = st.2.log ++ evs ∧
        ∀ e ∈ evs, e.isStart = false ∧ e.renameArgs = none := by
  intro packets
  induction packets with
  | nil => intro st; exact ⟨rfl, [], by simp [sendAll], by simp⟩
  | cons a ps ih =>
    intro st
    obtain ⟨b, p⟩ := a
    have key : ∀ st1 : FileStream × World ε, st1.1 = st.1 →
        (∃ evs1, st1.2.log = st.2.log ++ evs1 ∧
          ∀ e ∈ evs1, e.isStart = false ∧ e.renameArgs = none) →
        (sendAll E ps st1).1 = st.1 ∧
        ∃ evs, (sendAll E ps st1).2.log = st.2.log ++ evs ∧
          ∀ e ∈ evs, e.isStart = false ∧ e.renameArgs = none := by
      intro st1 h1 ⟨evs1, h2, h3⟩
      obtain ⟨i1, evs2, i2, i3⟩ := ih st1
      refine ⟨i1.trans h1, evs1 ++ evs2, by rw [i2, h2, List.append_assoc], ?_⟩
      intro e he
      rcases List.mem_append.1 he with he | he
      · exact h3 e he
      · exact i3 e he
    have step : ∀ st1 : FileStream × World ε,
        (st1 = SendVideoFrame E p st.1 st.2 ∨ st1 = SendAudioFrame E p st.1 st.2) →
        st1.1 = st.1 ∧ ∃ evs1, st1.2.log = st.2.log ++ evs1 ∧
          ∀ e ∈ evs1, e.isStart = false ∧ e.renameArgs = none := by
      intro st1 hst1
      have hst : st1 = SendVideoFrame E p st.1 st.2 := by
        rcases hst1 with h | h
        · exact h
        · exact h
      rw [hst]
      unfold SendVideoFrame
      cases st.1.writer with
      | none => exact ⟨rfl, [], by simp, by simp⟩
      | some wr =>
        exact ⟨rfl, [_], rfl, by
          intro e he
          rw [List.mem_singleton.1 he]
          exact ⟨rfl, rfl⟩⟩
    cases b with
    | true => exact key _ (step _ (Or.inl rfl)).1 (step _ (Or.inl rfl)).2
    | false => exact key _ (step _ (Or.inr rfl)).1 (step _ (Or.inr rfl)).2

theorem sendAll_ext :
    ∀ (packets : List (Bool × MediaPacket)) (st : FileStream × World FsState),
      (sendAll modelEnv packets st).2.ext = st.2.ext := by
  intro packets
  induction packets with
  | nil => intro st; rfl
  | cons a ps ih =>
    intro st
    obtain ⟨b, p⟩ := a
    cases b with
    | true =>
      show (sendAll modelEnv ps (SendVideoFrame modelEnv p st.1 st.2)).2.ext = _
      rw [ih]
      unfold SendVideoFrame
      cases st.1.writer <;> rfl
    | false =>
      show (sendAll modelEnv ps (SendAudioFrame modelEnv p st.1 st.2)).2.ext = _
      rw [ih]
      unfold SendAudioFrame
      cases st.1.writer <;> rfl

end ModelLemmas

/-! ## The calls of a whole recording -/

section RunLemmas

variable {ε : Type}

theorem fs_event_plain (e : Event) (he : e.isFs = true) :
    e.isStart = false ∧ e.renameArgs = none := by
  cases e <;> first | exact ⟨rfl, rfl⟩ | exact absurd he (by simp [Event.isFs])

theorem addTrack_event_plain (evs : List Event) (l : List (Nat × Int × FileTrackQuality))
    (h : evs.map Event.addTrackArgs = l.map some) (e : Event) (he : e ∈ evs) :
    e.isStart = false ∧ e.renameArgs = none := by
  have h1 : e.addTrackArgs ∈ evs.map Event.addTrackArgs := List.mem_map_of_mem _ he
  rw [h] at h1
  obtain ⟨a, _, ha⟩ := List.mem_map.1 h1
  cases e <;> first | exact ⟨rfl, rfl⟩ | exact absurd ha (by simp [Event.addTrackArgs])

theorem renameCalls_none (evs : List Event) (h : ∀ e ∈ evs, e.renameArgs = none) :
    renameCalls evs = [] := by
  unfold renameCalls
  rw [List.filterMap_eq_nil_iff]
  exact h

theorem RecordStart_events (E : Env ε) (now : LocalTime) (selected_tracks : List Int)
    (self : FileStream) (w : World ε) (st : FileStream × World ε)
    (h : RecordStart E now selected_tracks self w = some st) :
    ∃ evs, st.2.log = w.log ++ evs ∧ (∀ e ∈ evs, e.renameArgs = none) ∧
      (∀ wr, Event.start wr true ∈ evs →
        ∃ w1 : World ε, (w1.doSetPath E (w.doCreate E).1 (GetOutputTempFilePath self now)
            "mpegts".toList).1 = true ∧
          st = ({ self with writer := some (w.doCreate E).1 },
            ((addTracks E (w.doCreate E).1 selected_tracks self.tracks
              (w1.doSetPath E (w.doCreate E).1 (GetOutputTempFilePath self now)
                "mpegts".toList).2).doStart E (w.doCreate E).1).2)) := by
  obtain ⟨b, w1, hd, hcases⟩ := RecordStart_cases E now selected_tracks self w st h
  obtain ⟨fsEvs, hfs1, hfs2⟩ := MakeDirectoryRecursive_log E _ _ _ _ hd
  have hw1 : w1.log = w.log ++ Event.create (w.doCreate E).1 :: fsEvs := by
    rw [hfs1]; simp [World.doCreate, World.emit]
  have hpre : ∀ e ∈ Event.create (w.doCreate E).1 :: fsEvs,
      e.isStart = false ∧ e.renameArgs = none := by
    intro e he
    rcases List.mem_cons.1 he with he | he
    · rw [he]; exact ⟨rfl, rfl⟩
    · exact fs_event_plain e (hfs2 e he)
  rcases hcases with ⟨_, hst⟩ | ⟨_, _, hst⟩ | ⟨_, hsp, ret, hret, hst⟩
  · refine ⟨Event.create (w.doCreate E).1 :: fsEvs, by rw [hst]; exact hw1,
      fun e he => (hpre e he).2, ?_⟩
    intro wr hmem
    exact absurd (hpre _ hmem).1 (by simp [Event.isStart])
  · refine ⟨(Event.create (w.doCreate E).1 :: fsEvs) ++
      [Event.setPath (w.doCreate E).1 (GetOutputTempFilePath self now) "mpegts".toList
        (E.setPath w1.ext (w.doCreate E).1 (GetOutputTempFilePath self now)
          "mpegts".toList).1], ?_, ?_, ?_⟩
    · rw [hst]
      simp only [World.doSetPath, World.emit, hw1, List.append_assoc]
    · intro e he
      rcases List.mem_append.1 he with he | he
      · exact (hpre e he).2
      · rw [List.mem_singleton.1 he]; rfl
    · intro wr hmem
      rcases List.mem_append.1 hmem with he | he
      · exact absurd (hpre _ he).1 (by simp [Event.isStart])
      · exact absurd (List.mem_singleton.1 he) (by simp)
  · obtain ⟨trEvs, htr1, htr2⟩ := addTracks_events E (w.doCreate E).1 selected_tracks
      self.tracks (w1.doSetPath E (w.doCreate E).1 (GetOutputTempFilePath self now)
        "mpegts".toList).2
    have hmid : ∀ e ∈ (Event.create (w.doCreate E).1 :: fsEvs) ++
        Event.setPath (w.doCreate E).1 (GetOutputTempFilePath self now) "mpegts".toList
          (E.setPath w1.ext (w.doCreate E).1 (GetOutputTempFilePath self now)
            "mpegts".toList).1 :: trEvs, e.isStart = false ∧ e.renameArgs = none := by
      intro e he
      rcases List.mem_append.1 he with he | he
      · exact hpre e he
      · rcases List.mem_cons.1 he with he | he
        · rw [he]; exact ⟨rfl, rfl⟩
        · exact addTrack_event_plain trEvs _ htr2 e he
    refine ⟨((Event.create (w.doCreate E).1 :: fsEvs) ++
        Event.setPath (w.doCreate E).1 (GetOutputTempFilePath self now) "mpegts".toList
          (E.setPath w1.ext (w.doCreate E).1 (GetOutputTempFilePath self now)
            "mpegts".toList).1 :: trEvs) ++ [Event.start (w.doCreate E).1 ret], ?_, ?_, ?_⟩
    · rw [hst]
      simp only [World.doStart, World.emit] at hret ⊢
      rw [htr1, hret]
      simp only [World.doSetPath, World.emit, hw1, List.append_assoc, List.cons_append,
        List.singleton_append, List.nil_append]
    · intro e he
      rcases List.mem_append.1 he with he | he
      · exact (hmid e he).2
      · rw [List.mem_singleton.1 he]; rfl
    · intro wr hmem
      rcases List.mem_append.1 hmem with he | he
      · exact absurd (hmid _ he).1 (by simp [Event.isStart])
      · have hev := List.mem_singleton.1 he
        simp only [Event.start.injEq] at hev
        refine ⟨w1, hsp, ?_⟩
        rw [hst, ← hev.2]
        rfl

theorem RecordStop_events (E : Env ε) (now : LocalTime) (self : FileStream) (w : World ε)
    (st : FileStream × World ε) (h : RecordStop E now self w = some st) :
    ∃ evs, st.2.log = w.log ++ evs ∧ (∀ e ∈ evs, e.isStart = false) ∧
      (∀ src dst, Event.rename src dst true ∈ evs →
        ∃ (wr : Nat) (w3 : World ε) (pre : List Event), self.writer = some wr ∧
          st.2 = (w3.doRename E (E.getPath (w.doStop E wr).ext wr)
            (GetOutputFilePath self now)).2 ∧
          (E.rename w3.ext (E.getPath (w.doStop E wr).ext wr)
            (GetOutputFilePath self now)).1 = true ∧
          evs = pre ++ [Event.rename (E.getPath (w.doStop E wr).ext wr)
            (GetOutputFilePath self now) true] ∧
          ∀ e ∈ pre, e.renameArgs = none) := by
  cases hwr : self.writer with
  | none =>
    rw [RecordStop_none E now self w hwr] at h
    simp only [Option.some.injEq] at h
    subst h
    exact ⟨[], by simp, by simp, by simp⟩
  | some wr =>
    obtain ⟨b1, w2, h1, hcases⟩ := RecordStop_cases E now self w st wr hwr h
    obtain ⟨fsEvs, hfs1, hfs2⟩ := MakeDirectoryRecursive_log E _ _ _ _ h1
    have hw2 : w2.log = w.log ++ Event.stop wr :: fsEvs := by
      rw [hfs1]; simp [World.doStop, World.emit]
    have hpre : ∀ e ∈ Event.stop wr :: fsEvs, e.isStart = false ∧ e.renameArgs = none := by
      intro e he
      rcases List.mem_cons.1 he with he | he
      · rw [he]; exact ⟨rfl, rfl⟩
      · exact fs_event_plain e (hfs2 e he)
    rcases hcases with ⟨_, hst⟩ | ⟨_, b2, w3, h2, hc2⟩
    · refine ⟨Event.stop wr :: fsEvs, by rw [hst]; exact hw2, fun e he => (hpre e he).1, ?_⟩
      intro src dst hmem
      exact absurd (hpre _ hmem).2 (by simp [Event.renameArgs])
    · obtain ⟨fsEvs2, hg1, hg2⟩ := MakeDirectoryRecursive_log E _ _ _ _ h2
      have hpre2 : ∀ e ∈ (Event.stop wr :: fsEvs) ++ fsEvs2,
          e.isStart = false ∧ e.renameArgs = none := by
        intro e he
        rcases List.mem_append.1 he with he | he
        · exact hpre e he
        · exact fs_event_plain e (hg2 e he)
      have hw3 : w3.log = w.log ++ ((Event.stop wr :: fsEvs) ++ fsEvs2) := by
        rw [hg1, hw2, List.append_assoc]
      rcases hc2 with ⟨_, hst⟩ | ⟨_, hst⟩
      · refine ⟨(Event.stop wr :: fsEvs) ++ fsEvs2, by rw [hst]; exact hw3,
          fun e he => (hpre2 e he).1, ?_⟩
        intro src dst hmem
        exact absurd (hpre2 _ hmem).2 (by simp [Event.renameArgs])
      · refine ⟨((Event.stop wr :: fsEvs) ++ fsEvs2) ++
          [Event.rename (E.getPath (w.doStop E wr).ext wr) (GetOutputFilePath self now)
            (E.rename w3.ext (E.getPath (w.doStop E wr).ext wr)
              (GetOutputFilePath self now)).1], ?_, ?_, ?_⟩
        · rw [hst]
          simp only [World.doRename, World.emit]
          rw [hw3, List.append_assoc]
        · intro e he
          rcases List.mem_append.1 he with he | he
          · exact (hpre2 e he).1
          · rw [List.mem_singleton.1 he]; rfl
        · intro src dst hmem
          rcases List.mem_append.1 hmem with he | he
          · exact absurd (hpre2 _ he).2 (by simp [Event.renameArgs])
          · have hev := List.mem_singleton.1 he
            simp only [Event.rename.injEq] at hev
            refine ⟨wr, w3, (Event.stop wr :: fsEvs) ++ fsEvs2, rfl, by rw [hst],
              hev.2.2.symm, ?_, fun e he => (hpre2 e he).2⟩
            rw [← hev.2.2]

end RunLemmas

/-! ## The round trip: claim -/

section RoundTripClaim

theorem startWriter_writers (e : FsState) (wr : Nat) :
    (e.startWriter wr).2.writers = e.writers := by
  unfold FsState.startWriter
  simp only
  split <;> rfl

/-- C15: in the filesystem model, for every run `RecordStart`, any number of packet
forwards, `RecordStop` in which `Start` returned true and the `rename` returned true (it
is attempted only after both provisionings of `RecordStop` returned true): the run makes
exactly one `rename` call, from the temp path handed to the writer at the start to the
final path resolved at the stop; afterwards the final path exists, and the temp path does
not exist provided the two paths name different files, which is so whenever the final
path resolves to the same string at the start and at the stop. -/
theorem C15_round_trip_moves_temp_to_final (now1 now2 : LocalTime)
    (selected_tracks : List Int) (packets : List (Bool × MediaPacket)) (self : FileStream)
    (w : World FsState) (s3 : FileStream) (w3 : World FsState) (wr : Nat) (src dst : Str)
    (hrun : recordingRun modelEnv now1 now2 selected_tracks packets self w = some (s3, w3))
    (hstart : Event.start wr true ∈ w3.log.drop w.log.length)
    (hren : Event.rename src dst true ∈ w3.log.drop w.log.length) :
    renameCalls (w3.log.drop w.log.length)
      = [(GetOutputTempFilePath self now1, GetOutputFilePath self now2, true)] ∧
    w3.ext.pathExists (GetOutputFilePath self now2) = true ∧
    ((components (GetOutputTempFilePath self now1) ≠ components (GetOutputFilePath self now2) ∨
        GetOutputFilePath self now2 = GetOutputFilePath self now1) →
      w3.ext.pathExists (GetOutputTempFilePath self now1) = false) := by
  unfold recordingRun at hrun
  cases h1 : RecordStart modelEnv now1 selected_tracks self w with
  | none =>
    rw [h1] at hrun
    exact absurd hrun (by simp)
  | some st1 =>
    rw [h1] at hrun
    simp only at hrun
    obtain ⟨evs1, hl1, hnr1, hfact⟩ :=
      RecordStart_events modelEnv now1 selected_tracks self w st1 h1
    obtain ⟨hs1, evsS, hlS, hplain⟩ := sendAll_session modelEnv packets st1
    have hx := sendAll_ext packets st1
    obtain ⟨evs3, hl3, hns3, hfact3⟩ := RecordStop_events modelEnv now2 _ _ _ hrun
    simp only at hl3
    have hdrop : w3.log.drop w.log.length = evs1 ++ evsS ++ evs3 := by
      rw [hl3, hlS, hl1, List.append_assoc, List.append_assoc, List.drop_left,
        List.append_assoc]
    rw [hdrop] at hstart hren ⊢
    have hst_in : Event.start wr true ∈ evs1 := by
      rcases List.mem_append.1 hstart with h | h
      · rcases List.mem_append.1 h with h | h
        · exact h
        · exact absurd (hplain _ h).1 (by simp [Event.isStart])
      · exact absurd (hns3 _ h) (by simp [Event.isStart])
    have hren_in : Event.rename src dst true ∈ evs3 := by
      rcases List.mem_append.1 hren with h | h
      · rcases List.mem_append.1 h with h | h
        · exact absurd (hnr1 _ h) (by simp [Event.renameArgs])
        · exact absurd (hplain _ h).2 (by simp [Event.renameArgs])
      · exact h
    obtain ⟨w1, hsp, hst1⟩ := hfact wr hst_in
    obtain ⟨c, w3a, pre, hwr, hw3, hok, hevs3, hpre⟩ := hfact3 src dst hren_in
    rw [hs1, hst1] at hwr
    simp only [Option.some.injEq] at hwr
    have hlen : (w.doCreate modelEnv).1 < w1.ext.writers.length := by
      simpa [World.doSetPath, modelEnv] using hsp
    have hpath : modelEnv.getPath ((sendAll modelEnv packets st1).2.doStop modelEnv c).ext c
        = GetOutputTempFilePath self now1 := by
      show ((sendAll modelEnv packets st1).2.ext).writers.getD c [] = _
      rw [hx, hst1, ← hwr]
      show (FsState.startWriter _ _).2.writers.getD _ [] = _
      rw [startWriter_writers, addTracks_ext]
      show (w1.ext.writers.set _ _).getD _ [] = _
      simp [List.getD_eq_getElem?_getD, hlen]
    have hfin : GetOutputFilePath (sendAll modelEnv packets st1).1 now2
        = GetOutputFilePath self now2 := by
      rw [hs1, hst1]
      rfl
    rw [hpath, hfin] at hw3 hok hevs3
    simp only at hw3
    have hext : w3.ext = (w3a.ext.moveFile (GetOutputTempFilePath self now1)
        (GetOutputFilePath self now2)).2 := by
      rw [hw3]
      rfl
    have hmv := moveFile_true w3a.ext (GetOutputTempFilePath self now1)
      (GetOutputFilePath self now2) hok
    refine ⟨?_, ?_, ?_⟩
    · rw [hevs3]
      unfold renameCalls
      simp only [List.filterMap_append]
      have e1 := renameCalls_none evs1 hnr1
      have e2 := renameCalls_none evsS (fun e he => (hplain e he).2)
      have e3 := renameCalls_none pre hpre
      unfold renameCalls at e1 e2 e3
      rw [e1, e2, e3]
      rfl
    · rw [hext]
      exact hmv.1
    · intro hor
      rw [hext]
      apply hmv.2
      rcases hor with hne | heq
      · exact hne
      · rw [heq]
        exact components_tmp_ne (GetOutputFilePath self now1)

/-- Witness for C15: in the filesystem model with a writable root, a session recording to
`/rec/live/abc.ts` is started, forwards a video and an audio packet, and is stopped; the
single rename moves `/rec/live/abc.ts.tmp` to `/rec/live/abc.ts`. -/
theorem C15_round_trip_moves_temp_to_final_witness :
    ∃ s3 w3, recordingRun modelEnv sampleTime sampleTime [] [(true, ⟨1, 0, 0, 0, []⟩),
        (false, ⟨2, 0, 0, 0, []⟩)] sampleStream ⟨sampleFs, []⟩ = some (s3, w3) ∧
      GetOutputTempFilePath sampleStream sampleTime = "/rec/live/abc.ts.tmp".toList ∧
      GetOutputFilePath sampleStream sampleTime = "/rec/live/abc.ts".toList ∧
      renameCalls (w3.log.drop ([] : List Event).length)
        = [(GetOutputTempFilePath sampleStream sampleTime,
            GetOutputFilePath sampleStream sampleTime, true)] ∧
      w3.ext.pathExists (GetOutputFilePath sampleStream sampleTime) = true ∧
      ((components (GetOutputTempFilePath sampleStream sampleTime)
          ≠ components (GetOutputFilePath sampleStream sampleTime) ∨
          GetOutputFilePath sampleStream sampleTime
            = GetOutputFilePath sampleStream sampleTime) →
        w3.ext.pathExists (GetOutputTempFilePath sampleStream sampleTime) = false) :=
  ⟨_, _, rfl, by decide, by decide,
    C15_round_trip_moves_temp_to_final sampleTime sampleTime []
      [(true, ⟨1, 0, 0, 0, []⟩), (false, ⟨2, 0, 0, 0, []⟩)] sampleStream ⟨sampleFs, []⟩ _ _ 0
      "/rec/live/abc.ts.tmp".toList "/rec/live/abc.ts".toList rfl (by decide) (by decide)⟩

end RoundTripClaim

end FilePublisher
